import Mathlib

/-!
Verification of the subtitle timing/segmentation pipeline of
`subtitle_improver.py` (video-subtitle-translator).

The Python code is shallowly embedded over `List Char` (Python `str`),
`Int` (Python `int`) and `ℚ` (Python `float`: the code's time arithmetic
is modeled with exact rationals).  Each `def` below mirrors one Python
function or local code block; the mirrored source location is named in
its doc comment.  Recursive functions are defined by structural
recursion on an explicit fuel argument (always called with enough fuel,
as the congruence lemmas below establish) so that every definition
computes by kernel reduction.
-/

namespace SubtitleImprover

/-- Python strings are modeled as lists of characters. -/
abbrev Str := List Char

/-- Embed a Lean string literal into the model. -/
def S (s : String) : Str := s.data

/-- ASCII whitespace, the characters Python's `str.strip()` removes
(the Unicode extras never occur in this pipeline's data). -/
def pyIsSpace (c : Char) : Bool :=
  c == ' ' || c == '\t' || c == '\n' || c == '\r' ||
    c == Char.ofNat 11 || c == Char.ofNat 12

/-- Python `str.lstrip()`. -/
def pyLStrip (s : Str) : Str := s.dropWhile pyIsSpace

/-- Python `str.rstrip()`. -/
def pyRStrip (s : Str) : Str := (s.reverse.dropWhile pyIsSpace).reverse

/-- Python `str.strip()`. -/
def pyStrip (s : Str) : Str := pyRStrip (pyLStrip s)

/-- Python `sub in s` for a nonempty pattern `sub`. -/
def containsSub (sep : Str) : Str → Bool
  | [] => sep.isPrefixOf []
  | c :: rest => sep.isPrefixOf (c :: rest) || containsSub sep rest

/-- Fuel-driven body of Python `s.split(sep)` (nonempty separator):
non-overlapping occurrences located left to right.  The fuel-exhausted
case is unreachable whenever `s.length ≤ fuel`. -/
def splitSubF (sep : Str) : Nat → Str → List Str
  | _, [] => [[]]
  | 0, s => [s]
  | fuel + 1, c :: rest =>
    if sep ≠ [] ∧ sep.isPrefixOf (c :: rest) then
      [] :: splitSubF sep fuel ((c :: rest).drop sep.length)
    else
      match splitSubF sep fuel rest with
      | [] => [[c]]
      | r :: rs => (c :: r) :: rs

/-- Python `s.split(sep)` for a nonempty separator.  (Python raises
`ValueError` on an empty separator; every call site below passes a
nonempty one.) -/
def splitSub (sep : Str) (s : Str) : List Str := splitSubF sep s.length s

/-- Fuel-driven body of Python `s.count(sep)` (non-overlapping). -/
def countSubF (sep : Str) : Nat → Str → Nat
  | _, [] => 0
  | 0, _ => 0
  | fuel + 1, c :: rest =>
    if sep ≠ [] ∧ sep.isPrefixOf (c :: rest) then
      countSubF sep fuel ((c :: rest).drop sep.length) + 1
    else
      countSubF sep fuel rest

/-- Python `s.count(sep)` for a nonempty `sep`. -/
def countSub (sep : Str) (s : Str) : Nat := countSubF sep s.length s

/-- Value of a decimal digit character. -/
def digitToNat (c : Char) : Nat := c.toNat - 48

/-- Value of a string of decimal digits (most significant first). -/
def digitsVal (s : Str) : Nat := s.foldl (fun a c => 10 * a + digitToNat c) 0

/-- Fuel-driven decimal rendering of a natural number. -/
def natToDigitsF : Nat → Nat → Str
  | 0, n => [Char.ofNat (48 + n % 10)]
  | fuel + 1, n =>
    if n < 10 then [Char.ofNat (48 + n)]
    else natToDigitsF fuel (n / 10) ++ [Char.ofNat (48 + n % 10)]

/-- Decimal rendering of a natural number (no sign, no padding). -/
def natToDigits (n : Nat) : Str := natToDigitsF n n

/-- Python `str(n)` for an `int` `n`. -/
def intToStr (n : Int) : Str :=
  if n < 0 then '-' :: natToDigits n.natAbs else natToDigits n.natAbs

/-- CPython `digitpart` grammar tail: digits already begun, allowing a
single underscore between digit groups (`digit (["_"] digit)*`). -/
def digitGroups : Nat → Str → Option Nat
  | acc, [] => some acc
  | acc, c :: rest =>
    if c.isDigit then digitGroups (10 * acc + digitToNat c) rest
    else if c = '_' then
      match rest with
      | [] => none
      | d :: rest2 =>
        if d.isDigit then digitGroups (10 * acc + digitToNat d) rest2 else none
    else none

/-- An unsigned CPython integer literal body: at least one digit, with
optional single underscores between digits. -/
def pyUnsigned : Str → Option Nat
  | [] => none
  | c :: rest => if c.isDigit then digitGroups (digitToNat c) rest else none

/-- Python `int(s)` on a string: strips whitespace, allows one sign, and
accepts underscores between digits (ASCII digits; the pipeline never
feeds it non-ASCII digits).  `none` models a raised `ValueError`. -/
def pyInt (s : Str) : Option Int :=
  match pyStrip s with
  | [] => none
  | c :: rest =>
    if c = '+' then (pyUnsigned rest).map Int.ofNat
    else if c = '-' then (pyUnsigned rest).map (fun k => -(k : Int))
    else (pyUnsigned (c :: rest)).map Int.ofNat

/-- Python `str.isdigit()` (ASCII digits; the transcripts this pipeline
handles contain no Unicode digit exotica). -/
def isDigitStr (s : Str) : Bool := s ≠ [] && s.all (·.isDigit)

/-- One character of the Cyrillic residue class `[А-Яа-яЁё]`
(`re.search` pattern used throughout the translation stage). -/
def isCyr (c : Char) : Bool :=
  (0x410 ≤ c.toNat && c.toNat ≤ 0x44F) || c.toNat == 0x401 || c.toNat == 0x451

/-- `re.search(r'[А-Яа-яЁё]', s)` succeeds: the text still carries
source-language (Cyrillic) residue. -/
def hasCyr (s : Str) : Bool := s.any isCyr

/-- The block separator `"\n\n"`. -/
def nn : Str := ['\n', '\n']

/-- The timing arrow `" --> "` written between the two timestamps. -/
def arrow : Str := [' ', '-', '-', '>', ' ']

/-- Left-zero padding to a minimum width (Python `{:0Nd}` on a
nonnegative value). -/
def natPad (w : Nat) (n : Nat) : Str :=
  let d := natToDigits n
  List.replicate (w - d.length) '0' ++ d

/-- The 12-character timestamp shape `\d{2}:\d{2}:\d{2},\d{3}`. -/
def isTS (s : Str) : Bool :=
  match s with
  | [h1, h2, c1, m1, m2, c2, s1, s2, c3, d1, d2, d3] =>
    h1.isDigit && h2.isDigit && c1 == ':' && m1.isDigit && m2.isDigit &&
      c2 == ':' && s1.isDigit && s2.isDigit && c3 == ',' &&
      d1.isDigit && d2.isDigit && d3.isDigit
  | _ => false

/-- `re.match(r'(\d{2}:\d{2}:\d{2},\d{3})\s*-->\s*(\d{2}:\d{2}:\d{2},\d{3})', line)`
from `parse_srt`: the two captured groups.  The pattern's character
classes are disjoint from `\s` and from `-`, so the backtracking regex is
equivalent to this greedy scan. -/
def matchTiming (line : Str) : Option (Str × Str) :=
  let g1 := line.take 12
  if isTS g1 then
    let r1 := (line.drop 12).dropWhile pyIsSpace
    if (S "-->").isPrefixOf r1 then
      let g2 := ((r1.drop 3).dropWhile pyIsSpace).take 12
      if isTS g2 then some (g1, g2) else none
    else none
  else none

/-- `re.match(r'\[(\d+)\]\s*(.+)', line)` from `translate_batch_async`,
followed by the code's `int(idx)` and `text.strip()`: returns the tag
number and the stripped translated text.  A reply line matches exactly
when it starts with a bracketed digit run and anything nonempty follows
the closing bracket. -/
def matchTagged (line : Str) : Option (Nat × Str) :=
  match line with
  | '[' :: rest =>
    let ds := rest.takeWhile (·.isDigit)
    match rest.dropWhile (·.isDigit) with
    | ']' :: r =>
      if ds ≠ [] ∧ r ≠ [] then some (digitsVal ds, pyStrip r) else none
    | _ => none
  | _ => none

/-- A caption id: `SubtitleEntry.index` is an `int` for parsed captions
and a derived `str` (e.g. `"12_1"`) for captions made by the splitter. -/
inductive SubIdx where
  | intIdx (n : Int)
  | strIdx (s : Str)
deriving DecidableEq

/-- How an id prints inside `f"{self.index}"`. -/
def idxStr : SubIdx → Str
  | .intIdx n => intToStr n
  | .strIdx s => s

/-- The `SubtitleEntry` class: one caption. -/
structure SubtitleEntry where
  index : SubIdx
  start_time : Str
  end_time : Str
  text : Str
deriving DecidableEq

/-- `SubtitleEntry.__str__`:
`f"{self.index}\n{self.start_time} --> {self.end_time}\n{self.text}\n"`. -/
def entryStr (e : SubtitleEntry) : Str :=
  idxStr e.index ++ '\n' :: e.start_time ++ arrow ++ e.end_time ++ '\n' :: e.text ++ ['\n']

/-- The body of the `for block in blocks` loop of `parse_srt`: `none`
models the `continue` paths (fewer than 3 lines, `int()` raising
`ValueError`, or the timing regex not matching). -/
def parseBlock (block : Str) : Option SubtitleEntry :=
  match (pyStrip block).splitOn '\n' with
  | l0 :: l1 :: l2 :: rest =>
    match pyInt l0 with
    | none => none
    | some n =>
      match matchTiming l1 with
      | some (st, en) => some ⟨.intIdx n, st, en, List.intercalate ['\n'] (l2 :: rest)⟩
      | none => none
  | _ => none

/-- `parse_srt`: split the stripped payload on blank lines and keep the
blocks that parse. -/
def parse_srt (srt_content : Str) : List SubtitleEntry :=
  (splitSub nn (pyStrip srt_content)).filterMap parseBlock

/-- The file content `save_srt` writes: `str(entry) + '\n'` per entry. -/
def saveSrtContent (entries : List SubtitleEntry) : Str :=
  (entries.map (fun e => entryStr e ++ ['\n'])).flatten

/-- Python `%` on floats with a positive modulus: `a - b * (a // b)`. -/
def qMod (a b : ℚ) : ℚ := a - b * ((a / b).floor : ℚ)

/-- Python `float(s)` restricted to the decimal shapes this pipeline
produces (`digits` or `digits.digits`); other shapes would raise and are
unreachable under the well-formedness hypotheses used below. -/
def parseFloat (s : Str) : ℚ :=
  match s.splitOn '.' with
  | [a] => if isDigitStr a then (digitsVal a : ℚ) else 0
  | [a, b] =>
    if isDigitStr a && isDigitStr b then
      (digitsVal a : ℚ) + (digitsVal b : ℚ) / ((10 : ℚ) ^ b.length)
    else 0
  | _ => 0

/-- `int(s)` coerced to the rational time domain (`0` models the raised
`ValueError` on malformed input, unreachable under the hypotheses). -/
def pyIntQ (s : Str) : ℚ := (((pyInt s).getD 0 : ℤ) : ℚ)

/-- `parse_time` local to `split_subtitle_entry`: `HH:MM:SS,mmm` →
seconds; the comma is first replaced by a dot. -/
def parse_time (time_str : Str) : ℚ :=
  let tp := time_str.map (fun c => if c == ',' then '.' else c)
  match tp.splitOn ':' with
  | [h, m, s] => pyIntQ h * 3600 + pyIntQ m * 60 + parseFloat s
  | _ => 0

/-- `format_time` local to `split_subtitle_entry`:
`f"{h:02d}:{m:02d}:{s:06.3f}".replace('.', ',')`.  The `%.3f` rounding
of the seconds field is modeled by rational `round`; all values fed to
it in this file are nonnegative. -/
def format_time (seconds : ℚ) : Str :=
  let h := (seconds / 3600).floor.toNat
  let m := ((qMod seconds 3600) / 60).floor.toNat
  let s := qMod seconds 60
  let ms := (round (s * 1000)).toNat
  natPad 2 h ++ ':' :: natPad 2 m ++ ':' :: natPad 2 (ms / 1000) ++ ',' :: natPad 3 (ms % 1000)

/-- `add_offset` local to `adjust_srt_timings`: shift one `HH:MM:SS,mmm`
timestamp by `offset_seconds` and re-render it, rounding the millisecond
field and carrying a rounded-up `1000`.  The fallthrough branches model
inputs on which Python would raise, unreachable under the hypotheses
used below. -/
def add_offset (offset_seconds : ℚ) (time_str : Str) : Str :=
  match time_str.splitOn ':' with
  | [h, m, sms] =>
    match sms.splitOn ',' with
    | [s, ms] =>
      if isDigitStr h && isDigitStr m && isDigitStr s && isDigitStr ms then
        let total := (digitsVal h : ℚ) * 3600 + (digitsVal m : ℚ) * 60 + (digitsVal s : ℚ)
          + (digitsVal ms : ℚ) / 1000 + offset_seconds
        let hours := (total / 3600).floor.toNat
        let minutes := ((qMod total 3600) / 60).floor.toNat
        let seconds := qMod total 60
        let secs0 := seconds.floor.toNat
        let ms0 := (round ((seconds - (secs0 : ℚ)) * 1000)).toNat
        let secs := if 1000 ≤ ms0 then secs0 + 1 else secs0
        let milliseconds := if 1000 ≤ ms0 then 0 else ms0
        natPad 2 hours ++ ':' :: natPad 2 minutes ++ ':' :: natPad 2 secs ++ ',' :: natPad 3 milliseconds
      else time_str
    | _ => time_str
  | _ => time_str

/-- The body of the `for line in lines` loop of `adjust_srt_timings`:
an all-digit line is an index and is renumbered, a line containing
`-->` is a timing line and both timestamps are shifted, and every other
line passes through unchanged. -/
def lineAdjust (offset_seconds : ℚ) (index_offset : ℤ) (line : Str) : Str :=
  let ls := pyStrip line
  if isDigitStr ls then intToStr ((digitsVal ls : ℤ) + index_offset)
  else if containsSub (S "-->") line then
    match splitSub arrow line with
    | [a, b] => add_offset offset_seconds (pyStrip a) ++ arrow ++ add_offset offset_seconds (pyStrip b)
    | _ => line
  else line

/-- `adjust_srt_timings`: apply `lineAdjust` to every line. -/
def adjust_srt_timings (srt_content : Str) (offset_seconds : ℚ) (index_offset : ℤ) : Str :=
  List.intercalate ['\n'] ((srt_content.splitOn '\n').map (lineAdjust offset_seconds index_offset))

/-- Fuel-driven body of Python `str.split()` with no argument. -/
def pySplitWSF : Nat → Str → List Str
  | _, [] => []
  | 0, s => [s]
  | fuel + 1, c :: rest =>
    if pyIsSpace c then pySplitWSF fuel rest
    else
      ((c :: rest).takeWhile (fun d => ! pyIsSpace d)) ::
        pySplitWSF fuel ((c :: rest).dropWhile (fun d => ! pyIsSpace d))

/-- Python `str.split()` with no argument: whitespace-run separated
words, never empty. -/
def pySplitWS (s : Str) : List Str := pySplitWSF s.length s

/-- `' '.join(words)`. -/
def joinSpace (ws : List Str) : Str := List.intercalate [' '] ws

/-- `split_long_subtitle_text`: wrap text into ≤45-character lines at
word boundaries (greedy fill, modeled as a fold over the words with the
state `(lines, current_line, current_length)`). -/
def split_long_subtitle_text (text : Str) (max_chars_per_line : Nat := 45) : Str :=
  if text.length ≤ max_chars_per_line then text
  else
    let words := pySplitWS text
    let st : List Str × List Str × Nat := words.foldl
      (fun st word =>
        let lines := st.1
        let current_line := st.2.1
        let current_length := st.2.2
        let word_length := word.length + (if current_line ≠ [] then 1 else 0)
        if current_length + word_length ≤ max_chars_per_line then
          (lines, current_line ++ [word], current_length + word_length)
        else
          ((if current_line ≠ [] then lines ++ [joinSpace current_line] else lines),
            [word], word.length))
      ([], [], 0)
    let lines := if st.2.1 ≠ [] then st.1 ++ [joinSpace st.2.1] else st.1
    List.intercalate ['\n'] lines

/-- Fuel-driven body of `split_subtitle_entry`: recursively bisect an
over-long caption by word count, dividing time proportionally to each
half's character length.  The Python `enumerate` renumbering loop writes
`parent_{N}` at `i = 0` and `parent_{N+i}` afterwards, which is the
single formula `parent_{N+i}`.  The fuel-exhausted case is unreachable
whenever the word count of `entry.text` is at most `fuel`. -/
def splitEntryF : Nat → SubtitleEntry → Nat → List SubtitleEntry
  | 0, entry, _ => [entry]
  | fuel + 1, entry, max_lines =>
    let text_with_lines := split_long_subtitle_text entry.text
    let lines := text_with_lines.splitOn '\n'
    if lines.length ≤ max_lines then [{ entry with text := text_with_lines }]
    else
      let words := pySplitWS entry.text
      if words.length < 2 then [{ entry with text := text_with_lines }]
      else
        let mid := words.length / 2
        let first_text := joinSpace (words.take mid)
        let second_text := joinSpace (words.drop mid)
        let start_sec := parse_time entry.start_time
        let end_sec := parse_time entry.end_time
        let duration := end_sec - start_sec
        let total_len := first_text.length + second_text.length
        if total_len = 0 then [{ entry with text := text_with_lines }]
        else
          let split_time := start_sec + duration * ((first_text.length : ℚ) / (total_len : ℚ))
          let first_entry : SubtitleEntry :=
            ⟨entry.index, entry.start_time, format_time split_time, first_text⟩
          let second_entry : SubtitleEntry :=
            ⟨.strIdx (idxStr entry.index ++ '_' :: natToDigits 1), format_time split_time,
              entry.end_time, second_text⟩
          let first_parts := splitEntryF fuel first_entry max_lines
          let second_parts := splitEntryF fuel second_entry max_lines
          let second_parts2 :=
            if 1 < first_parts.length ∨ 1 < second_parts.length then
              (List.range second_parts.length).zip second_parts |>.map (fun p =>
                { p.2 with
                  index := .strIdx (idxStr entry.index ++ '_' ::
                    natToDigits (first_parts.length + p.1)) })
            else second_parts
          first_parts ++ second_parts2

/-- `split_subtitle_entry`. -/
def split_subtitle_entry (entry : SubtitleEntry) (max_lines : Nat := 2) : List SubtitleEntry :=
  splitEntryF (pySplitWS entry.text).length entry max_lines

/-- The per-batch `translation_map` dict of `translate_batch_async`: all
`(int(idx), text.strip())` pairs parsed from the reply's lines, in
insertion order (a later line with the same tag overwrites, which
`lookupLastKey` below reproduces). -/
def translationMap (reply : Str) : List (ℤ × Str) :=
  ((pyStrip reply).splitOn '\n').filterMap (fun line =>
    (matchTagged (pyStrip line)).map (fun p => ((p.1 : ℤ), p.2)))

/-- Lookup in a Python dict modeled as an insertion-ordered association
list: the last binding of the key wins. -/
def lookupLastKey (m : List (ℤ × Str)) (k : ℤ) : Option Str :=
  (m.reverse.find? (fun p => p.1 == k)).map (fun p => p.2)

/-- Same, for the `retry_map` dict keyed by `entry.index`. -/
def lookupLastIdx (m : List (SubIdx × SubtitleEntry)) (k : SubIdx) : Option SubtitleEntry :=
  (m.reverse.find? (fun p => p.1 == k)).map (fun p => p.2)

/-- The `for entry in batch` substitution body of `translate_batch_async`
(lines 859-871): replace the text only by a nonempty, Cyrillic-free
reply.  `translation_map.get(entry.index)` on a derived string id always
misses, because the dict's keys are `int`s. -/
def substEntry (tmap : List (ℤ × Str)) (entry : SubtitleEntry) : SubtitleEntry :=
  let translated_text : Option Str :=
    match entry.index with
    | .intIdx n => lookupLastKey tmap n
    | .strIdx _ => none
  match translated_text with
  | some t =>
    if t ≠ [] ∧ hasCyr t = false then
      { entry with text := t }
    else entry
  | none => entry

/-- `translate_batch_async` (lines 845-878), parameterized by the raw
reply text of the chat completion.  A reply that triggers the function's
`except` branch behaves exactly like a reply with no parsable tagged
line (the original batch is returned), so the exception path is covered
by this model. -/
def translate_batch (batch : List SubtitleEntry) (reply : Str) : List SubtitleEntry :=
  let tmap := translationMap reply
  batch.map (substEntry tmap)

/-- Fuel-driven `entries[i:i + batch_size]` slicing. -/
def chunksOfF {α : Type} : Nat → Nat → List α → List (List α)
  | _, _, [] => []
  | _, 0, _ :: _ => []
  | 0, _ + 1, l => [l]
  | fuel + 1, n + 1, x :: rest =>
    ((x :: rest).take (n + 1)) :: chunksOfF fuel (n + 1) ((x :: rest).drop (n + 1))

/-- The `entries[i:i + batch_size]` slices of the dispatch loops. -/
def chunksOf {α : Type} (n : Nat) (l : List α) : List (List α) := chunksOfF l.length n l

/-- The `for`-loop that creates one `translate_batch_async` task per
batch, numbering batches from `bn`; `replies` gives each batch's reply. -/
def dispatchBatches (replies : Nat → Str) : Nat → List (List SubtitleEntry) → List (List SubtitleEntry)
  | _, [] => []
  | bn, b :: bs => translate_batch b (replies bn) :: dispatchBatches replies (bn + 1) bs

/-- The initial dispatch of `translate_subtitles_async` (lines 896-915):
`batch_size = 40`, results recombined in batch order. -/
def translateInitial (entries : List SubtitleEntry) (replies : Nat → Str) : List SubtitleEntry :=
  (dispatchBatches replies 1 (chunksOf 40 entries)).flatten

/-- `sum(1 for e in translated_entries if re.search(r'[А-Яа-яЁё]', e.text))`. -/
def untranslatedCount (es : List SubtitleEntry) : Nat :=
  (es.filter (fun e => hasCyr e.text)).length

/-- One body iteration of the retry `while` loop (lines 925-962):
collect the residue-bearing captions, re-dispatch them in batches of
`retry_batch_size = 20`, keep only confirmed-clean results in
`retry_map`, and upsert those back into the main list by id. -/
def retryRound (translated_entries : List SubtitleEntry) (replies : Nat → Str) :
    List SubtitleEntry :=
  let to_retry := translated_entries.filter (fun e => hasCyr e.text)
  let retry_results := dispatchBatches replies 1 (chunksOf 20 to_retry)
  let retry_map : List (SubIdx × SubtitleEntry) :=
    (retry_results.flatten.filter (fun e => hasCyr e.text = false)).map (fun e => (e.index, e))
  translated_entries.map (fun entry =>
    match lookupLastIdx retry_map entry.index with
    | some v => v
    | none => entry)

/-- The retry `while` loop of `translate_subtitles_async` (lines
921-975), structurally recursive on the remaining retry budget
`max_retries - retry_round`.  `replies round batch` is the reply oracle.
Returns the final entry list, the number of retry rounds executed, and
the `retry_batch_size` used by each executed round (the code's literal
constant `20`). -/
def retryLoopF (replies : Nat → Nat → Str) :
    Nat → Nat → List SubtitleEntry → List SubtitleEntry × Nat × List Nat
  | 0, retry_round, entries => (entries, retry_round, [])
  | fuel + 1, retry_round, entries =>
    if 0 < untranslatedCount entries then
      let next := retryRound entries (replies (retry_round + 1))
      let r := retryLoopF replies fuel (retry_round + 1) next
      (r.1, r.2.1, 20 :: r.2.2)
    else (entries, retry_round, [])

/-- The retry loop started with `retry_round = 0` and `max_retries = 2`
(the code's constants): `retry_round < max_retries` holds exactly while
the remaining budget is positive. -/
def retryLoop (replies : Nat → Nat → Str) (max_retries retry_round : Nat)
    (entries : List SubtitleEntry) : List SubtitleEntry × Nat × List Nat :=
  retryLoopF replies (max_retries - retry_round) retry_round entries

/-- The `offsets` accumulation of `transcribe_audio_async` (lines
552-557): running sums continuing from `acc`. -/
def offsetsFrom (acc : ℚ) : List ℚ → List ℚ
  | [] => []
  | d :: rest => (acc + d) :: offsetsFrom (acc + d) rest

/-- `offsets = [0]; for p in audio_paths[:-1]: offsets.append(offsets[-1] + dur(p))`. -/
def computeOffsets (durations : List ℚ) : List ℚ :=
  0 :: offsetsFrom 0 durations.dropLast

/-- Lines 456-458 of `transcribe_audio_chunk_async`: time-shift the raw
transcript only when the chunk's offset is positive. -/
def applyChunkOffset (off : ℚ) (t : Str) : Str :=
  if 0 < off then adjust_srt_timings t off 0 else t

/-- Line 614: `transcript.strip().count('\n\n') + 1 if transcript.strip() else 0`. -/
def subtitleCount (t : Str) : Nat :=
  if pyStrip t = [] then 0 else countSub nn (pyStrip t) + 1

/-- Stable insertion of one `(chunk_num, transcript)` pair. -/
def insertByFst (p : Nat × Str) : List (Nat × Str) → List (Nat × Str)
  | [] => [p]
  | q :: rest => if q.1 ≤ p.1 then q :: insertByFst p rest else p :: q :: rest

/-- `all_transcripts.sort(key=lambda x: x[0])` (stable). -/
def sortByFst : List (Nat × Str) → List (Nat × Str)
  | [] => []
  | p :: rest => insertByFst p (sortByFst rest)

/-- The merge loop of the sequential branch (lines 609-622): renumber
every chunk after the first by the running caption count and collect the
adjusted transcripts; returns them with the final `index_offset`. -/
def combineLoop : List (Nat × Str) → Nat → List Str × Nat
  | [], off => ([], off)
  | (cn, t) :: rest, off =>
    let cnt := subtitleCount t
    let adjusted := if 1 < cn ∧ 0 < off then adjust_srt_timings t 0 (off : ℤ) else t
    let r := combineLoop rest (off + cnt)
    (adjusted :: r.1, r.2)

/-- Lines 609-627: sort by chunk ordinal, renumber, and join with
`'\n\n'`. -/
def combineTranscripts (ts : List (Nat × Str)) : Str :=
  List.intercalate nn (combineLoop (sortByFst ts) 0).1

/-- `for i, (path, offset) in enumerate(zip(audio_paths, offsets), 1)`:
pair each chunk's (already offset-adjusted) transcript with its ordinal. -/
def numberFrom (n : Nat) : List Str → List (Nat × Str)
  | [] => []
  | t :: rest => (n, t) :: numberFrom (n + 1) rest

/-- The sequential all-chunks-succeed path of `transcribe_audio_async`
(lines 541-627): compute offsets up front from the chunk durations,
time-shift each chunk's raw transcript by its offset, then merge with
index reconciliation. -/
def transcribeSequentialMerge (durations : List ℚ) (raws : List Str) : Str :=
  let offs := computeOffsets durations
  let adjusted := (raws.zip offs).map (fun p => applyChunkOffset p.2 p.1)
  combineTranscripts (numberFrom 1 adjusted)

/-- A transcript block as rendered inside an SRT payload (no trailing
newline): `SubtitleEntry.__str__` without its final `\n`. -/
def blockStr (e : SubtitleEntry) : Str :=
  idxStr e.index ++ '\n' :: e.start_time ++ arrow ++ e.end_time ++ '\n' :: e.text

/-- A whole SRT payload: blocks joined by blank lines. -/
def renderSRT (es : List SubtitleEntry) : Str :=
  List.intercalate nn (es.map blockStr)

/-- The last character exists and is not whitespace. -/
def lastNonWS (s : Str) : Bool :=
  match s.reverse with
  | [] => false
  | c :: _ => ! pyIsSpace c

/-- Every display line of the text is nonempty (equivalently: the text
neither starts nor ends with a newline and has no blank line). -/
def textLinesOK (t : Str) : Bool :=
  (t.splitOn '\n').all (fun l => ! l.isEmpty)

/-- Well-formedness of a parsed caption, exactly what `parse_srt`
guarantees about its output (proved below as `parse_srt_good`). -/
def GoodEntry (e : SubtitleEntry) : Prop :=
  (∃ n : ℤ, e.index = .intIdx n) ∧ isTS e.start_time = true ∧ isTS e.end_time = true ∧
    textLinesOK e.text = true ∧ lastNonWS e.text = true

theorem splitSubF_congr (sep : Str) (fuel1 : Nat) :
    ∀ fuel2 s, s.length ≤ fuel1 → s.length ≤ fuel2 →
      splitSubF sep fuel1 s = splitSubF sep fuel2 s := by
  induction fuel1 with
  | zero =>
    intro fuel2 s h1 _
    have hs : s = [] := List.length_eq_zero.mp (Nat.le_zero.mp h1)
    subst hs
    cases fuel2 <;> rfl
  | succ f ih =>
    intro fuel2 s h1 h2
    cases s with
    | nil => cases fuel2 <;> rfl
    | cons c rest =>
      cases fuel2 with
      | zero => simp at h2
      | succ g =>
        simp only [List.length_cons] at h1 h2
        simp only [splitSubF]
        by_cases hp : sep ≠ [] ∧ sep.isPrefixOf (c :: rest)
        · rw [if_pos hp, if_pos hp]
          have hsep : 1 ≤ sep.length := List.length_pos.mpr hp.1
          have hb1 : ((c :: rest).drop sep.length).length ≤ f := by
            simp only [List.length_drop, List.length_cons]; omega
          have hb2 : ((c :: rest).drop sep.length).length ≤ g := by
            simp only [List.length_drop, List.length_cons]; omega
          rw [ih _ _ hb1 hb2]
        · rw [if_neg hp, if_neg hp]
          rw [ih g rest (by omega) (by omega)]

theorem splitSub_nil (sep : Str) : splitSub sep [] = [[]] := rfl

theorem splitSub_cons (sep : Str) (c : Char) (rest : Str) :
    splitSub sep (c :: rest) =
      if sep ≠ [] ∧ sep.isPrefixOf (c :: rest) then
        [] :: splitSub sep ((c :: rest).drop sep.length)
      else
        match splitSub sep rest with
        | [] => [[c]]
        | r :: rs => (c :: r) :: rs := by
  show splitSubF sep (c :: rest).length (c :: rest) = _
  simp only [List.length_cons, splitSubF]
  by_cases hp : sep ≠ [] ∧ sep.isPrefixOf (c :: rest)
  · rw [if_pos hp, if_pos hp]
    have hsep : 1 ≤ sep.length := List.length_pos.mpr hp.1
    rw [splitSubF_congr sep rest.length ((c :: rest).drop sep.length).length _
      (by simp only [List.length_drop, List.length_cons]; omega) (le_refl _)]
    rfl
  · rw [if_neg hp, if_neg hp]
    rfl

theorem countSubF_congr (sep : Str) (fuel1 : Nat) :
    ∀ fuel2 s, s.length ≤ fuel1 → s.length ≤ fuel2 →
      countSubF sep fuel1 s = countSubF sep fuel2 s := by
  induction fuel1 with
  | zero =>
    intro fuel2 s h1 _
    have hs : s = [] := List.length_eq_zero.mp (Nat.le_zero.mp h1)
    subst hs
    cases fuel2 <;> rfl
  | succ f ih =>
    intro fuel2 s h1 h2
    cases s with
    | nil => cases fuel2 <;> rfl
    | cons c rest =>
      cases fuel2 with
      | zero => simp at h2
      | succ g =>
        simp only [List.length_cons] at h1 h2
        simp only [countSubF]
        by_cases hp : sep ≠ [] ∧ sep.isPrefixOf (c :: rest)
        · rw [if_pos hp, if_pos hp]
          have hsep : 1 ≤ sep.length := List.length_pos.mpr hp.1
          have hb1 : ((c :: rest).drop sep.length).length ≤ f := by
            simp only [List.length_drop, List.length_cons]; omega
          have hb2 : ((c :: rest).drop sep.length).length ≤ g := by
            simp only [List.length_drop, List.length_cons]; omega
          rw [ih _ _ hb1 hb2]
        · rw [if_neg hp, if_neg hp]
          rw [ih g rest (by omega) (by omega)]

theorem countSub_nil (sep : Str) : countSub sep [] = 0 := rfl

theorem countSub_cons (sep : Str) (c : Char) (rest : Str) :
    countSub sep (c :: rest) =
      if sep ≠ [] ∧ sep.isPrefixOf (c :: rest) then
        countSub sep ((c :: rest).drop sep.length) + 1
      else
        countSub sep rest := by
  show countSubF sep (c :: rest).length (c :: rest) = _
  simp only [List.length_cons, countSubF]
  by_cases hp : sep ≠ [] ∧ sep.isPrefixOf (c :: rest)
  · rw [if_pos hp, if_pos hp]
    have hsep : 1 ≤ sep.length := List.length_pos.mpr hp.1
    rw [countSubF_congr sep rest.length ((c :: rest).drop sep.length).length _
      (by simp only [List.length_drop, List.length_cons]; omega) (le_refl _)]
    rfl
  · rw [if_neg hp, if_neg hp]
    rfl

theorem pySplitWSF_congr (fuel1 : Nat) :
    ∀ fuel2 s, s.length ≤ fuel1 → s.length ≤ fuel2 →
      pySplitWSF fuel1 s = pySplitWSF fuel2 s := by
  induction fuel1 with
  | zero =>
    intro fuel2 s h1 _
    have hs : s = [] := List.length_eq_zero.mp (Nat.le_zero.mp h1)
    subst hs
    cases fuel2 <;> rfl
  | succ f ih =>
    intro fuel2 s h1 h2
    cases s with
    | nil => cases fuel2 <;> rfl
    | cons c rest =>
      cases fuel2 with
      | zero => simp at h2
      | succ g =>
        simp only [List.length_cons] at h1 h2
        simp only [pySplitWSF]
        by_cases hp : pyIsSpace c
        · rw [if_pos hp, if_pos hp, ih g rest (by omega) (by omega)]
        · rw [if_neg hp, if_neg hp]
          have hdw : ((c :: rest).dropWhile (fun d => ! pyIsSpace d)).length ≤ rest.length := by
            rw [List.dropWhile_cons_of_pos (by simp [hp])]
            exact (List.dropWhile_sublist _).length_le
          rw [ih g _ (by omega) (by omega)]

theorem pySplitWS_nil : pySplitWS [] = [] := rfl

theorem pySplitWS_cons_space {c : Char} (hc : pyIsSpace c = true) (rest : Str) :
    pySplitWS (c :: rest) = pySplitWS rest := by
  show pySplitWSF (c :: rest).length (c :: rest) = _
  simp only [List.length_cons, pySplitWSF, if_pos hc]
  exact pySplitWSF_congr rest.length rest.length rest (le_refl _) (le_refl _)

theorem pySplitWS_cons_word {c : Char} (hc : pyIsSpace c = false) (rest : Str) :
    pySplitWS (c :: rest) =
      ((c :: rest).takeWhile (fun d => ! pyIsSpace d)) ::
        pySplitWS ((c :: rest).dropWhile (fun d => ! pyIsSpace d)) := by
  show pySplitWSF (c :: rest).length (c :: rest) = _
  simp only [List.length_cons, pySplitWSF, hc, Bool.false_eq_true, if_false]
  congr 1
  have hdw : ((c :: rest).dropWhile (fun d => ! pyIsSpace d)).length ≤ rest.length := by
    rw [List.dropWhile_cons_of_pos (by simp [hc])]
    exact (List.dropWhile_sublist _).length_le
  exact pySplitWSF_congr rest.length _ _ (by omega) (le_refl _)

theorem natToDigitsF_congr (fuel1 : Nat) :
    ∀ fuel2 n, n ≤ fuel1 → n ≤ fuel2 → natToDigitsF fuel1 n = natToDigitsF fuel2 n := by
  induction fuel1 with
  | zero =>
    intro fuel2 n h1 _
    have : n = 0 := Nat.le_zero.mp h1
    subst this
    cases fuel2 with
    | zero => rfl
    | succ g => simp [natToDigitsF]
  | succ f ih =>
    intro fuel2 n h1 h2
    by_cases hn : n < 10
    · cases fuel2 with
      | zero =>
        have : n = 0 := Nat.le_zero.mp h2
        subst this
        simp [natToDigitsF]
      | succ g => simp [natToDigitsF, hn]
    · cases fuel2 with
      | zero => omega
      | succ g =>
        simp only [natToDigitsF, if_neg hn]
        have hd : n / 10 < n := Nat.div_lt_self (by omega) (by omega)
        rw [ih g (n / 10) (by omega) (by omega)]

theorem natToDigits_eq (n : Nat) :
    natToDigits n =
      if n < 10 then [Char.ofNat (48 + n)]
      else natToDigits (n / 10) ++ [Char.ofNat (48 + n % 10)] := by
  show natToDigitsF n n = _
  cases n with
  | zero => simp [natToDigitsF]
  | succ m =>
    simp only [natToDigitsF]
    by_cases hn : m + 1 < 10
    · rw [if_pos hn, if_pos hn]
    · rw [if_neg hn, if_neg hn]
      have hd : (m + 1) / 10 < m + 1 := Nat.div_lt_self (by omega) (by omega)
      rw [natToDigitsF_congr m ((m + 1) / 10) ((m + 1) / 10) (by omega) (le_refl _)]
      rfl

theorem chunksOfF_congr {α : Type} (fuel1 : Nat) :
    ∀ fuel2 n (l : List α), l.length ≤ fuel1 → l.length ≤ fuel2 →
      chunksOfF fuel1 n l = chunksOfF fuel2 n l := by
  induction fuel1 with
  | zero =>
    intro fuel2 n l h1 _
    have hl : l = [] := List.length_eq_zero.mp (Nat.le_zero.mp h1)
    subst hl
    cases fuel2 <;> cases n <;> rfl
  | succ f ih =>
    intro fuel2 n l h1 h2
    cases l with
    | nil => cases fuel2 <;> cases n <;> rfl
    | cons x rest =>
      cases n with
      | zero => cases fuel2 with
        | zero => simp at h2
        | succ g => rfl
      | succ m =>
        cases fuel2 with
        | zero => simp at h2
        | succ g =>
          simp only [List.length_cons] at h1 h2
          simp only [chunksOfF]
          congr 1
          have hd : ((x :: rest).drop (m + 1)).length ≤ rest.length := by
            simp only [List.length_drop, List.length_cons]; omega
          exact ih g (m + 1) _ (by omega) (by omega)

theorem chunksOf_nil {α : Type} (n : Nat) : chunksOf n ([] : List α) = [] := by
  show chunksOfF 0 n [] = []
  cases n <;> rfl

theorem chunksOf_cons {α : Type} (n : Nat) (x : α) (rest : List α) :
    chunksOf (n + 1) (x :: rest) =
      ((x :: rest).take (n + 1)) :: chunksOf (n + 1) ((x :: rest).drop (n + 1)) := by
  show chunksOfF (x :: rest).length (n + 1) (x :: rest) = _
  simp only [List.length_cons, chunksOfF]
  congr 1
  exact chunksOfF_congr rest.length _ (n + 1) _
    (by simp only [List.length_drop, List.length_cons]; omega) (le_refl _)

theorem isDigit_ne {c d : Char} (h : c.isDigit = true) (hd : d.isDigit = false) : c ≠ d := by
  intro e
  subst e
  rw [h] at hd
  exact Bool.noConfusion hd

theorem isDigit_not_space {c : Char} (h : c.isDigit = true) : pyIsSpace c = false := by
  simp only [pyIsSpace, Bool.or_eq_false_iff, beq_eq_false_iff_ne]
  refine ⟨⟨⟨⟨⟨?_, ?_⟩, ?_⟩, ?_⟩, ?_⟩, ?_⟩ <;> exact isDigit_ne h (by decide)

theorem digitChar_isDigit {k : Nat} (h : k < 10) : (Char.ofNat (48 + k)).isDigit = true := by
  interval_cases k <;> decide

theorem digitToNat_digitChar {k : Nat} (h : k < 10) : digitToNat (Char.ofNat (48 + k)) = k := by
  interval_cases k <;> decide

theorem natToDigits_ne_nil (n : Nat) : natToDigits n ≠ [] := by
  rw [natToDigits_eq]
  by_cases h : n < 10
  · rw [if_pos h]; simp
  · rw [if_neg h]; simp

theorem natToDigits_digits (n : Nat) : ∀ c ∈ natToDigits n, c.isDigit = true := by
  induction n using Nat.strong_induction_on with
  | _ n ih =>
    rw [natToDigits_eq]
    by_cases h : n < 10
    · rw [if_pos h]
      intro c hc
      rw [List.mem_singleton] at hc
      subst hc
      exact digitChar_isDigit h
    · rw [if_neg h]
      intro c hc
      rcases List.mem_append.mp hc with hc | hc
      · exact ih (n / 10) (Nat.div_lt_self (by omega) (by omega)) c hc
      · rw [List.mem_singleton] at hc
        subst hc
        exact digitChar_isDigit (Nat.mod_lt _ (by omega))

theorem digitsVal_append_digit (ds : Str) (c : Char) :
    digitsVal (ds ++ [c]) = 10 * digitsVal ds + digitToNat c := by
  simp [digitsVal, List.foldl_append]

theorem digitsVal_natToDigits (n : Nat) : digitsVal (natToDigits n) = n := by
  induction n using Nat.strong_induction_on with
  | _ n ih =>
    rw [natToDigits_eq]
    by_cases h : n < 10
    · rw [if_pos h]
      show digitsVal ([] ++ [Char.ofNat (48 + n)]) = n
      rw [digitsVal_append_digit]
      simp [digitsVal, digitToNat_digitChar h]
    · rw [if_neg h]
      rw [digitsVal_append_digit, ih (n / 10) (Nat.div_lt_self (by omega) (by omega))]
      rw [digitToNat_digitChar (Nat.mod_lt _ (by omega))]
      omega

theorem digitGroups_cons_digit {c : Char} (hc : c.isDigit = true) (acc : Nat) (rest : Str) :
    digitGroups acc (c :: rest) = digitGroups (10 * acc + digitToNat c) rest := by
  cases rest with
  | nil => simp [digitGroups, hc]
  | cons d r2 => simp only [digitGroups, if_pos hc]

theorem digitGroups_all_digits : ∀ (ds : Str) (acc : Nat), (∀ c ∈ ds, c.isDigit = true) →
    digitGroups acc ds = some (ds.foldl (fun a c => 10 * a + digitToNat c) acc) := by
  intro ds
  induction ds with
  | nil => intro acc _; rfl
  | cons c rest ih =>
    intro acc h
    have hc : c.isDigit = true := h c (by simp)
    rw [digitGroups_cons_digit hc, List.foldl_cons]
    exact ih _ (fun d hd => h d (by simp [hd]))

theorem pyUnsigned_all_digits (ds : Str) (hne : ds ≠ []) (h : ∀ c ∈ ds, c.isDigit = true) :
    pyUnsigned ds = some (digitsVal ds) := by
  cases ds with
  | nil => exact absurd rfl hne
  | cons c rest =>
    have hc : c.isDigit = true := h c (by simp)
    simp only [pyUnsigned, if_pos hc]
    rw [digitGroups_all_digits rest (digitToNat c) (fun d hd => h d (by simp [hd]))]
    simp [digitsVal, digitToNat]

theorem pyLStrip_eq_self {s : Str} (h : ∀ c, s.head? = some c → pyIsSpace c = false) :
    pyLStrip s = s := by
  cases s with
  | nil => rfl
  | cons c rest =>
    exact List.dropWhile_cons_of_neg (by simp [h c rfl])

theorem pyRStrip_eq_self {s : Str} (h : ∀ c, s.getLast? = some c → pyIsSpace c = false) :
    pyRStrip s = s := by
  unfold pyRStrip
  cases hs : s.reverse with
  | nil =>
    simp only [List.dropWhile_nil, List.reverse_nil]
    exact (List.reverse_eq_nil_iff.mp hs).symm
  | cons c rest =>
    have hlast : s.getLast? = some c := by
      rw [← List.head?_reverse, hs]
      rfl
    rw [List.dropWhile_cons_of_neg (by simp [h c hlast])]
    rw [← hs, List.reverse_reverse]

theorem pyStrip_eq_self {s : Str} (h1 : ∀ c, s.head? = some c → pyIsSpace c = false)
    (h2 : ∀ c, s.getLast? = some c → pyIsSpace c = false) : pyStrip s = s := by
  unfold pyStrip
  rw [pyLStrip_eq_self h1, pyRStrip_eq_self h2]

theorem natToDigits_head_digit (n : Nat) :
    ∀ c, (natToDigits n).head? = some c → c.isDigit = true := by
  intro c hc
  exact natToDigits_digits n c (List.mem_of_mem_head? (by rw [hc]; rfl))

theorem natToDigits_getLast_digit (n : Nat) :
    ∀ c, (natToDigits n).getLast? = some c → c.isDigit = true := by
  intro c hc
  exact natToDigits_digits n c (List.mem_of_getLast?_eq_some hc)

theorem pyStrip_natToDigits (n : Nat) : pyStrip (natToDigits n) = natToDigits n :=
  pyStrip_eq_self
    (fun c hc => isDigit_not_space (natToDigits_head_digit n c hc))
    (fun c hc => isDigit_not_space (natToDigits_getLast_digit n c hc))

theorem pyInt_natToDigits (n : Nat) : pyInt (natToDigits n) = some (n : Int) := by
  unfold pyInt
  rw [pyStrip_natToDigits]
  cases hd : natToDigits n with
  | nil => exact absurd hd (natToDigits_ne_nil n)
  | cons c rest =>
    have hc : c.isDigit = true := by
      apply natToDigits_digits n c
      rw [hd]; simp
    show (if c = '+' then (pyUnsigned rest).map Int.ofNat
      else if c = '-' then (pyUnsigned rest).map (fun k => -(k : Int))
      else (pyUnsigned (c :: rest)).map Int.ofNat) = some (n : Int)
    rw [if_neg (isDigit_ne hc (by decide)), if_neg (isDigit_ne hc (by decide))]
    rw [← hd, pyUnsigned_all_digits _ (natToDigits_ne_nil n) (natToDigits_digits n)]
    rw [digitsVal_natToDigits]
    rfl

theorem pyInt_intToStr (n : Int) : pyInt (intToStr n) = some n := by
  unfold intToStr
  by_cases hn : n < 0
  · rw [if_pos hn]
    unfold pyInt
    have hstrip : pyStrip ('-' :: natToDigits n.natAbs) = '-' :: natToDigits n.natAbs := by
      apply pyStrip_eq_self
      · intro c hc
        simp only [List.head?_cons, Option.some_inj] at hc
        subst hc
        decide
      · intro c hc
        have : ('-' :: natToDigits n.natAbs).getLast? = (natToDigits n.natAbs).getLast? := by
          cases hd : natToDigits n.natAbs with
          | nil => exact absurd hd (natToDigits_ne_nil _)
          | cons a rest => simp [List.getLast?_cons_cons]
        rw [this] at hc
        exact isDigit_not_space (natToDigits_getLast_digit _ c hc)
    rw [hstrip]
    show (if '-' = '+' then (pyUnsigned (natToDigits n.natAbs)).map Int.ofNat
      else if '-' = '-' then (pyUnsigned (natToDigits n.natAbs)).map (fun k => -(k : Int))
      else (pyUnsigned ('-' :: natToDigits n.natAbs)).map Int.ofNat) = some n
    rw [if_neg (by decide), if_pos rfl]
    rw [pyUnsigned_all_digits _ (natToDigits_ne_nil _) (natToDigits_digits _)]
    rw [digitsVal_natToDigits]
    show some (-(n.natAbs : Int)) = some n
    congr 1
    omega
  · rw [if_neg hn]
    rw [pyInt_natToDigits n.natAbs]
    congr 1
    omega

/-- The drop condition of the amended claim C10, in the claim's own
terms: a block contributes nothing when (after stripping) it has fewer
than 3 lines, its first line is not accepted by Python's `int()`, or its
timing line does not match the timestamp pattern. -/
def blockDropped (block : Str) : Prop :=
  match (pyStrip block).splitOn '\n' with
  | l0 :: l1 :: _ :: _ => pyInt l0 = none ∨ matchTiming l1 = none
  | _ => True

/-- C10 counterexample: the claim asserts a caption serialized with the
derived split id `12_1` is dropped when re-parsed; in fact `int("12_1")`
accepts the underscore, so the block is kept with its id corrupted to
`121`. -/
theorem claim_C10_counterexample :
    parse_srt (saveSrtContent
        [⟨.strIdx (S "12_1"), S "00:00:01,000", S "00:00:02,000", S "Hello"⟩]) ≠ [] ∧
      parse_srt (saveSrtContent
        [⟨.strIdx (S "12_1"), S "00:00:01,000", S "00:00:02,000", S "Hello"⟩]) =
        [⟨.intIdx 121, S "00:00:01,000", S "00:00:02,000", S "Hello"⟩] := by
  constructor
  · decide
  · decide

/-- Amended claim C10: `parse_srt` is total and processes the payload
block by block, dropping exactly the blocks with fewer than 3 lines, a
first line `int()` rejects, or a malformed timing line; and a caption
serialized with derived id `12_1` is re-parsed as a normal entry with
index `121` (underscores are legal in Python integer literals), not
dropped. -/
theorem claim_C10_parse_srt_total_drops :
    (∀ s : Str, parse_srt s = (splitSub nn (pyStrip s)).filterMap parseBlock) ∧
      (∀ block : Str, parseBlock block = none ↔ blockDropped block) ∧
      parse_srt (saveSrtContent
        [⟨.strIdx (S "12_1"), S "00:00:01,000", S "00:00:02,000", S "Hello"⟩]) =
        [⟨.intIdx 121, S "00:00:01,000", S "00:00:02,000", S "Hello"⟩] := by
  refine ⟨fun s => rfl, fun block => ?_, by decide⟩
  unfold parseBlock blockDropped
  cases hl : (pyStrip block).splitOn '\n' with
  | nil => simp
  | cons l0 t0 =>
    cases t0 with
    | nil => simp
    | cons l1 t1 =>
      cases t1 with
      | nil => simp
      | cons l2 rest =>
        cases hi : pyInt l0 with
        | none => simp [hi]
        | some n =>
          cases ht : matchTiming l1 with
          | none => simp [hi, ht]
          | some p =>
            obtain ⟨st, en⟩ := p
            simp [hi, ht]

theorem retryLoopF_sizes (replies : Nat → Nat → Str) :
    ∀ fuel rr entries, ∀ b ∈ (retryLoopF replies fuel rr entries).2.2, b = 20 := by
  intro fuel
  induction fuel with
  | zero => intro rr entries b hb; simp [retryLoopF] at hb
  | succ f ih =>
    intro rr entries b hb
    by_cases hc : 0 < untranslatedCount entries
    · simp only [retryLoopF, if_pos hc, List.mem_cons] at hb
      rcases hb with hb | hb
      · exact hb
      · exact ih _ _ b hb
    · simp [retryLoopF, if_neg hc] at hb

/-- C6 counterexample: with one residue-bearing caption and replies that
never translate anything, both executed retry rounds re-batch at size
`20` — the second round's batch size equals (is not strictly smaller
than) the first's, and the sizes are not the claimed `20` then `10`. -/
theorem claim_C6_counterexample :
    (retryLoop (fun _ _ => S "")
        2 0 [⟨.intIdx 1, S "00:00:01,000", S "00:00:02,000", S "Привет"⟩]).2.2 = [20, 20] ∧
      (retryLoop (fun _ _ => S "")
        2 0 [⟨.intIdx 1, S "00:00:01,000", S "00:00:02,000", S "Привет"⟩]).2.2 ≠ [20, 10] := by
  constructor
  · decide
  · decide

/-- Amended claim C6: the initial dispatch batches at size 40 and every
retry round re-batches the residue-bearing captions at
`retry_batch_size = 20` — smaller than the initial 40 but constant
across retry rounds, not progressively decreasing. -/
theorem claim_C6_retry_batch_sizes :
    (∀ entries replies, translateInitial entries replies =
      (dispatchBatches replies 1 (chunksOf 40 entries)).flatten) ∧
      (∀ (replies : Nat → Nat → Str) entries,
        ∀ b ∈ (retryLoop replies 2 0 entries).2.2, b = 20 ∧ b < 40) := by
  refine ⟨fun entries replies => rfl, fun replies entries b hb => ?_⟩
  have h20 := retryLoopF_sizes replies 2 0 entries b hb
  exact ⟨h20, by omega⟩

theorem lookupLastKey_mem {m : List (ℤ × Str)} {k : ℤ} {v : Str}
    (h : lookupLastKey m k = some v) : (k, v) ∈ m := by
  unfold lookupLastKey at h
  cases hf : m.reverse.find? (fun p => p.1 == k) with
  | none => rw [hf] at h; exact absurd h (by simp)
  | some p =>
    rw [hf] at h
    simp only [Option.map_some', Option.some_inj] at h
    have hmem : p ∈ m.reverse := List.mem_of_find?_eq_some hf
    have hkey := List.find?_some hf
    rw [List.mem_reverse] at hmem
    have : p = (k, v) := by
      obtain ⟨p1, p2⟩ := p
      simp only at h
      simp only [beq_iff_eq] at hkey
      simp [hkey, h]
    rw [this] at hmem
    exact hmem

theorem lookupLastKey_eq_none {m : List (ℤ × Str)} {k : ℤ}
    (h : ∀ p ∈ m, p.1 ≠ k) : lookupLastKey m k = none := by
  unfold lookupLastKey
  rw [List.find?_eq_none.mpr]
  · rfl
  · intro p hp
    simp only [beq_iff_eq]
    exact h p (List.mem_reverse.mp hp)

theorem translationMap_mem {reply : Str} {k : ℤ} {t : Str}
    (h : (k, t) ∈ translationMap reply) :
    ∃ line ∈ (pyStrip reply).splitOn '\n', ∃ m : ℕ,
      k = (m : ℤ) ∧ matchTagged (pyStrip line) = some (m, t) := by
  unfold translationMap at h
  rw [List.mem_filterMap] at h
  obtain ⟨line, hline, hmatch⟩ := h
  cases hm : matchTagged (pyStrip line) with
  | none => rw [hm] at hmatch; exact absurd hmatch (by simp)
  | some p =>
    rw [hm] at hmatch
    simp only [Option.map_some', Option.some_inj] at hmatch
    obtain ⟨p1, p2⟩ := p
    simp only [Prod.mk.injEq] at hmatch
    exact ⟨line, hline, p1, hmatch.1.symm, by rw [hm, hmatch.2]⟩

theorem substEntry_of_strIdx {tmap : List (ℤ × Str)} {e : SubtitleEntry} {s : Str}
    (he : e.index = .strIdx s) : substEntry tmap e = e := by
  obtain ⟨ei, es, ee, et⟩ := e
  simp only at he
  subst he
  simp [substEntry]

theorem substEntry_of_none {tmap : List (ℤ × Str)} {e : SubtitleEntry} {k : ℤ}
    (he : e.index = .intIdx k) (hl : lookupLastKey tmap k = none) : substEntry tmap e = e := by
  obtain ⟨ei, es, ee, et⟩ := e
  simp only at he
  subst he
  simp [substEntry, hl]

theorem substEntry_of_clean {tmap : List (ℤ × Str)} {e : SubtitleEntry} {k : ℤ} {t : Str}
    (he : e.index = .intIdx k) (hl : lookupLastKey tmap k = some t)
    (ht : t ≠ [] ∧ hasCyr t = false) : substEntry tmap e = { e with text := t } := by
  obtain ⟨ei, es, ee, et⟩ := e
  simp only at he
  subst he
  simp only [substEntry, hl]
  rw [if_pos ht]

theorem substEntry_of_bad {tmap : List (ℤ × Str)} {e : SubtitleEntry} {k : ℤ} {t : Str}
    (he : e.index = .intIdx k) (hl : lookupLastKey tmap k = some t)
    (ht : ¬ (t ≠ [] ∧ hasCyr t = false)) : substEntry tmap e = e := by
  obtain ⟨ei, es, ee, et⟩ := e
  simp only at he
  subst he
  simp only [substEntry, hl]
  rw [if_neg ht]

theorem substEntry_index (tmap : List (ℤ × Str)) (e : SubtitleEntry) :
    (substEntry tmap e).index = e.index ∧
      (substEntry tmap e).start_time = e.start_time ∧
      (substEntry tmap e).end_time = e.end_time := by
  cases he : e.index with
  | strIdx s => rw [substEntry_of_strIdx he]; exact ⟨he, rfl, rfl⟩
  | intIdx k =>
    cases hl : lookupLastKey tmap k with
    | none => rw [substEntry_of_none he hl]; exact ⟨he, rfl, rfl⟩
    | some t =>
      by_cases ht : t ≠ [] ∧ hasCyr t = false
      · rw [substEntry_of_clean he hl ht]; exact ⟨he, rfl, rfl⟩
      · rw [substEntry_of_bad he hl ht]; exact ⟨he, rfl, rfl⟩

theorem substEntry_text (tmap : List (ℤ × Str)) (e : SubtitleEntry) :
    substEntry tmap e = e ∨
      ∃ k t, e.index = .intIdx k ∧ lookupLastKey tmap k = some t ∧ t ≠ [] ∧
        hasCyr t = false ∧ substEntry tmap e = { e with text := t } := by
  cases he : e.index with
  | strIdx s => exact Or.inl (substEntry_of_strIdx he)
  | intIdx k =>
    cases hl : lookupLastKey tmap k with
    | none => exact Or.inl (substEntry_of_none he hl)
    | some t =>
      by_cases ht : t ≠ [] ∧ hasCyr t = false
      · exact Or.inr ⟨k, t, rfl, hl, ht.1, ht.2, by rw [substEntry_of_clean he hl ht, he]⟩
      · exact Or.inl (substEntry_of_bad he hl ht)

/-- Claim C5: `translate_batch_async` returns a same-length, same-order
batch with ids and timings preserved per position; a caption's text is
replaced only if the reply carries a tagged, Cyrillic-free line for its
id; an id with no tagged line in the reply, or whose effective replied
text still carries Cyrillic, keeps its caption unchanged. -/
theorem claim_C5_translate_batch (batch : List SubtitleEntry) (reply : Str) :
    (translate_batch batch reply).length = batch.length ∧
    (∀ (i : Nat) (e r : SubtitleEntry), batch[i]? = some e →
      (translate_batch batch reply)[i]? = some r →
      r.index = e.index ∧ r.start_time = e.start_time ∧ r.end_time = e.end_time ∧
      (r ≠ e → hasCyr r.text = false ∧
        ∃ line ∈ (pyStrip reply).splitOn '\n', ∃ n : ℕ,
          e.index = .intIdx (n : ℤ) ∧ matchTagged (pyStrip line) = some (n, r.text)) ∧
      ((∀ n : ℕ, e.index = .intIdx (n : ℤ) →
          ∀ line ∈ (pyStrip reply).splitOn '\n', ∀ t : Str,
            matchTagged (pyStrip line) ≠ some (n, t)) → r = e) ∧
      (∀ n : ℕ, e.index = .intIdx (n : ℤ) →
        ∀ t, lookupLastKey (translationMap reply) (n : ℤ) = some t →
          hasCyr t = true → r = e)) := by
  constructor
  · exact List.length_map _ _
  intro i e r he hr
  unfold translate_batch at hr
  rw [List.getElem?_map, he] at hr
  simp only [Option.map_some', Option.some_inj] at hr
  have hidx := substEntry_index (translationMap reply) e
  subst hr
  refine ⟨hidx.1, hidx.2.1, hidx.2.2, ?_, ?_, ?_⟩
  · intro hne
    rcases substEntry_text (translationMap reply) e with hsame | ⟨k, t, hek, hl, htne, htc, heq⟩
    · exact absurd hsame hne
    · rw [heq]
      refine ⟨htc, ?_⟩
      obtain ⟨line, hline, m, hkm, hmatch⟩ := translationMap_mem (lookupLastKey_mem hl)
      exact ⟨line, hline, m, by rw [hek, hkm], hmatch⟩
  · intro habs
    rcases substEntry_text (translationMap reply) e with hsame | ⟨k, t, hek, hl, htne, htc, heq⟩
    · exact hsame
    · exfalso
      obtain ⟨line, hline, m, hkm, hmatch⟩ := translationMap_mem (lookupLastKey_mem hl)
      exact habs m (by rw [hek, hkm]) line hline t hmatch
  · intro n hn t hlt hcy
    rcases substEntry_text (translationMap reply) e with hsame | ⟨k, t2, hek, hl, htne, htc, heq⟩
    · exact hsame
    · exfalso
      rw [hek] at hn
      simp only [SubIdx.intIdx.injEq] at hn
      rw [← hn, hl] at hlt
      simp only [Option.some_inj] at hlt
      rw [← hlt] at hcy
      rw [hcy] at htc
      exact Bool.noConfusion htc

/-- Witness for C5 at a concrete batch and reply: the first caption is
replaced by the clean tagged line, preserving id and timings. -/
theorem claim_C5_witness :
    ([⟨.intIdx 3, S "00:00:01,000", S "00:00:02,000", S "Привет"⟩] :
        List SubtitleEntry)[0]? = some ⟨.intIdx 3, S "00:00:01,000", S "00:00:02,000", S "Привет"⟩ ∧
    (translate_batch [⟨.intIdx 3, S "00:00:01,000", S "00:00:02,000", S "Привет"⟩]
        (S "[3] Hello"))[0]? =
      some ⟨.intIdx 3, S "00:00:01,000", S "00:00:02,000", S "Hello"⟩ ∧
    (⟨.intIdx 3, S "00:00:01,000", S "00:00:02,000", S "Hello"⟩ : SubtitleEntry).index =
      (⟨.intIdx 3, S "00:00:01,000", S "00:00:02,000", S "Привет"⟩ : SubtitleEntry).index :=
  ⟨by decide, by decide,
    ((claim_C5_translate_batch
        [⟨.intIdx 3, S "00:00:01,000", S "00:00:02,000", S "Привет"⟩] (S "[3] Hello")).2 0
      ⟨.intIdx 3, S "00:00:01,000", S "00:00:02,000", S "Привет"⟩
      ⟨.intIdx 3, S "00:00:01,000", S "00:00:02,000", S "Hello"⟩
      (by decide) (by decide)).1⟩

/-- What one translation substitution step can do to a caption: id and
timings survive, and the text is either untouched or replaced by a
nonempty Cyrillic-free translation. -/
def EntryLike (a b : SubtitleEntry) : Prop :=
  b.index = a.index ∧ b.start_time = a.start_time ∧ b.end_time = a.end_time ∧
    (b = a ∨ (b.text ≠ [] ∧ hasCyr b.text = false))

theorem entryLike_substEntry (tmap : List (ℤ × Str)) (e : SubtitleEntry) :
    EntryLike e (substEntry tmap e) := by
  obtain ⟨hi, hs, he⟩ := substEntry_index tmap e
  refine ⟨hi, hs, he, ?_⟩
  rcases substEntry_text tmap e with hsame | ⟨k, t, _, _, htne, htc, heq⟩
  · exact Or.inl hsame
  · right
    rw [heq]
    exact ⟨htne, htc⟩

theorem forall₂_translate_batch (b : List SubtitleEntry) (reply : Str) :
    List.Forall₂ EntryLike b (translate_batch b reply) := by
  unfold translate_batch
  induction b with
  | nil => exact List.Forall₂.nil
  | cons e rest ih =>
    exact List.Forall₂.cons (entryLike_substEntry _ e) ih

theorem forall₂_dispatchBatches (replies : Nat → Str) :
    ∀ (bs : List (List SubtitleEntry)) (bn : Nat),
      List.Forall₂ EntryLike bs.flatten (dispatchBatches replies bn bs).flatten := by
  intro bs
  induction bs with
  | nil => intro bn; exact List.Forall₂.nil
  | cons b rest ih =>
    intro bn
    simp only [dispatchBatches, List.flatten_cons]
    exact List.rel_append (forall₂_translate_batch b (replies bn)) (ih (bn + 1))

theorem forall₂_mem_right {R : SubtitleEntry → SubtitleEntry → Prop}
    {l l' : List SubtitleEntry} (h : List.Forall₂ R l l') {b : SubtitleEntry}
    (hb : b ∈ l') : ∃ a ∈ l, R a b := by
  induction h with
  | nil => exact absurd hb (by simp)
  | cons hr hrest ih =>
    rcases List.mem_cons.mp hb with hb | hb
    · subst hb
      exact ⟨_, by simp, hr⟩
    · obtain ⟨a, ha, hab⟩ := ih hb
      exact ⟨a, by simp [ha], hab⟩

theorem chunksOf_flatten {α : Type} (n : Nat) (l : List α) :
    (chunksOf (n + 1) l).flatten = l := by
  have H : ∀ (m : Nat) (l : List α), l.length ≤ m → (chunksOf (n + 1) l).flatten = l := by
    intro m
    induction m with
    | zero =>
      intro l h
      have hl : l = [] := List.length_eq_zero.mp (Nat.le_zero.mp h)
      subst hl
      rw [chunksOf_nil]
      rfl
    | succ m ih =>
      intro l h
      cases l with
      | nil => rw [chunksOf_nil]; rfl
      | cons x rest =>
        rw [chunksOf_cons]
        simp only [List.flatten_cons]
        rw [ih ((x :: rest).drop (n + 1))
          (by simp only [List.length_drop, List.length_cons] at *; omega)]
        exact List.take_append_drop _ _
  exact H l.length l (le_refl _)

theorem lookupLastIdx_mem {m : List (SubIdx × SubtitleEntry)} {k : SubIdx} {v : SubtitleEntry}
    (h : lookupLastIdx m k = some v) : (k, v) ∈ m := by
  unfold lookupLastIdx at h
  cases hf : m.reverse.find? (fun p => p.1 == k) with
  | none => rw [hf] at h; exact absurd h (by simp)
  | some p =>
    rw [hf] at h
    simp only [Option.map_some', Option.some_inj] at h
    have hmem : p ∈ m.reverse := List.mem_of_find?_eq_some hf
    have hkey := List.find?_some hf
    rw [List.mem_reverse] at hmem
    have hp : p = (k, v) := by
      obtain ⟨p1, p2⟩ := p
      simp only at h
      simp only [beq_iff_eq] at hkey
      simp [hkey, h]
    rw [hp] at hmem
    exact hmem

theorem lookupLastIdx_eq_none {m : List (SubIdx × SubtitleEntry)} {k : SubIdx}
    (h : ∀ p ∈ m, p.1 ≠ k) : lookupLastIdx m k = none := by
  unfold lookupLastIdx
  rw [List.find?_eq_none.mpr]
  · rfl
  · intro p hp
    simp only [beq_iff_eq]
    exact h p (List.mem_reverse.mp hp)

/-- Any binding of the round's `retry_map` comes from a residue-bearing
caption of the main stream with the same id and timings, and its stored
caption is Cyrillic-free. -/
theorem retryMap_mem {entries : List SubtitleEntry} {replies : Nat → Str}
    {k : SubIdx} {v : SubtitleEntry}
    (h : (k, v) ∈ ((dispatchBatches replies 1
        (chunksOf 20 (entries.filter (fun e => hasCyr e.text)))).flatten.filter
          (fun e => hasCyr e.text = false)).map (fun e => (e.index, e))) :
    v.index = k ∧ hasCyr v.text = false ∧
      ∃ u ∈ entries.filter (fun e => hasCyr e.text),
        v.index = u.index ∧ v.start_time = u.start_time ∧ v.end_time = u.end_time := by
  rw [List.mem_map] at h
  obtain ⟨w, hw, hkv⟩ := h
  rw [List.mem_filter] at hw
  obtain ⟨hwmem, hwclean⟩ := hw
  have hk : w.index = k ∧ w = v := by
    obtain ⟨h1, h2⟩ := Prod.mk.injEq .. ▸ hkv
    exact ⟨h1, h2⟩
  obtain ⟨hk1, hk2⟩ := hk
  subst hk2
  have hch : List.Forall₂ EntryLike
      (chunksOf 20 (entries.filter (fun e => hasCyr e.text))).flatten
      (dispatchBatches replies 1 (chunksOf 20 (entries.filter (fun e => hasCyr e.text)))).flatten :=
    forall₂_dispatchBatches replies _ 1
  rw [show (20 : Nat) = 19 + 1 from rfl, chunksOf_flatten] at hch
  obtain ⟨u, hu, hul⟩ := forall₂_mem_right hch hwmem
  refine ⟨hk1, by simpa using hwclean, u, hu, hul.1, hul.2.1, hul.2.2.1⟩

/-- Claim C3: one retry round is a keyed upsert.  With unique ids, every
caption that was already Cyrillic-free is kept bit-identical; every
caption keeps its id and timings; and a caption that changes was
residue-bearing before the round and is residue-free after it. -/
theorem claim_C3_retry_round_upsert (entries : List SubtitleEntry) (replies : Nat → Str)
    (hnd : (entries.map (fun e => e.index)).Nodup) :
    (retryRound entries replies).length = entries.length ∧
    (∀ (i : Nat) (e r : SubtitleEntry), entries[i]? = some e →
      (retryRound entries replies)[i]? = some r →
      r.index = e.index ∧ r.start_time = e.start_time ∧ r.end_time = e.end_time ∧
      (hasCyr e.text = false → r = e) ∧
      (r ≠ e → hasCyr e.text = true ∧ hasCyr r.text = false)) := by
  have hinj := List.inj_on_of_nodup_map hnd
  constructor
  · exact List.length_map _ _
  intro i e r he hr
  unfold retryRound at hr
  rw [List.getElem?_map, he] at hr
  simp only [Option.map_some', Option.some_inj] at hr
  have hemem : e ∈ entries := by
    have := List.getElem?_mem he
    exact this
  cases hl : lookupLastIdx (((dispatchBatches replies 1
      (chunksOf 20 (entries.filter (fun e => hasCyr e.text)))).flatten.filter
        (fun e => hasCyr e.text = false)).map (fun e => (e.index, e))) e.index with
  | none =>
    rw [hl] at hr
    subst hr
    exact ⟨rfl, rfl, rfl, fun _ => rfl, fun hne => absurd rfl hne⟩
  | some v =>
    rw [hl] at hr
    subst hr
    obtain ⟨hvk, hvclean, u, hu, hui, hus, hue⟩ := retryMap_mem (lookupLastIdx_mem hl)
    rw [List.mem_filter] at hu
    obtain ⟨humem, hudirty⟩ := hu
    have huid : u.index = e.index := by rw [← hui, hvk]
    have hue' : u = e := hinj humem hemem huid
    subst hue'
    refine ⟨by rw [hvk], by rw [hus], by rw [hue], ?_, ?_⟩
    · intro hclean
      rw [hclean] at hudirty
      exact absurd hudirty (by simp)
    · intro _
      exact ⟨by simpa using hudirty, hvclean⟩

/-- Witness for C3: a two-caption stream where only the residue-bearing
first caption is retried; the second (already clean) caption is
untouched. -/
theorem claim_C3_witness :
    (([⟨.intIdx 1, S "a", S "b", S "Привет"⟩,
        ⟨.intIdx 2, S "c", S "d", S "Hello"⟩] : List SubtitleEntry).map
          (fun e => e.index)).Nodup ∧
    ([⟨.intIdx 1, S "a", S "b", S "Привет"⟩,
        ⟨.intIdx 2, S "c", S "d", S "Hello"⟩] : List SubtitleEntry)[1]? =
      some ⟨.intIdx 2, S "c", S "d", S "Hello"⟩ ∧
    (retryRound [⟨.intIdx 1, S "a", S "b", S "Привет"⟩,
        ⟨.intIdx 2, S "c", S "d", S "Hello"⟩] (fun _ => S "[1] Hi"))[1]? =
      some ⟨.intIdx 2, S "c", S "d", S "Hello"⟩ ∧
    (⟨.intIdx 2, S "c", S "d", S "Hello"⟩ : SubtitleEntry) =
      ⟨.intIdx 2, S "c", S "d", S "Hello"⟩ :=
  ⟨by decide, by decide, by decide,
    ((claim_C3_retry_round_upsert
        [⟨.intIdx 1, S "a", S "b", S "Привет"⟩, ⟨.intIdx 2, S "c", S "d", S "Hello"⟩]
        (fun _ => S "[1] Hi") (by decide)).2 1
      ⟨.intIdx 2, S "c", S "d", S "Hello"⟩ ⟨.intIdx 2, S "c", S "d", S "Hello"⟩
      (by decide) (by decide)).2.2.2.1 (by decide)⟩

/-- Lines 980-981: the indices of the captions still carrying residue,
as surfaced after the loop. -/
def failedIndices (es : List SubtitleEntry) : List SubIdx :=
  (es.filter (fun e => hasCyr e.text)).map (fun e => e.index)

/-- The retry loop's frame invariant relative to the stream it started
from: same length, per-position id and timings, and any caption still
carrying residue is bit-identical to the one it started as. -/
def Preserve (orig cur : List SubtitleEntry) : Prop :=
  cur.length = orig.length ∧
  ∀ (i : Nat) (e r : SubtitleEntry), orig[i]? = some e → cur[i]? = some r →
    r.index = e.index ∧ r.start_time = e.start_time ∧ r.end_time = e.end_time ∧
    (hasCyr r.text = true → r = e)

theorem preserve_refl (es : List SubtitleEntry) : Preserve es es := by
  refine ⟨rfl, fun i e r he hr => ?_⟩
  rw [he] at hr
  simp only [Option.some_inj] at hr
  subst hr
  exact ⟨rfl, rfl, rfl, fun _ => rfl⟩

theorem preserve_map_index {orig cur : List SubtitleEntry} (h : Preserve orig cur) :
    cur.map (fun e => e.index) = orig.map (fun e => e.index) := by
  apply List.ext_getElem?
  intro i
  rw [List.getElem?_map, List.getElem?_map]
  cases ho : orig[i]? with
  | none =>
    have hlen : orig.length ≤ i := List.getElem?_eq_none_iff.mp ho
    have hcn : cur[i]? = none := List.getElem?_eq_none_iff.mpr (by rw [h.1]; exact hlen)
    rw [hcn]
  | some e =>
    have hlen : i < orig.length := by
      by_contra hc
      rw [List.getElem?_eq_none_iff.mpr (by omega)] at ho
      exact Option.noConfusion ho
    have hlen2 : i < cur.length := by rw [h.1]; exact hlen
    obtain ⟨r, hr⟩ : ∃ r, cur[i]? = some r :=
      ⟨cur[i], (List.getElem?_eq_some_iff).mpr ⟨hlen2, rfl⟩⟩
    rw [hr]
    simp only [Option.map_some', Option.some_inj]
    exact (h.2 i e r ho hr).1

theorem preserve_comp {orig mid cur : List SubtitleEntry}
    (h1 : Preserve orig mid) (h2 : Preserve mid cur) : Preserve orig cur := by
  refine ⟨by rw [h2.1, h1.1], fun i e r he hr => ?_⟩
  have hlen : i < orig.length := by
    by_contra hc
    rw [List.getElem?_eq_none_iff.mpr (by omega)] at he
    exact Option.noConfusion he
  have hmlen : mid.length = orig.length := h1.1
  obtain ⟨m, hm⟩ : ∃ m, mid[i]? = some m := by
    cases hm : mid[i]? with
    | none => rw [List.getElem?_eq_none_iff] at hm; omega
    | some m => exact ⟨m, rfl⟩
  obtain ⟨hmi, hms, hme, hmd⟩ := h1.2 i e m he hm
  obtain ⟨hri, hrs, hre, hrd⟩ := h2.2 i m r hm hr
  refine ⟨by rw [hri, hmi], by rw [hrs, hms], by rw [hre, hme], ?_⟩
  intro hdirty
  have hrm : r = m := hrd hdirty
  rw [hrm]
  exact hmd (by rw [← hrm]; exact hdirty)

theorem preserve_retryRound (entries : List SubtitleEntry) (replies : Nat → Str)
    (hnd : (entries.map (fun e => e.index)).Nodup) :
    Preserve entries (retryRound entries replies) := by
  have h := claim_C3_retry_round_upsert entries replies hnd
  refine ⟨h.1, fun i e r he hr => ?_⟩
  obtain ⟨h1, h2, h3, _, h5⟩ := h.2 i e r he hr
  refine ⟨h1, h2, h3, ?_⟩
  intro hdirty
  by_contra hne
  have := (h5 hne).2
  rw [hdirty] at this
  exact Bool.noConfusion this

theorem retryLoopF_preserve (replies : Nat → Nat → Str) :
    ∀ (fuel rr : Nat) (entries : List SubtitleEntry),
      (entries.map (fun e => e.index)).Nodup →
      Preserve entries (retryLoopF replies fuel rr entries).1 ∧
        (retryLoopF replies fuel rr entries).2.1 ≤ rr + fuel := by
  intro fuel
  induction fuel with
  | zero =>
    intro rr entries _
    exact ⟨preserve_refl entries, le_refl _⟩
  | succ f ih =>
    intro rr entries hnd
    by_cases hc : 0 < untranslatedCount entries
    · simp only [retryLoopF, if_pos hc]
      have hstep : Preserve entries (retryRound entries (replies (rr + 1))) :=
        preserve_retryRound entries (replies (rr + 1)) hnd
      have hnd2 : ((retryRound entries (replies (rr + 1))).map (fun e => e.index)).Nodup := by
        rw [preserve_map_index hstep]
        exact hnd
      obtain ⟨hp, hb⟩ := ih (rr + 1) (retryRound entries (replies (rr + 1))) hnd2
      exact ⟨preserve_comp hstep hp, by omega⟩
    · simp only [retryLoopF, if_neg hc]
      exact ⟨preserve_refl entries, by omega⟩

/-- Claim C4: the retry loop executes at most `max_retries = 2` rounds
and terminates; when the stream is already residue-free it stops
immediately; nothing is ever dropped (same length, per-position ids and
timings); every caption still carrying residue at the end is
bit-identical to the caption the loop started with (its source-language
text is kept, never dropped); and residue, if any remains, is surfaced
as a nonempty index list rather than an exception. -/
theorem claim_C4_retry_loop_terminates (entries : List SubtitleEntry)
    (replies : Nat → Nat → Str) (hnd : (entries.map (fun e => e.index)).Nodup) :
    (retryLoop replies 2 0 entries).2.1 ≤ 2 ∧
    (retryLoop replies 2 0 entries).1.length = entries.length ∧
    (untranslatedCount entries = 0 →
      (retryLoop replies 2 0 entries).1 = entries ∧ (retryLoop replies 2 0 entries).2.1 = 0) ∧
    (∀ (i : Nat) (e r : SubtitleEntry), entries[i]? = some e →
      (retryLoop replies 2 0 entries).1[i]? = some r →
      r.index = e.index ∧ r.start_time = e.start_time ∧ r.end_time = e.end_time ∧
      (hasCyr r.text = true → r = e)) ∧
    (0 < untranslatedCount (retryLoop replies 2 0 entries).1 →
      failedIndices (retryLoop replies 2 0 entries).1 ≠ []) := by
  obtain ⟨hp, hb⟩ := retryLoopF_preserve replies 2 0 entries hnd
  refine ⟨by simpa using hb, hp.1, ?_, hp.2, ?_⟩
  · intro h0
    have : ¬ 0 < untranslatedCount entries := by omega
    unfold retryLoop
    simp only [retryLoopF, if_neg this]
    exact ⟨trivial, trivial⟩
  · intro hpos
    unfold failedIndices untranslatedCount at *
    intro hmap
    rw [List.map_eq_nil_iff] at hmap
    rw [hmap] at hpos
    exact absurd hpos (by simp)

/-- Witness for C4 at a concrete stream and an always-failing oracle:
two rounds run, nothing is dropped, and the residue-bearing caption
survives bit-identical. -/
theorem claim_C4_witness :
    (([⟨.intIdx 1, S "a", S "b", S "Привет"⟩] : List SubtitleEntry).map
        (fun e => e.index)).Nodup ∧
    (retryLoop (fun _ _ => S "") 2 0 [⟨.intIdx 1, S "a", S "b", S "Привет"⟩]).2.1 ≤ 2 :=
  ⟨by decide,
    (claim_C4_retry_loop_terminates [⟨.intIdx 1, S "a", S "b", S "Привет"⟩]
      (fun _ _ => S "") (by decide)).1⟩

/-- `first_text` of the split branch of `split_subtitle_entry`. -/
def firstTextOf (e : SubtitleEntry) : Str :=
  joinSpace ((pySplitWS e.text).take ((pySplitWS e.text).length / 2))

/-- `second_text` of the split branch of `split_subtitle_entry`. -/
def secondTextOf (e : SubtitleEntry) : Str :=
  joinSpace ((pySplitWS e.text).drop ((pySplitWS e.text).length / 2))

/-- `split_time = start_sec + duration * (first_len / total_len)`. -/
def splitTimeOf (e : SubtitleEntry) : ℚ :=
  parse_time e.start_time +
    (parse_time e.end_time - parse_time e.start_time) *
      (((firstTextOf e).length : ℚ) /
        (((firstTextOf e).length + (secondTextOf e).length : ℕ) : ℚ))

/-- `first_entry` of the split branch. -/
def firstEntryOf (e : SubtitleEntry) : SubtitleEntry :=
  ⟨e.index, e.start_time, format_time (splitTimeOf e), firstTextOf e⟩

/-- `second_entry` of the split branch. -/
def secondEntryOf (e : SubtitleEntry) : SubtitleEntry :=
  ⟨.strIdx (idxStr e.index ++ '_' :: natToDigits 1), format_time (splitTimeOf e),
    e.end_time, secondTextOf e⟩

/-- The id-renumbering loop over the second half's parts. -/
def renumber (parent : SubIdx) (n : Nat) (sp : List SubtitleEntry) : List SubtitleEntry :=
  ((List.range sp.length).zip sp).map (fun p =>
    { p.2 with index := .strIdx (idxStr parent ++ '_' :: natToDigits (n + p.1)) })

/-- The `(start, end)` timing view of a caption. -/
def timesOf (e : SubtitleEntry) : Str × Str := (e.start_time, e.end_time)

theorem splitEntryF_base1 (f : Nat) (e : SubtitleEntry) (ml : Nat)
    (h1 : ((split_long_subtitle_text e.text).splitOn '\n').length ≤ ml) :
    splitEntryF (f + 1) e ml = [{ e with text := split_long_subtitle_text e.text }] := by
  simp only [splitEntryF]
  rw [if_pos h1]

theorem splitEntryF_base2 (f : Nat) (e : SubtitleEntry) (ml : Nat)
    (h1 : ¬ ((split_long_subtitle_text e.text).splitOn '\n').length ≤ ml)
    (h2 : (pySplitWS e.text).length < 2) :
    splitEntryF (f + 1) e ml = [{ e with text := split_long_subtitle_text e.text }] := by
  simp only [splitEntryF]
  rw [if_neg h1, if_pos h2]

theorem splitEntryF_base3 (f : Nat) (e : SubtitleEntry) (ml : Nat)
    (h1 : ¬ ((split_long_subtitle_text e.text).splitOn '\n').length ≤ ml)
    (h2 : ¬ (pySplitWS e.text).length < 2)
    (h3 : (firstTextOf e).length + (secondTextOf e).length = 0) :
    splitEntryF (f + 1) e ml = [{ e with text := split_long_subtitle_text e.text }] := by
  unfold firstTextOf secondTextOf at h3
  simp only [splitEntryF]
  rw [if_neg h1, if_neg h2, if_pos h3]

theorem splitEntryF_step (f : Nat) (e : SubtitleEntry) (ml : Nat)
    (h1 : ¬ ((split_long_subtitle_text e.text).splitOn '\n').length ≤ ml)
    (h2 : ¬ (pySplitWS e.text).length < 2)
    (h3 : ¬ (firstTextOf e).length + (secondTextOf e).length = 0) :
    splitEntryF (f + 1) e ml =
      splitEntryF f (firstEntryOf e) ml ++
        (if 1 < (splitEntryF f (firstEntryOf e) ml).length ∨
            1 < (splitEntryF f (secondEntryOf e) ml).length then
          renumber e.index (splitEntryF f (firstEntryOf e) ml).length
            (splitEntryF f (secondEntryOf e) ml)
        else splitEntryF f (secondEntryOf e) ml) := by
  unfold firstEntryOf secondEntryOf splitTimeOf firstTextOf secondTextOf renumber at *
  simp only [splitEntryF]
  rw [if_neg h1, if_neg h2, if_neg h3]

theorem renumber_length (parent : SubIdx) (n : Nat) (sp : List SubtitleEntry) :
    (renumber parent n sp).length = sp.length := by
  unfold renumber
  rw [List.length_map, List.length_zip, List.length_range]
  omega

theorem renumber_times (parent : SubIdx) (n : Nat) (sp : List SubtitleEntry) :
    (renumber parent n sp).map timesOf = sp.map timesOf := by
  unfold renumber
  rw [List.map_map]
  show List.map (timesOf ∘ Prod.snd) ((List.range sp.length).zip sp) = List.map timesOf sp
  rw [← List.map_map, List.map_snd_zip _ _ (by rw [List.length_range])]

theorem renumber_ids (parent : SubIdx) (n : Nat) (sp : List SubtitleEntry) :
    (renumber parent n sp).map (fun p => p.index) =
      (List.range sp.length).map
        (fun i => SubIdx.strIdx (idxStr parent ++ '_' :: natToDigits (n + i))) := by
  unfold renumber
  rw [List.map_map]
  show List.map ((fun i => SubIdx.strIdx (idxStr parent ++ '_' :: natToDigits (n + i))) ∘ Prod.fst)
    ((List.range sp.length).zip sp) =
    List.map (fun i => SubIdx.strIdx (idxStr parent ++ '_' :: natToDigits (n + i)))
      (List.range sp.length)
  rw [← List.map_map, List.map_fst_zip _ _ (by rw [List.length_range])]

/-- Whatever the fuel, the splitter's output is a nonempty list of
captions whose first leaf starts at the input's start, whose last leaf
ends at the input's end, and whose consecutive leaves meet exactly
(each end timestamp equals the next start timestamp). -/
theorem splitEntryF_span : ∀ (fuel : Nat) (e : SubtitleEntry) (ml : Nat),
    splitEntryF fuel e ml ≠ [] ∧
    (∀ p ∈ ((splitEntryF fuel e ml).map timesOf).head?, p.1 = e.start_time) ∧
    (∀ p ∈ ((splitEntryF fuel e ml).map timesOf).getLast?, p.2 = e.end_time) ∧
    List.Chain' (fun a b => a.2 = b.1) ((splitEntryF fuel e ml).map timesOf) := by
  intro fuel
  induction fuel with
  | zero =>
    intro e ml
    refine ⟨by simp [splitEntryF], ?_, ?_, ?_⟩ <;> simp [splitEntryF, timesOf]
  | succ f ih =>
    intro e ml
    by_cases h1 : ((split_long_subtitle_text e.text).splitOn '\n').length ≤ ml
    · rw [splitEntryF_base1 f e ml h1]
      refine ⟨by simp, ?_, ?_, ?_⟩ <;> simp [timesOf]
    · by_cases h2 : (pySplitWS e.text).length < 2
      · rw [splitEntryF_base2 f e ml h1 h2]
        refine ⟨by simp, ?_, ?_, ?_⟩ <;> simp [timesOf]
      · by_cases h3 : (firstTextOf e).length + (secondTextOf e).length = 0
        · rw [splitEntryF_base3 f e ml h1 h2 h3]
          refine ⟨by simp, ?_, ?_, ?_⟩ <;> simp [timesOf]
        · rw [splitEntryF_step f e ml h1 h2 h3]
          obtain ⟨fne, fhead, flast, fchain⟩ := ih (firstEntryOf e) ml
          obtain ⟨sne, shead, slast, schain⟩ := ih (secondEntryOf e) ml
          set fp := splitEntryF f (firstEntryOf e) ml with hfp
          set sp := splitEntryF f (secondEntryOf e) ml with hsp
          set sp2 := if 1 < fp.length ∨ 1 < sp.length then renumber e.index fp.length sp else sp
            with hsp2
          have hsp2t : sp2.map timesOf = sp.map timesOf := by
            rw [hsp2]
            by_cases hc : 1 < fp.length ∨ 1 < sp.length
            · rw [if_pos hc, renumber_times]
            · rw [if_neg hc]
          have hsp2ne : sp2 ≠ [] := by
            intro hcon
            have := congrArg List.length hsp2t
            rw [hcon] at this
            simp only [List.map_nil, List.length_nil, List.length_map] at this
            exact sne (List.length_eq_zero.mp this.symm)
          have hfm : fp.map timesOf ≠ [] := by
            simpa [List.map_eq_nil_iff] using fne
          refine ⟨by simp [fne], ?_, ?_, ?_⟩
          · intro p hp
            rw [List.map_append, List.head?_append] at hp
            cases hh : (fp.map timesOf).head? with
            | none => exact absurd hh (by simpa [List.head?_eq_none_iff] using hfm)
            | some q =>
              rw [hh] at hp
              simp only [Option.or_some, Option.mem_def, Option.some_inj] at hp
              subst hp
              exact fhead q (by rw [hh]; rfl)
          · intro p hp
            rw [List.map_append, List.getLast?_append] at hp
            have hsm : sp2.map timesOf ≠ [] := by
              rw [hsp2t]
              simpa [List.map_eq_nil_iff] using sne
            cases hh : (sp2.map timesOf).getLast? with
            | none => exact absurd hh (by simpa [List.getLast?_eq_none_iff] using hsm)
            | some q =>
              rw [hh] at hp
              simp only [Option.or_some, Option.mem_def, Option.some_inj] at hp
              subst hp
              rw [hsp2t] at hh
              exact slast q (by rw [hh]; rfl)
          · rw [List.map_append]
            refine List.Chain'.append fchain (by rw [hsp2t]; exact schain) ?_
            intro x hx y hy
            have hx2 : x.2 = (firstEntryOf e).end_time := flast x hx
            rw [hsp2t] at hy
            have hy1 : y.1 = (secondEntryOf e).start_time := shead y hy
            rw [hx2, hy1]
            rfl

/-- Whatever the fuel, the splitter's leaves carry the gapless id
sequence `K, K_1, …, K_(T-1)` in left-to-right order, where `K` is the
input's id and `T` the number of leaves. -/
theorem splitEntryF_ids : ∀ (fuel : Nat) (e : SubtitleEntry) (ml : Nat),
    (splitEntryF fuel e ml).map (fun p => p.index) =
      e.index :: (List.range ((splitEntryF fuel e ml).length - 1)).map
        (fun i => SubIdx.strIdx (idxStr e.index ++ '_' :: natToDigits (1 + i))) := by
  intro fuel
  induction fuel with
  | zero =>
    intro e ml
    simp [splitEntryF]
  | succ f ih =>
    intro e ml
    by_cases h1 : ((split_long_subtitle_text e.text).splitOn '\n').length ≤ ml
    · rw [splitEntryF_base1 f e ml h1]; simp
    · by_cases h2 : (pySplitWS e.text).length < 2
      · rw [splitEntryF_base2 f e ml h1 h2]; simp
      · by_cases h3 : (firstTextOf e).length + (secondTextOf e).length = 0
        · rw [splitEntryF_base3 f e ml h1 h2 h3]; simp
        · rw [splitEntryF_step f e ml h1 h2 h3]
          have hfne := (splitEntryF_span f (firstEntryOf e) ml).1
          have hsne := (splitEntryF_span f (secondEntryOf e) ml).1
          set fp := splitEntryF f (firstEntryOf e) ml with hfp
          set sp := splitEntryF f (secondEntryOf e) ml with hsp
          have hNf : 1 ≤ fp.length := by
            cases hc : fp with
            | nil => exact absurd hc hfne
            | cons a l => simp
          have hNs : 1 ≤ sp.length := by
            cases hc : sp with
            | nil => exact absurd hc hsne
            | cons a l => simp
          have hfids : fp.map (fun p => p.index) =
              e.index :: (List.range (fp.length - 1)).map
                (fun i => SubIdx.strIdx (idxStr e.index ++ '_' :: natToDigits (1 + i))) := by
            have := ih (firstEntryOf e) ml
            rw [← hfp] at this
            exact this
          have hsids : ∀ sp2, sp2 = (if 1 < fp.length ∨ 1 < sp.length then
              renumber e.index fp.length sp else sp) →
              sp2.map (fun p => p.index) =
              (List.range sp.length).map
                (fun i => SubIdx.strIdx (idxStr e.index ++ '_' :: natToDigits (fp.length + i))) := by
            intro sp2 hsp2
            by_cases hc : 1 < fp.length ∨ 1 < sp.length
            · rw [hsp2, if_pos hc, renumber_ids]
            · rw [hsp2, if_neg hc]
              push_neg at hc
              have hNf1 : fp.length = 1 := by omega
              have hNs1 : sp.length = 1 := by omega
              have := ih (secondEntryOf e) ml
              rw [← hsp] at this
              rw [this, hNs1, hNf1]
              rw [show List.range 1 = [0] from by decide]
              simp [secondEntryOf, idxStr]
          rw [List.map_append, hfids, hsids _ rfl]
          have hlen : (fp ++ (if 1 < fp.length ∨ 1 < sp.length then
              renumber e.index fp.length sp else sp)).length - 1 =
              (fp.length - 1) + sp.length := by
            rw [List.length_append]
            by_cases hc : 1 < fp.length ∨ 1 < sp.length
            · rw [if_pos hc, renumber_length]; omega
            · rw [if_neg hc]; omega
          rw [hlen, List.range_add, List.map_append]
          simp only [List.cons_append]
          congr 1
          congr 1
          rw [List.map_map]
          apply List.map_congr_left
          intro i hi
          have harg : fp.length + i = 1 + ((fp.length - 1) + i) := by omega
          simp only [Function.comp_apply]
          rw [harg]

theorem interc_single (sep w : Str) : List.intercalate sep [w] = w := by
  simp [List.intercalate]

theorem interc_cons2 (sep w w2 : Str) (rest : List Str) :
    List.intercalate sep (w :: w2 :: rest) = w ++ sep ++ List.intercalate sep (w2 :: rest) := by
  simp [List.intercalate, List.intersperse]

theorem pySplitWSF_good : ∀ (fuel : Nat) (s : Str), ∀ w ∈ pySplitWSF fuel s, w ≠ [] := by
  intro fuel
  induction fuel with
  | zero =>
    intro s w hw
    cases s with
    | nil => simp [pySplitWSF] at hw
    | cons c rest =>
      simp only [pySplitWSF, List.mem_singleton] at hw
      subst hw
      simp
  | succ f ih =>
    intro s w hw
    cases s with
    | nil => simp [pySplitWSF] at hw
    | cons c rest =>
      simp only [pySplitWSF] at hw
      by_cases hc : pyIsSpace c
      · rw [if_pos hc] at hw
        exact ih rest w hw
      · rw [if_neg hc] at hw
        rcases List.mem_cons.mp hw with h | h
        · subst h
          rw [List.takeWhile_cons_of_pos (by simp [hc])]
          simp
        · exact ih _ w h

theorem pySplitWS_good (s : Str) : ∀ w ∈ pySplitWS s, w ≠ [] :=
  pySplitWSF_good s.length s

theorem joinSpace_length_pos {ws : List Str} (hne : ws ≠ []) (h : ∀ w ∈ ws, w ≠ []) :
    0 < (joinSpace ws).length := by
  cases ws with
  | nil => exact absurd rfl hne
  | cons w rest =>
    cases rest with
    | nil =>
      rw [joinSpace, interc_single]
      have := h w (by simp)
      cases w with
      | nil => exact absurd rfl this
      | cons c cw => simp
    | cons w2 rest2 =>
      rw [joinSpace, interc_cons2]
      simp

/-- Claim C7: when the wrapped text exceeds the 2-line limit and there
are at least 2 words, `split_subtitle_entry` returns at least two leaf
captions whose time spans are contiguous (each leaf's end timestamp is
the next leaf's start timestamp), starting at the input's start time and
ending at the input's end time, and the proportional split point
`start + duration * (first_len / total_len)` is one of the leaf start
timestamps. -/
theorem claim_C7_split_contiguous (e : SubtitleEntry)
    (h1 : ¬ ((split_long_subtitle_text e.text).splitOn '\n').length ≤ 2)
    (h2 : 2 ≤ (pySplitWS e.text).length) :
    2 ≤ (split_subtitle_entry e).length ∧
    (∀ p ∈ (split_subtitle_entry e).head?, p.start_time = e.start_time) ∧
    (∀ p ∈ (split_subtitle_entry e).getLast?, p.end_time = e.end_time) ∧
    List.Chain' (fun a b => a.end_time = b.start_time) (split_subtitle_entry e) ∧
    format_time (splitTimeOf e) ∈ (split_subtitle_entry e).map (fun p => p.start_time) := by
  have hwords := pySplitWS_good e.text
  have h2' : ¬ (pySplitWS e.text).length < 2 := by omega
  have h3 : ¬ (firstTextOf e).length + (secondTextOf e).length = 0 := by
    intro hcon
    have htake : (pySplitWS e.text).take ((pySplitWS e.text).length / 2) ≠ [] := by
      rw [Ne, List.take_eq_nil_iff]
      push_neg
      constructor
      · have : 1 ≤ (pySplitWS e.text).length / 2 := by omega
        omega
      · intro hc
        rw [hc] at h2
        exact absurd h2 (by simp)
    have hpos : 0 < (firstTextOf e).length := by
      unfold firstTextOf
      exact joinSpace_length_pos htake
        (fun w hw => hwords w (List.mem_of_mem_take hw))
    omega
  obtain ⟨m, hm⟩ : ∃ m, (pySplitWS e.text).length = m + 1 :=
    ⟨(pySplitWS e.text).length - 1, by omega⟩
  have hunfold : split_subtitle_entry e = splitEntryF (m + 1) e 2 := by
    unfold split_subtitle_entry
    rw [hm]
  obtain ⟨hne, hhead, hlast, hchain⟩ := splitEntryF_span (m + 1) e 2
  have hstep := splitEntryF_step m e 2 h1 h2' h3
  refine ⟨?_, ?_, ?_, ?_, ?_⟩
  · rw [hunfold, hstep]
    have hf := (splitEntryF_span m (firstEntryOf e) 2).1
    have hs := (splitEntryF_span m (secondEntryOf e) 2).1
    rw [List.length_append]
    have hf1 : 1 ≤ (splitEntryF m (firstEntryOf e) 2).length := by
      cases hc : splitEntryF m (firstEntryOf e) 2 with
      | nil => exact absurd hc hf
      | cons a l => simp
    have hs1 : 1 ≤ (if 1 < (splitEntryF m (firstEntryOf e) 2).length ∨
        1 < (splitEntryF m (secondEntryOf e) 2).length then
          renumber e.index (splitEntryF m (firstEntryOf e) 2).length
            (splitEntryF m (secondEntryOf e) 2)
        else splitEntryF m (secondEntryOf e) 2).length := by
      by_cases hc : 1 < (splitEntryF m (firstEntryOf e) 2).length ∨
          1 < (splitEntryF m (secondEntryOf e) 2).length
      · rw [if_pos hc, renumber_length]
        cases hcc : splitEntryF m (secondEntryOf e) 2 with
        | nil => exact absurd hcc hs
        | cons a l => simp
      · rw [if_neg hc]
        cases hcc : splitEntryF m (secondEntryOf e) 2 with
        | nil => exact absurd hcc hs
        | cons a l => simp
    omega
  · intro p hp
    rw [hunfold] at hp
    rw [Option.mem_def] at hp
    refine hhead (timesOf p) ?_
    rw [List.head?_map, Option.mem_def, hp, Option.map_some']
  · intro p hp
    rw [hunfold] at hp
    rw [Option.mem_def] at hp
    refine hlast (timesOf p) ?_
    rw [List.getLast?_map, Option.mem_def, hp, Option.map_some']
  · rw [hunfold]
    rw [List.chain'_map] at hchain
    exact hchain
  · rw [hunfold, hstep]
    set fp := splitEntryF m (firstEntryOf e) 2 with hfpd
    set sp := splitEntryF m (secondEntryOf e) 2 with hspd
    set sp2 := if 1 < fp.length ∨ 1 < sp.length then renumber e.index fp.length sp else sp
      with hsp2d
    have hsp2t : sp2.map timesOf = sp.map timesOf := by
      rw [hsp2d]
      by_cases hc : 1 < fp.length ∨ 1 < sp.length
      · rw [if_pos hc, renumber_times]
      · rw [if_neg hc]
    have hsne := (splitEntryF_span m (secondEntryOf e) 2).1
    have hshead := (splitEntryF_span m (secondEntryOf e) 2).2.1
    rw [← hspd] at hsne hshead
    have hsp2ne : sp2 ≠ [] := by
      intro hcon
      have := congrArg List.length hsp2t
      rw [hcon] at this
      simp only [List.map_nil, List.length_nil, List.length_map] at this
      exact hsne (List.length_eq_zero.mp this.symm)
    cases hh : sp2.head? with
    | none => exact absurd (List.head?_eq_none_iff.mp hh) hsp2ne
    | some h0 =>
      have hh0mem : h0 ∈ fp ++ sp2 :=
        List.mem_append_right fp (List.mem_of_mem_head? (by rw [hh]; rfl))
      have hstart : h0.start_time = format_time (splitTimeOf e) := by
        have : timesOf h0 ∈ (sp2.map timesOf).head? := by
          rw [List.head?_map, hh]
          rfl
        rw [hsp2t] at this
        exact hshead (timesOf h0) this
      rw [← hstart]
      exact List.mem_map_of_mem _ hh0mem

/-- Claim C8: whenever `split_subtitle_entry` splits a caption with id
`K`, the returned leaves carry the ids `K, K_1, …, K_(T-1)` in
left-to-right time order with no gaps, where `T` is the number of
leaves, regardless of how unevenly the two halves recursed. -/
theorem claim_C8_split_ids (e : SubtitleEntry) (max_lines : Nat)
    (_h : 2 ≤ (split_subtitle_entry e max_lines).length) :
    (split_subtitle_entry e max_lines).map (fun p => p.index) =
      e.index :: (List.range ((split_subtitle_entry e max_lines).length - 1)).map
        (fun i => SubIdx.strIdx (idxStr e.index ++ '_' :: natToDigits (1 + i))) :=
  splitEntryF_ids _ e max_lines

/-- A 119-character, 12-word caption text that wraps to 3 lines at 45
characters per line. -/
def wtext : Str := S "aaaaaaaaa bbbbbbbbb ccccccccc ddddddddd eeeeeeeee fffffffff ggggggggg hhhhhhhhh iiiiiiiii jjjjjjjjj kkkkkkkkk lllllllll"

/-- The witness caption for the splitter claims. -/
def we : SubtitleEntry := ⟨.intIdx 7, S "00:00:10,000", S "00:00:20,000", wtext⟩

set_option maxRecDepth 40000 in
/-- Witness for C7: the 12-word caption wraps to 3 lines and is split
into contiguous leaves. -/
theorem claim_C7_witness :
    ¬ ((split_long_subtitle_text we.text).splitOn '\n').length ≤ 2 ∧
    2 ≤ (pySplitWS we.text).length ∧
    2 ≤ (split_subtitle_entry we).length :=
  ⟨by decide, by decide, (claim_C7_split_contiguous we (by decide) (by decide)).1⟩

set_option maxRecDepth 40000 in
/-- Witness for C8: the split caption's leaves carry ids `7`, `7_1`. -/
theorem claim_C8_witness :
    2 ≤ (split_subtitle_entry we 2).length ∧
    (split_subtitle_entry we 2).map (fun p => p.index) =
      we.index :: (List.range ((split_subtitle_entry we 2).length - 1)).map
        (fun i => SubIdx.strIdx (idxStr we.index ++ '_' :: natToDigits (1 + i))) :=
  ⟨by decide, claim_C8_split_ids we 2 (by decide)⟩

theorem offsetsFrom_length (l : List ℚ) : ∀ acc, (offsetsFrom acc l).length = l.length := by
  induction l with
  | nil => intro acc; rfl
  | cons d rest ih =>
    intro acc
    simp [offsetsFrom, ih]

theorem offsetsFrom_get (l : List ℚ) : ∀ (acc : ℚ) (k : Nat), k < l.length →
    (offsetsFrom acc l)[k]? = some (acc + (l.take (k + 1)).sum) := by
  induction l with
  | nil =>
    intro acc k hk
    simp at hk
  | cons d rest ih =>
    intro acc k hk
    cases k with
    | zero => simp [offsetsFrom]
    | succ k2 =>
      rw [offsetsFrom, List.getElem?_cons_succ, ih (acc + d) k2 (by simpa using hk),
        List.take_succ_cons, List.sum_cons, add_assoc]

theorem computeOffsets_get (durations : List ℚ) (k : Nat) (hk : k < durations.length) :
    (computeOffsets durations)[k]? = some ((durations.take k).sum) := by
  cases k with
  | zero => simp [computeOffsets]
  | succ k2 =>
    rw [computeOffsets, List.getElem?_cons_succ]
    have hk2 : k2 < durations.dropLast.length := by
      rw [List.length_dropLast]
      omega
    rw [offsetsFrom_get _ 0 k2 hk2, zero_add, List.dropLast_eq_take, List.take_take,
      Nat.min_eq_left (by omega)]

theorem map_zip_get {α β γ : Type} (f : α × β → γ) :
    ∀ (xs : List α) (ys : List β) (k : Nat), xs.length ≤ ys.length →
    ((xs.zip ys).map f)[k]? = xs[k]?.bind (fun x => ys[k]?.map (fun y => f (x, y))) := by
  intro xs
  induction xs with
  | nil =>
    intro ys k hlen
    simp
  | cons x xt ih =>
    intro ys k hlen
    cases ys with
    | nil => simp at hlen
    | cons y yt =>
      cases k with
      | zero => simp
      | succ k2 =>
        rw [List.zip_cons_cons, List.map_cons, List.getElem?_cons_succ,
          List.getElem?_cons_succ, List.getElem?_cons_succ]
        exact ih yt k2 (by simpa using hlen)

/-- Claim C2: the offset list is computed from the chunk durations alone
before any transcription (the merge pipeline factors through it): the
first chunk gets offset 0 and chunk `k` (0-based) gets exactly
`d_0 + … + d_(k-1)`, and the time shift applied to chunk `k`'s raw
transcript is exactly that prefix sum. -/
theorem claim_C2_chunk_offsets (durations : List ℚ) (raws : List Str)
    (h : raws.length = durations.length) :
    (computeOffsets durations).head? = some 0 ∧
    (∀ k, k < durations.length →
      (computeOffsets durations)[k]? = some ((durations.take k).sum)) ∧
    transcribeSequentialMerge durations raws =
      combineTranscripts (numberFrom 1
        ((raws.zip (computeOffsets durations)).map (fun p => applyChunkOffset p.2 p.1))) ∧
    ∀ k, ((raws.zip (computeOffsets durations)).map
        (fun p => applyChunkOffset p.2 p.1))[k]? =
      raws[k]?.map (fun r => applyChunkOffset ((durations.take k).sum) r) := by
  have hlen : raws.length ≤ (computeOffsets durations).length := by
    have h1 : (computeOffsets durations).length = durations.dropLast.length + 1 := by
      simp [computeOffsets, offsetsFrom_length]
    rw [List.length_dropLast] at h1
    omega
  refine ⟨rfl, fun k hk => computeOffsets_get durations k hk, rfl, ?_⟩
  intro k
  rw [map_zip_get _ raws (computeOffsets durations) k hlen]
  by_cases hk : k < raws.length
  · have hkd : k < durations.length := by omega
    rw [computeOffsets_get durations k hkd]
    cases hr : raws[k]? with
    | none => rfl
    | some r => rfl
  · have h1 : raws[k]? = none := by
      rw [List.getElem?_eq_none_iff]
      omega
    rw [h1]
    rfl

/-- Witness for C2 at two chunks with durations 2 s and 3 s. -/
theorem claim_C2_witness :
    ([S "ax", S "by"] : List Str).length = ([2, 3] : List ℚ).length ∧
    (computeOffsets [2, 3]).head? = some 0 :=
  ⟨rfl, (claim_C2_chunk_offsets [2, 3] [S "ax", S "by"] rfl).1⟩


/-- No two adjacent newlines: the relation whose chain characterizes
`'\n\n' not in s`. -/
def nnR (a b : Char) : Prop := ¬(a = '\n' ∧ b = '\n')

instance (a b : Char) : Decidable (nnR a b) := by unfold nnR; infer_instance

theorem containsSub_nn_iff : ∀ s : Str, containsSub nn s = false ↔ List.Chain' nnR s := by
  intro s
  induction s with
  | nil => simp [containsSub, nn, List.isPrefixOf]
  | cons c rest ih =>
    cases rest with
    | nil => simp [containsSub, nn, List.isPrefixOf]
    | cons d rest2 =>
      rw [List.chain'_cons, containsSub, Bool.or_eq_false_iff, ih]
      have hpre : (nn.isPrefixOf (c :: d :: rest2) = false) ↔ nnR c d := by
        simp only [nn, List.isPrefixOf, Bool.and_eq_false_iff, beq_eq_false_iff_ne, Ne,
          nnR, not_and]
        constructor
        · intro h hc hd
          rcases h with h | h
          · exact h hc.symm
          rcases h with h | h
          · exact h hd.symm
          · simp [List.isPrefixOf] at h
        · intro h
          by_cases hc : c = '
'
          · exact Or.inr (Or.inl (fun hd => h hc hd.symm))
          · exact Or.inl (fun hcc => hc hcc.symm)
      rw [hpre]

theorem chain_nnR_of_no_nl {s : Str} (h : '\n' ∉ s) : List.Chain' nnR s := by
  induction s with
  | nil => simp
  | cons c rest ih =>
    rw [List.chain'_cons']
    refine ⟨?_, ih (fun hm => h (List.mem_cons_of_mem c hm))⟩
    intro y hy hcon
    exact h (by simp [hcon.1])

theorem mem_splitOnP_not (p : Char → Bool) :
    ∀ (s : Str), ∀ l ∈ s.splitOnP p, ∀ a ∈ l, ¬ p a := by
  intro s
  induction s with
  | nil =>
    intro l hl
    rw [List.splitOnP_nil] at hl
    simp only [List.mem_singleton] at hl
    subst hl
    simp
  | cons c rest ih =>
    intro l hl
    rw [List.splitOnP_cons] at hl
    by_cases hc : p c
    · rw [if_pos hc] at hl
      rcases List.mem_cons.mp hl with h | h
      · subst h; simp
      · exact ih l h
    · rw [if_neg hc] at hl
      cases hsp : rest.splitOnP p with
      | nil => exact absurd hsp (List.splitOnP_ne_nil p rest)
      | cons h0 t0 =>
        rw [hsp, List.modifyHead_cons] at hl
        rcases List.mem_cons.mp hl with h | h
        · subst h
          intro a ha
          rcases List.mem_cons.mp ha with h2 | h2
          · subst h2; exact hc
          · exact ih h0 (by rw [hsp]; exact List.mem_cons_self h0 t0) a h2
        · exact ih l (by rw [hsp]; exact List.mem_cons_of_mem h0 h)

theorem mem_splitOn_no_sep (s : Str) (c : Char) : ∀ l ∈ s.splitOn c, c ∉ l := by
  intro l hl hmem
  exact mem_splitOnP_not (· == c) s l hl c hmem (by simp)

theorem intercalate_lines_ne_nil : ∀ (L : List Str),
    List.intercalate ['\n'] L ≠ [] →
    (List.intercalate ['\n'] L).head? ≠ some '\n' →
    (List.intercalate ['\n'] L).getLast? ≠ some '\n' →
    List.Chain' nnR (List.intercalate ['\n'] L) →
    ∀ l ∈ L, l ≠ [] := by
  intro L
  induction L with
  | nil => simp
  | cons l0 rest ih =>
    intro hne hhead hlast hchain l hl
    cases rest with
    | nil =>
      rw [interc_single] at hne
      rcases List.mem_singleton.mp hl with h
      subst h
      exact hne
    | cons l1 rest2 =>
      rw [interc_cons2] at hne hhead hlast hchain
      have hs : l0 ++ ['\n'] ++ List.intercalate ['\n'] (l1 :: rest2) =
          l0 ++ ('\n' :: List.intercalate ['\n'] (l1 :: rest2)) := by
        rw [List.append_assoc]
        rfl
      rw [hs] at hne hhead hlast hchain
      have hl0 : l0 ≠ [] := by
        intro hcon
        subst hcon
        rw [List.nil_append] at hhead
        exact hhead rfl
      have hq := List.chain'_append.mp (by
        have hs2 : l0 ++ ('\n' :: List.intercalate ['\n'] (l1 :: rest2)) =
            (l0 ++ ['\n']) ++ List.intercalate ['\n'] (l1 :: rest2) := by
          rw [List.append_assoc]
          rfl
        rw [← hs2]
        exact hchain)
      have htail_ne : List.intercalate ['\n'] (l1 :: rest2) ≠ [] := by
        intro hcon
        rw [hcon] at hlast
        apply hlast
        rw [List.getLast?_append_of_ne_nil l0 (by simp)]
        rfl
      have hihhead : (List.intercalate ['\n'] (l1 :: rest2)).head? ≠ some '\n' := by
        intro hcon
        have hx := hq.2.2 '\n' (Option.mem_def.mpr (by
          rw [List.getLast?_append_of_ne_nil l0 (by simp)]
          rfl)) '\n' (Option.mem_def.mpr hcon)
        exact hx ⟨rfl, rfl⟩
      obtain ⟨t0, ts, hT⟩ : ∃ t0 ts,
          List.intercalate ['\n'] (l1 :: rest2) = t0 :: ts := by
        cases hc : List.intercalate ['\n'] (l1 :: rest2) with
        | nil => exact absurd hc htail_ne
        | cons a b => exact ⟨a, b, rfl⟩
      have hihlast : (List.intercalate ['\n'] (l1 :: rest2)).getLast? ≠ some '\n' := by
        intro hcon
        apply hlast
        rw [List.getLast?_append_of_ne_nil l0 (by simp), hT, List.getLast?_cons_cons, ← hT]
        exact hcon
      rcases List.mem_cons.mp hl with h | h
      · subst h
        exact hl0
      · exact ih htail_ne hihhead hihlast hq.2.1 l h

theorem containsSub_cons_false {sep : Str} {c : Char} {rest : Str}
    (h : containsSub sep (c :: rest) = false) :
    sep.isPrefixOf (c :: rest) = false ∧ containsSub sep rest = false := by
  rw [containsSub, Bool.or_eq_false_iff] at h
  exact h

theorem splitSub_nn_single : ∀ {x : Str}, containsSub nn x = false → splitSub nn x = [x] := by
  intro x
  induction x with
  | nil => intro _; rfl
  | cons c rest ih =>
    intro hx
    obtain ⟨hpre, hx2⟩ := containsSub_cons_false hx
    rw [splitSub_cons, if_neg (fun hcon => by rw [hpre] at hcon; exact absurd hcon.2 (by simp)),
      ih hx2]

theorem splitSub_ne_nil (sep : Str) (s : Str) : splitSub sep s ≠ [] := by
  cases s with
  | nil => simp [splitSub_nil]
  | cons c rest =>
    rw [splitSub_cons]
    by_cases hp : sep ≠ [] ∧ sep.isPrefixOf (c :: rest)
    · rw [if_pos hp]
      simp
    · rw [if_neg hp]
      cases splitSub sep rest with
      | nil => simp
      | cons r rs => simp

theorem splitSub_head_prefix (sep : Str) : ∀ s : Str, ∃ z, s = (splitSub sep s).headD [] ++ z := by
  intro s
  induction s with
  | nil => exact ⟨[], rfl⟩
  | cons c rest ih =>
    rw [splitSub_cons]
    by_cases hp : sep ≠ [] ∧ sep.isPrefixOf (c :: rest)
    · rw [if_pos hp]
      exact ⟨c :: rest, rfl⟩
    · rw [if_neg hp]
      cases hsp : splitSub sep rest with
      | nil => exact absurd hsp (splitSub_ne_nil sep rest)
      | cons r rs =>
        obtain ⟨z, hz⟩ := ih
        rw [hsp] at hz
        rw [List.headD_cons] at hz
        exact ⟨z, by rw [List.headD_cons, hz, List.cons_append]⟩

theorem nn_ne_nil : nn ≠ [] := by simp [nn]

theorem splitSub_nn_append : ∀ {x : Str} (r : Str), containsSub nn x = false →
    x.getLast? ≠ some '\n' →
    splitSub nn (x ++ nn ++ r) = x :: splitSub nn r := by
  intro x
  induction x with
  | nil =>
    intro r _ _
    rw [List.nil_append]
    have hnn : nn ++ r = '\n' :: '\n' :: r := rfl
    rw [hnn, splitSub_cons, if_pos ⟨nn_ne_nil, by simp [nn, List.isPrefixOf]⟩]
    rfl
  | cons c x2 ih =>
    intro r hx hlast
    obtain ⟨hpre, hx2⟩ := containsSub_cons_false hx
    have hshape : (c :: x2) ++ nn ++ r = c :: (x2 ++ nn ++ r) := by simp
    rw [hshape, splitSub_cons]
    have hpre2 : nn.isPrefixOf (c :: (x2 ++ nn ++ r)) = false := by
      cases hc : decide (c = '\n') with
      | false =>
        have hc2 : ('\n' == c) = false := by
          simp at hc
          simp [hc]
          intro hcon
          exact hc hcon.symm
        simp [nn, List.isPrefixOf, hc2]
      | true =>
        have hc2 : c = '\n' := of_decide_eq_true hc
        subst hc2
        cases x2 with
        | nil =>
          exact absurd rfl hlast
        | cons d x3 =>
          have hd : ('\n' == d) = false := by
            by_contra hcon
            rw [Bool.not_eq_false, beq_iff_eq] at hcon
            subst hcon
            simp [nn, List.isPrefixOf] at hpre
          simp [nn, List.isPrefixOf, hd]
    rw [if_neg (fun hcon => by rw [hpre2] at hcon; exact absurd hcon.2 (by simp))]
    have hlast2 : x2.getLast? ≠ some '\n' := by
      cases x2 with
      | nil => simp
      | cons d x3 =>
        rw [List.getLast?_cons_cons] at hlast
        exact hlast
    rw [ih r hx2 hlast2]

theorem isPrefixOf_append_false {sep x z : Str} (h : sep.isPrefixOf (x ++ z) = false) :
    sep.isPrefixOf x = false := by
  by_contra hcon
  rw [Bool.not_eq_false, List.isPrefixOf_iff_prefix] at hcon
  rw [← Bool.not_eq_true, List.isPrefixOf_iff_prefix] at h
  exact h (hcon.trans (List.prefix_append x z))

theorem splitSub_nn_fragF : ∀ (n : Nat) (s : Str), s.length ≤ n →
    ∀ frag ∈ splitSub nn s, containsSub nn frag = false := by
  intro n
  induction n with
  | zero =>
    intro s hs frag hfrag
    have h0 : s = [] := List.length_eq_zero.mp (Nat.le_zero.mp hs)
    subst h0
    rw [splitSub_nil, List.mem_singleton] at hfrag
    subst hfrag
    rfl
  | succ m ih =>
    intro s hs frag hfrag
    cases s with
    | nil =>
      rw [splitSub_nil, List.mem_singleton] at hfrag
      subst hfrag
      rfl
    | cons c rest =>
      rw [List.length_cons] at hs
      rw [splitSub_cons] at hfrag
      by_cases hp : nn ≠ [] ∧ nn.isPrefixOf (c :: rest)
      · rw [if_pos hp] at hfrag
        rcases List.mem_cons.mp hfrag with h | h
        · subst h
          rfl
        · exact ih ((c :: rest).drop nn.length) (by simp [nn]; omega) frag h
      · rw [if_neg hp] at hfrag
        have hpre : nn.isPrefixOf (c :: rest) = false := by
          by_contra hcon
          rw [Bool.not_eq_false] at hcon
          exact hp ⟨nn_ne_nil, hcon⟩
        cases hsp : splitSub nn rest with
        | nil => exact absurd hsp (splitSub_ne_nil nn rest)
        | cons r rs =>
          rw [hsp] at hfrag
          rcases List.mem_cons.mp hfrag with h | h
          · subst h
            rw [containsSub, Bool.or_eq_false_iff]
            constructor
            · obtain ⟨z, hz⟩ := splitSub_head_prefix nn rest
              rw [hsp, List.headD_cons] at hz
              have : nn.isPrefixOf (c :: (r ++ z)) = false := by
                rw [← hz]
                exact hpre
              exact isPrefixOf_append_false (x := c :: r) this
            · exact ih rest (by omega) r (by rw [hsp]; exact List.mem_cons_self r rs)
          · exact ih rest (by omega) frag (by rw [hsp]; exact List.mem_cons_of_mem r h)

theorem splitSub_nn_frag (s : Str) : ∀ frag ∈ splitSub nn s, containsSub nn frag = false :=
  splitSub_nn_fragF s.length s (le_refl _)

theorem dropWhile_head_not (p : Char → Bool) :
    ∀ (l : Str) (c : Char), (l.dropWhile p).head? = some c → p c = false := by
  intro l
  induction l with
  | nil => intro c hc; simp at hc
  | cons a rest ih =>
    intro c hc
    by_cases ha : p a
    · rw [List.dropWhile_cons_of_pos ha] at hc
      exact ih c hc
    · rw [List.dropWhile_cons_of_neg ha, List.head?_cons, Option.some_inj] at hc
      subst hc
      exact Bool.not_eq_true _ ▸ (by simpa using ha)

theorem pyLStrip_cons_of_not {c : Char} (rest : Str) (h : pyIsSpace c = false) :
    pyLStrip (c :: rest) = c :: rest := by
  rw [pyLStrip, List.dropWhile_cons_of_neg (by simp [h])]

theorem pyRStrip_eq_self_of_last {s : Str} {c : Char}
    (hl : s.getLast? = some c) (h : pyIsSpace c = false) : pyRStrip s = s := by
  rw [pyRStrip]
  rw [← List.head?_reverse] at hl
  cases hrev : s.reverse with
  | nil => rw [hrev] at hl; simp at hl
  | cons a t =>
    rw [hrev] at hl
    rw [List.head?_cons, Option.some_inj] at hl
    subst hl
    rw [List.dropWhile_cons_of_neg (by simp [h])]
    rw [← hrev]
    rw [List.reverse_reverse]

theorem pyRStrip_append_ws {t : Str} (s : Str) (ht : ∀ c ∈ t, pyIsSpace c = true) :
    pyRStrip (s ++ t) = pyRStrip s := by
  rw [pyRStrip, pyRStrip, List.reverse_append, List.dropWhile_append]
  have hd : t.reverse.dropWhile pyIsSpace = [] := by
    rw [List.dropWhile_eq_nil_iff]
    intro c hc
    exact ht c (List.mem_reverse.mp hc)
  rw [hd]
  simp

theorem pyStrip_eq_self_of_ends {s : Str} {c d : Char}
    (hh : s.head? = some c) (hhs : pyIsSpace c = false)
    (hl : s.getLast? = some d) (hls : pyIsSpace d = false) : pyStrip s = s := by
  rw [pyStrip]
  cases s with
  | nil => simp at hh
  | cons a rest =>
    rw [List.head?_cons, Option.some_inj] at hh
    subst hh
    rw [pyLStrip_cons_of_not rest hhs]
    exact pyRStrip_eq_self_of_last hl hls

theorem pyRStrip_prefix (s : Str) : pyRStrip s <+: s := by
  rw [pyRStrip, ← List.reverse_suffix, List.reverse_reverse]
  exact List.dropWhile_suffix pyIsSpace

theorem pyStrip_isInfix (s : Str) : pyStrip s <:+: s := by
  obtain ⟨u, hu⟩ := pyRStrip_prefix (pyLStrip s)
  obtain ⟨v, hv⟩ : pyLStrip s <:+ s := List.dropWhile_suffix pyIsSpace
  refine ⟨v, u, ?_⟩
  show v ++ pyRStrip (pyLStrip s) ++ u = s
  rw [List.append_assoc, hu, hv]

theorem pyStrip_head_not_ws {s : Str} {c : Char} (h : (pyStrip s).head? = some c) :
    pyIsSpace c = false := by
  obtain ⟨t, ht⟩ := pyRStrip_prefix (pyLStrip s)
  have hps : pyStrip s = pyRStrip (pyLStrip s) := rfl
  rw [hps] at h
  cases hc : pyRStrip (pyLStrip s) with
  | nil => rw [hc] at h; simp at h
  | cons a u =>
    rw [hc] at h ht
    rw [List.head?_cons, Option.some_inj] at h
    have hhead : (pyLStrip s).head? = some a := by
      rw [← ht]
      rfl
    have h2 := dropWhile_head_not pyIsSpace s a hhead
    rw [← h]
    exact h2

theorem pyStrip_last_not_ws {s : Str} {c : Char} (h : (pyStrip s).getLast? = some c) :
    pyIsSpace c = false := by
  rw [← List.head?_reverse] at h
  have hps : (pyStrip s).reverse = (pyLStrip s).reverse.dropWhile pyIsSpace := by
    rw [pyStrip, pyRStrip, List.reverse_reverse]
  rw [hps] at h
  exact dropWhile_head_not pyIsSpace (pyLStrip s).reverse c h

theorem isTS_shape {s : Str} (h : isTS s = true) :
    ∃ a b m1 m2 s1 s2 d1 d2 d3 : Char,
      s = [a, b, ':', m1, m2, ':', s1, s2, ',', d1, d2, d3] ∧
      a.isDigit ∧ b.isDigit ∧ m1.isDigit ∧ m2.isDigit ∧ s1.isDigit ∧ s2.isDigit ∧
      d1.isDigit ∧ d2.isDigit ∧ d3.isDigit := by
  unfold isTS at h
  split at h
  case _ h1 h2 c1 m1 m2 c2 s1 s2 c3 d1 d2 d3 =>
    simp only [Bool.and_eq_true, beq_iff_eq] at h
    obtain ⟨⟨⟨⟨⟨⟨⟨⟨⟨⟨⟨ha, hb⟩, hc1⟩, hm1⟩, hm2⟩, hc2⟩, hs1⟩, hs2⟩, hc3⟩, hd1⟩, hd2⟩, hd3⟩ := h
    subst hc1
    subst hc2
    subst hc3
    exact ⟨h1, h2, m1, m2, s1, s2, d1, d2, d3, rfl, ha, hb, hm1, hm2, hs1, hs2, hd1, hd2, hd3⟩
  case _ =>
    simp at h

theorem isTS_length {s : Str} (h : isTS s = true) : s.length = 12 := by
  obtain ⟨a, b, m1, m2, s1, s2, d1, d2, d3, hs, _⟩ := isTS_shape h
  rw [hs]
  rfl

theorem isTS_no_nl {s : Str} (h : isTS s = true) : '\n' ∉ s := by
  obtain ⟨a, b, m1, m2, s1, s2, d1, d2, d3, hs, ha, hb, hm1, hm2, hs1, hs2, hd1, hd2, hd3⟩ :=
    isTS_shape h
  rw [hs]
  intro hm
  simp only [List.mem_cons, List.not_mem_nil, or_false] at hm
  rcases hm with h2 | h2 | h2 | h2 | h2 | h2 | h2 | h2 | h2 | h2 | h2 | h2 <;>
    first
      | exact absurd h2 (by decide)
      | (subst h2
         first
           | exact absurd ha (by decide)
           | exact absurd hb (by decide)
           | exact absurd hm1 (by decide)
           | exact absurd hm2 (by decide)
           | exact absurd hs1 (by decide)
           | exact absurd hs2 (by decide)
           | exact absurd hd1 (by decide)
           | exact absurd hd2 (by decide)
           | exact absurd hd3 (by decide))

theorem isTS_head_digit {s : Str} (h : isTS s = true) :
    ∃ c t, s = c :: t ∧ c.isDigit = true := by
  obtain ⟨a, b, m1, m2, s1, s2, d1, d2, d3, hs, ha, _⟩ := isTS_shape h
  exact ⟨a, _, hs, ha⟩

theorem matchTiming_render {st en : Str} (hst : isTS st = true) (hen : isTS en = true) :
    matchTiming (st ++ arrow ++ en) = some (st, en) := by
  unfold matchTiming
  have hlen : st.length = 12 := isTS_length hst
  have htake : (st ++ arrow ++ en).take 12 = st := by
    rw [List.append_assoc, ← hlen, List.take_left]
  have hdrop : (st ++ arrow ++ en).drop 12 = arrow ++ en := by
    rw [List.append_assoc, ← hlen, List.drop_left]
  rw [htake, hdrop, if_pos hst]
  obtain ⟨c, t, hc, hcd⟩ := isTS_head_digit hen
  have harr : arrow ++ en = ' ' :: '-' :: '-' :: '>' :: ' ' :: en := rfl
  rw [harr]
  rw [List.dropWhile_cons_of_pos (by simp [pyIsSpace])]
  rw [List.dropWhile_cons_of_neg (by simp [pyIsSpace])]
  rw [if_pos (by simp [S, List.isPrefixOf])]
  have hdrop3 : ('-' :: '-' :: '>' :: ' ' :: en).drop 3 = ' ' :: en := rfl
  rw [hdrop3]
  rw [List.dropWhile_cons_of_pos (by simp [pyIsSpace])]
  rw [hc]
  rw [List.dropWhile_cons_of_neg (by simp [isDigit_not_space hcd])]
  rw [← hc]
  have htake2 : en.take 12 = en := by
    rw [← isTS_length hen]
    exact List.take_length en
  rw [htake2, if_pos hen]

theorem intercalate_good : ∀ (L : List Str), L ≠ [] → (∀ l ∈ L, l ≠ []) →
    (∀ l ∈ L, '\n' ∉ l) →
    List.Chain' nnR (List.intercalate ['\n'] L) ∧
    List.intercalate ['\n'] L ≠ [] ∧
    (List.intercalate ['\n'] L).head? ≠ some '\n' ∧
    (List.intercalate ['\n'] L).getLast? ≠ some '\n' := by
  intro L
  induction L with
  | nil => intro h; exact absurd rfl h
  | cons l rest ih =>
    intro _ h1 h2
    cases rest with
    | nil =>
      rw [interc_single]
      refine ⟨chain_nnR_of_no_nl (h2 l (by simp)), h1 l (by simp), ?_, ?_⟩
      · intro hcon
        exact h2 l (by simp) (List.mem_of_mem_head? (Option.mem_def.mpr hcon))
      · intro hcon
        exact h2 l (by simp) (List.mem_of_getLast?_eq_some hcon)
    | cons l2 rest2 =>
      obtain ⟨ihc, ihne, ihh, ihl⟩ := ih (by simp)
        (fun x hx => h1 x (List.mem_cons_of_mem l hx))
        (fun x hx => h2 x (List.mem_cons_of_mem l hx))
      rw [interc_cons2]
      have hshape : l ++ ['\n'] ++ List.intercalate ['\n'] (l2 :: rest2) =
          l ++ ('\n' :: List.intercalate ['\n'] (l2 :: rest2)) := by
        rw [List.append_assoc]
        rfl
      have hlne : l ≠ [] := h1 l (by simp)
      have hlnl : '\n' ∉ l := h2 l (by simp)
      refine ⟨?_, ?_, ?_, ?_⟩
      · rw [List.chain'_append]
        refine ⟨?_, ihc, ?_⟩
        · rw [List.chain'_append]
          refine ⟨chain_nnR_of_no_nl hlnl, by simp, ?_⟩
          intro x hx y hy hcon
          exact hlnl (hcon.1 ▸ List.mem_of_getLast?_eq_some (Option.mem_def.mp hx))
        · intro x hx y hy hcon
          rw [List.getLast?_append_of_ne_nil l (by simp)] at hx
          apply ihh
          rw [Option.mem_def] at hy
          rw [hy, hcon.2]
      · rw [hshape]
        cases l with
        | nil => exact absurd rfl hlne
        | cons a t => simp
      · rw [hshape]
        cases hl : l with
        | nil => exact absurd hl hlne
        | cons a t =>
          rw [List.cons_append, List.head?_cons]
          intro hcon
          rw [Option.some_inj] at hcon
          exact hlnl (by rw [hl, hcon]; exact List.mem_cons_self _ _)
      · rw [hshape, List.getLast?_append_of_ne_nil l (by simp)]
        cases hT : List.intercalate ['\n'] (l2 :: rest2) with
        | nil => exact absurd hT ihne
        | cons b u =>
          rw [List.getLast?_cons_cons]
          rw [hT] at ihl
          exact ihl

theorem textLinesOK_facts {t : Str} (h : textLinesOK t = true) :
    List.Chain' nnR t ∧ t ≠ [] ∧ t.head? ≠ some '\n' ∧ t.getLast? ≠ some '\n' := by
  have hrepr : List.intercalate ['\n'] (t.splitOn '\n') = t := List.intercalate_splitOn t '\n'
  have hne : t.splitOn '\n' ≠ [] := List.splitOnP_ne_nil _ t
  have h1 : ∀ l ∈ t.splitOn '\n', l ≠ [] := by
    intro l hl
    rw [textLinesOK, List.all_eq_true] at h
    have := h l hl
    simpa using this
  have h2 : ∀ l ∈ t.splitOn '\n', '\n' ∉ l := mem_splitOn_no_sep t '\n'
  obtain ⟨hc, hne2, hh, hl⟩ := intercalate_good (t.splitOn '\n') hne h1 h2
  rw [hrepr] at hc hne2 hh hl
  exact ⟨hc, hne2, hh, hl⟩

theorem intToStr_ne_nil (n : Int) : intToStr n ≠ [] := by
  rw [intToStr]
  by_cases hn : n < 0
  · rw [if_pos hn]
    simp
  · rw [if_neg hn]
    exact natToDigits_ne_nil _

theorem intToStr_no_nl (n : Int) : '\n' ∉ intToStr n := by
  rw [intToStr]
  intro hm
  by_cases hn : n < 0
  · rw [if_pos hn, List.mem_cons] at hm
    rcases hm with h | h
    · exact absurd h (by decide)
    · exact absurd rfl (Ne.symm (isDigit_ne (natToDigits_digits _ _ h) (by decide)))
  · rw [if_neg hn] at hm
    exact absurd rfl (Ne.symm (isDigit_ne (natToDigits_digits _ _ hm) (by decide)))

theorem intToStr_head_not_ws (n : Int) :
    ∀ c, (intToStr n).head? = some c → pyIsSpace c = false := by
  intro c hc
  rw [intToStr] at hc
  by_cases hn : n < 0
  · rw [if_pos hn, List.head?_cons, Option.some_inj] at hc
    subst hc
    rfl
  · rw [if_neg hn] at hc
    exact isDigit_not_space (natToDigits_head_digit _ c hc)

theorem lastNonWS_facts {t : Str} (h : lastNonWS t = true) :
    ∃ c, t.getLast? = some c ∧ pyIsSpace c = false := by
  unfold lastNonWS at h
  cases hrev : t.reverse with
  | nil => rw [hrev] at h; simp at h
  | cons c u =>
    rw [hrev] at h
    simp only [Bool.not_eq_true'] at h
    refine ⟨c, ?_, h⟩
    rw [← List.head?_reverse, hrev]
    rfl

theorem splitOn_nl_first {xs : Str} (h : '\n' ∉ xs) (as : Str) :
    (xs ++ '\n' :: as).splitOn '\n' = xs :: as.splitOn '\n' := by
  show (xs ++ '\n' :: as).splitOnP (· == '\n') = xs :: as.splitOnP (· == '\n')
  refine List.splitOnP_first _ _ ?_ '\n' (by simp) as
  intro x hx hc
  rw [beq_iff_eq] at hc
  subst hc
  exact h hx

theorem arrow_no_nl : '\n' ∉ arrow := by decide

theorem timing_no_nl {st en : Str} (hst : isTS st = true) (hen : isTS en = true) :
    '\n' ∉ st ++ arrow ++ en := by
  intro hm
  rcases List.mem_append.mp hm with hm2 | hm2
  · rcases List.mem_append.mp hm2 with hm3 | hm3
    · exact isTS_no_nl hst hm3
    · exact arrow_no_nl hm3
  · exact isTS_no_nl hen hm2

theorem timing_ne_nil {st en : Str} (hst : isTS st = true) : st ++ arrow ++ en ≠ [] := by
  intro hcon
  obtain ⟨c, t, hc, _⟩ := isTS_head_digit hst
  rw [hc] at hcon
  simp at hcon

theorem blockStr_shape (e : SubtitleEntry) :
    blockStr e =
      idxStr e.index ++ '\n' :: ((e.start_time ++ arrow ++ e.end_time) ++ '\n' :: e.text) := by
  rw [blockStr]
  simp [List.append_assoc]

theorem goodEntry_text_facts {e : SubtitleEntry} (he : GoodEntry e) :
    List.Chain' nnR e.text ∧ e.text ≠ [] ∧ e.text.head? ≠ some '\n' ∧
      e.text.getLast? ≠ some '\n' :=
  textLinesOK_facts he.2.2.2.1

theorem goodEntry_idx {e : SubtitleEntry} (he : GoodEntry e) :
    ∃ n : ℤ, e.index = .intIdx n ∧ idxStr e.index = intToStr n := by
  obtain ⟨n, hn⟩ := he.1
  exact ⟨n, hn, by rw [hn]; rfl⟩

theorem blockStr_chain {e : SubtitleEntry} (he : GoodEntry e) :
    List.Chain' nnR (blockStr e) := by
  obtain ⟨htc, htne, hth, htl⟩ := goodEntry_text_facts he
  obtain ⟨n, hn, hidx⟩ := goodEntry_idx he
  have hst := he.2.1
  have hen := he.2.2.1
  rw [blockStr_shape]
  have htiming := timing_no_nl hst hen
  have hchain_text : List.Chain' nnR ('\n' :: e.text) := by
    rw [List.chain'_cons']
    refine ⟨?_, htc⟩
    intro y hy hcon
    exact hth (by rw [Option.mem_def] at hy; rw [hy, hcon.2])
  have hchain_mid : List.Chain' nnR ((e.start_time ++ arrow ++ e.end_time) ++ '\n' :: e.text) := by
    rw [List.chain'_append]
    refine ⟨chain_nnR_of_no_nl htiming, hchain_text, ?_⟩
    intro x hx y hy hcon
    exact htiming (hcon.1 ▸ List.mem_of_getLast?_eq_some (Option.mem_def.mp hx))
  have hchain_mid2 : List.Chain' nnR ('\n' :: ((e.start_time ++ arrow ++ e.end_time) ++ '\n' :: e.text)) := by
    rw [List.chain'_cons']
    refine ⟨?_, hchain_mid⟩
    intro y hy hcon
    obtain ⟨c, t, hc, hcd⟩ := isTS_head_digit hst
    rw [Option.mem_def] at hy
    have hhead : ((e.start_time ++ arrow ++ e.end_time) ++ '\n' :: e.text).head? = some c := by
      rw [hc]
      rfl
    rw [hhead, Option.some_inj] at hy
    subst hy
    exact (isDigit_ne hcd (by decide) : c ≠ '\n') hcon.2
  rw [List.chain'_append]
  refine ⟨chain_nnR_of_no_nl (hidx ▸ intToStr_no_nl n), hchain_mid2, ?_⟩
  intro x hx y hy hcon
  exact (hidx ▸ intToStr_no_nl n) (hcon.1 ▸ List.mem_of_getLast?_eq_some (Option.mem_def.mp hx))

theorem blockStr_head {e : SubtitleEntry} (he : GoodEntry e) :
    ∃ c, (blockStr e).head? = some c ∧ pyIsSpace c = false := by
  obtain ⟨n, hn, hidx⟩ := goodEntry_idx he
  cases hc : intToStr n with
  | nil => exact absurd hc (intToStr_ne_nil n)
  | cons a t =>
    refine ⟨a, ?_, intToStr_head_not_ws n a (by rw [hc]; rfl)⟩
    rw [blockStr_shape, hidx, hc]
    rfl

theorem blockStr_last {e : SubtitleEntry} (he : GoodEntry e) :
    ∃ c, (blockStr e).getLast? = some c ∧ pyIsSpace c = false := by
  obtain ⟨c, hcl, hcw⟩ := lastNonWS_facts he.2.2.2.2
  refine ⟨c, ?_, hcw⟩
  have htne : e.text ≠ [] := by
    intro hcon
    rw [hcon] at hcl
    simp at hcl
  rw [blockStr_shape]
  rw [List.getLast?_append_of_ne_nil _ (by simp)]
  have hs1 : ('\n' :: ((e.start_time ++ arrow ++ e.end_time) ++ '\n' :: e.text)) =
      ['\n'] ++ ((e.start_time ++ arrow ++ e.end_time) ++ '\n' :: e.text) := rfl
  rw [hs1, List.getLast?_append_of_ne_nil _ (by simp)]
  rw [List.getLast?_append_of_ne_nil _ (by simp)]
  have hs2 : ('\n' :: e.text) = ['\n'] ++ e.text := rfl
  rw [hs2, List.getLast?_append_of_ne_nil _ htne]
  exact hcl

theorem blockStr_last_not_nl {e : SubtitleEntry} (he : GoodEntry e) :
    (blockStr e).getLast? ≠ some '\n' := by
  obtain ⟨c, hcl, hcw⟩ := blockStr_last he
  rw [hcl]
  intro hcon
  rw [Option.some_inj] at hcon
  subst hcon
  exact absurd hcw (by simp [pyIsSpace])

theorem blockStr_no_nn {e : SubtitleEntry} (he : GoodEntry e) :
    containsSub nn (blockStr e) = false :=
  (containsSub_nn_iff (blockStr e)).mpr (blockStr_chain he)

theorem pyStrip_blockStr {e : SubtitleEntry} (he : GoodEntry e) :
    pyStrip (blockStr e) = blockStr e := by
  obtain ⟨c, hc, hcw⟩ := blockStr_head he
  obtain ⟨d, hd, hdw⟩ := blockStr_last he
  exact pyStrip_eq_self_of_ends hc hcw hd hdw

theorem blockStr_splitOn {e : SubtitleEntry} (he : GoodEntry e) :
    (blockStr e).splitOn '\n' =
      idxStr e.index :: (e.start_time ++ arrow ++ e.end_time) :: e.text.splitOn '\n' := by
  obtain ⟨n, hn, hidx⟩ := goodEntry_idx he
  rw [blockStr_shape]
  rw [splitOn_nl_first (by rw [hidx]; exact intToStr_no_nl n)]
  rw [splitOn_nl_first (timing_no_nl he.2.1 he.2.2.1)]

theorem parseBlock_blockStr {e : SubtitleEntry} (he : GoodEntry e) :
    parseBlock (blockStr e) = some e := by
  obtain ⟨n, hn, hidx⟩ := goodEntry_idx he
  obtain ⟨t0, ts, hT⟩ : ∃ t0 ts, e.text.splitOn '\n' = t0 :: ts := by
    cases hc : e.text.splitOn '\n' with
    | nil => exact absurd hc (List.splitOnP_ne_nil _ e.text)
    | cons a b => exact ⟨a, b, rfl⟩
  have h1 : parseBlock (blockStr e) =
      match pyInt (idxStr e.index) with
      | none => none
      | some n2 =>
        match matchTiming (e.start_time ++ arrow ++ e.end_time) with
        | some (st, en) =>
          some ⟨.intIdx n2, st, en, List.intercalate ['\n'] (t0 :: ts)⟩
        | none => none := by
    unfold parseBlock
    rw [pyStrip_blockStr he, blockStr_splitOn he, hT]
  rw [h1, hidx, pyInt_intToStr n, matchTiming_render he.2.1 he.2.2.1, ← hT,
    List.intercalate_splitOn e.text '\n']
  show some (⟨SubIdx.intIdx n, e.start_time, e.end_time, e.text⟩ : SubtitleEntry) = some e
  rw [← hn]

theorem entryStr_eq (e : SubtitleEntry) : entryStr e ++ ['\n'] = blockStr e ++ nn := by
  rw [entryStr, blockStr, nn]
  simp

theorem renderSRT_cons2 (e e2 : SubtitleEntry) (rest : List SubtitleEntry) :
    renderSRT (e :: e2 :: rest) = blockStr e ++ nn ++ renderSRT (e2 :: rest) := by
  rw [renderSRT, List.map_cons, List.map_cons, interc_cons2]
  rfl

theorem renderSRT_single (e : SubtitleEntry) : renderSRT [e] = blockStr e := by
  rw [renderSRT, List.map_cons, List.map_nil, interc_single]

theorem saveSrtContent_nil : saveSrtContent [] = [] := rfl

theorem saveSrtContent_eq : ∀ (es : List SubtitleEntry), es ≠ [] →
    saveSrtContent es = renderSRT es ++ nn := by
  intro es
  induction es with
  | nil => intro h; exact absurd rfl h
  | cons e rest ih =>
    intro _
    cases rest with
    | nil =>
      rw [saveSrtContent, renderSRT]
      simp only [List.map_cons, List.map_nil, List.flatten_cons, List.flatten_nil,
        List.append_nil, interc_single]
      exact entryStr_eq e
    | cons e2 rest2 =>
      rw [saveSrtContent, List.map_cons, List.flatten_cons]
      have hsv : (List.map (fun e => entryStr e ++ ['\n']) (e2 :: rest2)).flatten =
          saveSrtContent (e2 :: rest2) := rfl
      rw [hsv, ih (by simp), renderSRT_cons2, ← entryStr_eq]
      simp [List.append_assoc]

theorem renderSRT_ne_nil {es : List SubtitleEntry} (he : ∀ e ∈ es, GoodEntry e)
    (hne : es ≠ []) : renderSRT es ≠ [] := by
  cases es with
  | nil => exact absurd rfl hne
  | cons e rest =>
    obtain ⟨c, hc, _⟩ := blockStr_head (he e (by simp))
    have hbne : blockStr e ≠ [] := by
      intro hcon
      rw [hcon] at hc
      simp at hc
    cases rest with
    | nil =>
      rw [renderSRT_single]
      exact hbne
    | cons e2 rest2 =>
      rw [renderSRT_cons2]
      simp [hbne]

theorem renderSRT_head {e : SubtitleEntry} (rest : List SubtitleEntry)
    (he : GoodEntry e) :
    ∃ c, (renderSRT (e :: rest)).head? = some c ∧ pyIsSpace c = false := by
  obtain ⟨c, hc, hcw⟩ := blockStr_head he
  refine ⟨c, ?_, hcw⟩
  cases rest with
  | nil => rw [renderSRT_single]; exact hc
  | cons e2 rest2 =>
    rw [renderSRT_cons2, List.append_assoc, List.head?_append, hc]
    rfl

theorem renderSRT_last : ∀ (es : List SubtitleEntry), (∀ e ∈ es, GoodEntry e) → es ≠ [] →
    ∃ c, (renderSRT es).getLast? = some c ∧ pyIsSpace c = false := by
  intro es
  induction es with
  | nil => intro _ h; exact absurd rfl h
  | cons e rest ih =>
    intro hg _
    cases rest with
    | nil =>
      rw [renderSRT_single]
      exact blockStr_last (hg e (by simp))
    | cons e2 rest2 =>
      obtain ⟨c, hc, hcw⟩ := ih (fun x hx => hg x (List.mem_cons_of_mem e hx)) (by simp)
      refine ⟨c, ?_, hcw⟩
      rw [renderSRT_cons2, List.append_assoc,
        List.getLast?_append_of_ne_nil _ (by
          simp only [ne_eq, List.append_eq_nil, not_and]
          intro hcon
          exact absurd hcon (by simp [nn]))]
      rw [List.getLast?_append_of_ne_nil _
        (renderSRT_ne_nil (fun x hx => hg x (List.mem_cons_of_mem e hx)) (by simp))]
      exact hc

theorem splitSub_renderSRT : ∀ (es : List SubtitleEntry), es ≠ [] → (∀ e ∈ es, GoodEntry e) →
    splitSub nn (renderSRT es) = es.map blockStr := by
  intro es
  induction es with
  | nil => intro h; exact absurd rfl h
  | cons e rest ih =>
    intro _ hg
    cases rest with
    | nil =>
      rw [renderSRT_single, splitSub_nn_single (blockStr_no_nn (hg e (by simp)))]
      rfl
    | cons e2 rest2 =>
      rw [renderSRT_cons2,
        splitSub_nn_append _ (blockStr_no_nn (hg e (by simp)))
          (blockStr_last_not_nl (hg e (by simp))),
        ih (by simp) (fun x hx => hg x (List.mem_cons_of_mem e hx)), List.map_cons]
      rfl

theorem filterMap_parseBlock_map : ∀ (es : List SubtitleEntry), (∀ e ∈ es, GoodEntry e) →
    (es.map blockStr).filterMap parseBlock = es := by
  intro es
  induction es with
  | nil => intro _; rfl
  | cons e rest ih =>
    intro hg
    rw [List.map_cons, List.filterMap_cons, parseBlock_blockStr (hg e (by simp)),
      ih (fun x hx => hg x (List.mem_cons_of_mem e hx))]

theorem parse_saveSrt (es : List SubtitleEntry) (h : ∀ e ∈ es, GoodEntry e) :
    parse_srt (saveSrtContent es) = es := by
  cases es with
  | nil => rfl
  | cons e rest =>
    rw [saveSrtContent_eq _ (by simp)]
    rw [parse_srt]
    have hlstrip : pyLStrip (renderSRT (e :: rest) ++ nn) = renderSRT (e :: rest) ++ nn := by
      obtain ⟨c, hc, hcw⟩ := renderSRT_head rest (h e (by simp))
      cases hr : renderSRT (e :: rest) with
      | nil => rw [hr] at hc; simp at hc
      | cons a t =>
        rw [hr] at hc
        rw [List.head?_cons, Option.some_inj] at hc
        subst hc
        rw [List.cons_append]
        exact pyLStrip_cons_of_not _ hcw
    have hstrip : pyStrip (renderSRT (e :: rest) ++ nn) = renderSRT (e :: rest) := by
      rw [pyStrip, hlstrip]
      rw [pyRStrip_append_ws _ (by
        intro c hc
        simp [nn] at hc
        subst hc
        rfl)]
      obtain ⟨c, hc, hcw⟩ := renderSRT_last (e :: rest) h (by simp)
      exact pyRStrip_eq_self_of_last hc hcw
    rw [hstrip, splitSub_renderSRT (e :: rest) (by simp) h, filterMap_parseBlock_map _ h]

theorem matchTiming_isTS {l st en : Str} (h : matchTiming l = some (st, en)) :
    isTS st = true ∧ isTS en = true := by
  unfold matchTiming at h
  simp only at h
  by_cases h1 : isTS (l.take 12) = true
  · rw [if_pos h1] at h
    by_cases h2 : (S "-->").isPrefixOf ((l.drop 12).dropWhile pyIsSpace) = true
    · rw [if_pos h2] at h
      by_cases h3 : isTS (((((l.drop 12).dropWhile pyIsSpace).drop 3).dropWhile
          pyIsSpace).take 12) = true
      · rw [if_pos h3, Option.some_inj, Prod.mk.injEq] at h
        obtain ⟨hst, hen⟩ := h
        subst hst
        subst hen
        exact ⟨h1, h3⟩
      · rw [if_neg h3] at h
        exact absurd h (by simp)
    · rw [if_neg h2] at h
      exact absurd h (by simp)
  · rw [if_neg h1] at h
    exact absurd h (by simp)

theorem lastNonWS_of_getLast {t : Str} {c : Char} (h : t.getLast? = some c)
    (hw : pyIsSpace c = false) : lastNonWS t = true := by
  unfold lastNonWS
  rw [← List.head?_reverse] at h
  cases hrev : t.reverse with
  | nil => rw [hrev] at h; simp at h
  | cons a u =>
    rw [hrev] at h
    rw [List.head?_cons, Option.some_inj] at h
    subst h
    simp [hw]

theorem parseBlock_good {block : Str} {e : SubtitleEntry}
    (hb : containsSub nn block = false) (h : parseBlock block = some e) : GoodEntry e := by
  have hchain : List.Chain' nnR (pyStrip block) :=
    List.Chain'.infix ((containsSub_nn_iff block).mp hb) (pyStrip_isInfix block)
  rcases hL : (pyStrip block).splitOn '\n' with _ | ⟨l0, _ | ⟨l1, _ | ⟨l2, rest⟩⟩⟩
  · unfold parseBlock at h
    rw [hL] at h
    exact Option.noConfusion (show (none : Option SubtitleEntry) = some e from h)
  · unfold parseBlock at h
    rw [hL] at h
    exact Option.noConfusion (show (none : Option SubtitleEntry) = some e from h)
  · unfold parseBlock at h
    rw [hL] at h
    exact Option.noConfusion (show (none : Option SubtitleEntry) = some e from h)
  · have hbne : pyStrip block ≠ [] := by
      intro hcon
      rw [hcon] at hL
      rw [List.splitOn_nil] at hL
      simp at hL
    have hh : (pyStrip block).head? ≠ some '\n' := by
      intro hcon
      have := pyStrip_head_not_ws hcon
      simp [pyIsSpace] at this
    have hl : (pyStrip block).getLast? ≠ some '\n' := by
      intro hcon
      have := pyStrip_last_not_ws hcon
      simp [pyIsSpace] at this
    have hrepr : List.intercalate ['\n'] ((pyStrip block).splitOn '\n') = pyStrip block :=
      List.intercalate_splitOn (pyStrip block) '\n'
    have hlines_ne : ∀ l ∈ (pyStrip block).splitOn '\n', l ≠ [] := by
      apply intercalate_lines_ne_nil
      · rw [hrepr]; exact hbne
      · rw [hrepr]; exact hh
      · rw [hrepr]; exact hl
      · rw [hrepr]; exact hchain
    have hlines_nl : ∀ l ∈ (pyStrip block).splitOn '\n', '\n' ∉ l :=
      mem_splitOn_no_sep (pyStrip block) '\n'
    unfold parseBlock at h
    rw [hL] at h
    replace h : (match pyInt l0 with
      | none => none
      | some n =>
        match matchTiming l1 with
        | some (st, en) =>
          some (⟨.intIdx n, st, en, List.intercalate ['\n'] (l2 :: rest)⟩ : SubtitleEntry)
        | none => none) = some e := h
    cases hpi : pyInt l0 with
    | none => rw [hpi] at h; exact absurd h (by simp)
    | some n =>
      rw [hpi] at h
      cases hmt : matchTiming l1 with
      | none => rw [hmt] at h; exact absurd h (by simp)
      | some p =>
        obtain ⟨st, en⟩ := p
        rw [hmt, Option.some_inj] at h
        obtain ⟨hist, hien⟩ := matchTiming_isTS hmt
        rw [hL] at hlines_ne hlines_nl
        have htext_repr : List.intercalate ['\n'] (l2 :: rest) ≠ [] := by
          have hl2 : l2 ≠ [] := hlines_ne l2 (by simp)
          cases hrest : rest with
          | nil =>
            rw [interc_single]
            exact hl2
          | cons r0 rs =>
            rw [interc_cons2]
            cases hl2c : l2 with
            | nil => exact absurd hl2c hl2
            | cons a t => simp
        have hsplit_text : (List.intercalate ['\n'] (l2 :: rest)).splitOn '\n' = l2 :: rest :=
          List.splitOn_intercalate (l2 :: rest) '\n'
            (fun l hl2 => hlines_nl l (List.mem_cons_of_mem l0 (List.mem_cons_of_mem l1 hl2)))
            (by simp)
        have hb_shape : pyStrip block =
            l0 ++ ['\n'] ++ (l1 ++ ['\n'] ++ List.intercalate ['\n'] (l2 :: rest)) := by
          rw [← hrepr, hL, interc_cons2, interc_cons2]
        have htext_last : (List.intercalate ['\n'] (l2 :: rest)).getLast? =
            (pyStrip block).getLast? := by
          rw [hb_shape, List.getLast?_append_of_ne_nil _ (by
            intro hcon
            rw [List.append_eq_nil] at hcon
            exact htext_repr hcon.2)]
          rw [List.getLast?_append_of_ne_nil _ htext_repr]
        obtain ⟨cl, hcl⟩ : ∃ cl, (pyStrip block).getLast? = some cl := by
          cases hgl : (pyStrip block).getLast? with
          | none =>
            rw [List.getLast?_eq_none_iff] at hgl
            exact absurd hgl hbne
          | some d => exact ⟨d, rfl⟩
        refine ⟨⟨n, by rw [← h]⟩, by rw [← h]; exact hist, by rw [← h]; exact hien, ?_, ?_⟩
        · rw [← h]
          show textLinesOK (List.intercalate ['\n'] (l2 :: rest)) = true
          rw [textLinesOK, hsplit_text, List.all_eq_true]
          intro l hl2
          have := hlines_ne l (List.mem_cons_of_mem l0 (List.mem_cons_of_mem l1 hl2))
          simpa using this
        · rw [← h]
          show lastNonWS (List.intercalate ['\n'] (l2 :: rest)) = true
          refine lastNonWS_of_getLast (c := cl) (by rw [htext_last]; exact hcl) ?_
          exact pyStrip_last_not_ws hcl

theorem parse_srt_good (s : Str) : ∀ e ∈ parse_srt s, GoodEntry e := by
  intro e he
  rw [parse_srt, List.mem_filterMap] at he
  obtain ⟨block, hmem, hpb⟩ := he
  exact parseBlock_good (splitSub_nn_frag _ block hmem) hpb

/-- Claim C9: parse-serialize-parse is the same as parse: re-parsing the
file `save_srt` writes for a parsed caption list yields the same entries
(same count, same id, start, end and text per position). -/
theorem claim_C9_parse_serialize_parse (s : Str) :
    parse_srt (saveSrtContent (parse_srt s)) = parse_srt s :=
  parse_saveSrt (parse_srt s) (parse_srt_good s)

theorem digit_toNat_bounds {c : Char} (h : c.isDigit = true) : 48 ≤ c.toNat ∧ c.toNat ≤ 57 := by
  simp [Char.isDigit, Char.le_def] at h
  exact ⟨h.1, h.2⟩

theorem digitToNat_lt {c : Char} (h : c.isDigit = true) : digitToNat c < 10 := by
  have hb := digit_toNat_bounds h
  unfold digitToNat
  omega

theorem digitChar_digitToNat {c : Char} (h : c.isDigit = true) :
    Char.ofNat (48 + digitToNat c) = c := by
  have hb := digit_toNat_bounds h
  have he : 48 + digitToNat c = c.toNat := by
    unfold digitToNat
    omega
  rw [he, Char.ofNat_toNat]

theorem natToDigits_lt10 {n : Nat} (h : n < 10) : natToDigits n = [Char.ofNat (48 + n)] := by
  rw [natToDigits_eq, if_pos h]

theorem natToDigits_ge10 {n : Nat} (h1 : 10 ≤ n) (h2 : n < 100) :
    natToDigits n = [Char.ofNat (48 + n / 10), Char.ofNat (48 + n % 10)] := by
  rw [natToDigits_eq, if_neg (by omega), natToDigits_lt10 (by omega)]
  rfl

theorem natPad2_eq {a b : Char} (ha : a.isDigit = true) (hb : b.isDigit = true) :
    natPad 2 (digitsVal [a, b]) = [a, b] := by
  have hva := digitToNat_lt ha
  have hvb := digitToNat_lt hb
  have hv : digitsVal [a, b] = 10 * digitToNat a + digitToNat b := by
    simp [digitsVal]
  rw [natPad, hv]
  by_cases hz : digitToNat a = 0
  · have h0 : a = '0' := by
      rw [← digitChar_digitToNat ha, hz]
    rw [hz]
    simp only [Nat.mul_zero, Nat.zero_add]
    rw [natToDigits_lt10 hvb, digitChar_digitToNat hb]
    rw [h0]
    rfl
  · have h10 : 10 ≤ 10 * digitToNat a + digitToNat b := by omega
    have h100 : 10 * digitToNat a + digitToNat b < 100 := by omega
    rw [natToDigits_ge10 h10 h100]
    have hdiv : (10 * digitToNat a + digitToNat b) / 10 = digitToNat a := by omega
    have hmod : (10 * digitToNat a + digitToNat b) % 10 = digitToNat b := by omega
    rw [hdiv, hmod, digitChar_digitToNat ha, digitChar_digitToNat hb]
    rfl

theorem natPad3_eq {a b c : Char} (ha : a.isDigit = true) (hb : b.isDigit = true)
    (hc : c.isDigit = true) :
    natPad 3 (digitsVal [a, b, c]) = [a, b, c] := by
  have hva := digitToNat_lt ha
  have hvb := digitToNat_lt hb
  have hvc := digitToNat_lt hc
  have hv : digitsVal [a, b, c] = 100 * digitToNat a + 10 * digitToNat b + digitToNat c := by
    simp [digitsVal]
    ring
  rw [natPad, hv]
  by_cases hz : digitToNat a = 0
  · have h0 : a = '0' := by
      rw [← digitChar_digitToNat ha, hz]
    rw [hz]
    simp only [Nat.mul_zero, Nat.zero_add]
    by_cases hz2 : digitToNat b = 0
    · have h02 : b = '0' := by
        rw [← digitChar_digitToNat hb, hz2]
      rw [hz2]
      simp only [Nat.mul_zero, Nat.zero_add]
      rw [natToDigits_lt10 hvc, digitChar_digitToNat hc, h0, h02]
      rfl
    · have h10 : 10 ≤ 10 * digitToNat b + digitToNat c := by omega
      have h100 : 10 * digitToNat b + digitToNat c < 100 := by omega
      rw [natToDigits_ge10 h10 h100]
      have hdiv : (10 * digitToNat b + digitToNat c) / 10 = digitToNat b := by omega
      have hmod : (10 * digitToNat b + digitToNat c) % 10 = digitToNat c := by omega
      rw [hdiv, hmod, digitChar_digitToNat hb, digitChar_digitToNat hc, h0]
      rfl
  · have hval : 100 ≤ 100 * digitToNat a + 10 * digitToNat b + digitToNat c := by omega
    have hval2 : 100 * digitToNat a + 10 * digitToNat b + digitToNat c < 1000 := by omega
    rw [natToDigits_eq, if_neg (by omega)]
    have hdiv : (100 * digitToNat a + 10 * digitToNat b + digitToNat c) / 10 =
        10 * digitToNat a + digitToNat b := by omega
    have hmod : (100 * digitToNat a + 10 * digitToNat b + digitToNat c) % 10 = digitToNat c := by
      omega
    rw [hdiv, hmod]
    have h10 : 10 ≤ 10 * digitToNat a + digitToNat b := by omega
    have h100 : 10 * digitToNat a + digitToNat b < 100 := by omega
    rw [natToDigits_ge10 h10 h100]
    have hdiv2 : (10 * digitToNat a + digitToNat b) / 10 = digitToNat a := by omega
    have hmod2 : (10 * digitToNat a + digitToNat b) % 10 = digitToNat b := by omega
    rw [hdiv2, hmod2, digitChar_digitToNat ha, digitChar_digitToNat hb,
      digitChar_digitToNat hc]
    simp

theorem splitOn_first_sep {c : Char} {xs : Str} (h : c ∉ xs) (as : Str) :
    (xs ++ c :: as).splitOn c = xs :: as.splitOn c := by
  show (xs ++ c :: as).splitOnP (· == c) = xs :: as.splitOnP (· == c)
  refine List.splitOnP_first _ _ ?_ c (by simp) as
  intro x hx hc
  rw [beq_iff_eq] at hc
  subst hc
  exact h hx

theorem splitOn_single {c : Char} {xs : Str} (h : c ∉ xs) : xs.splitOn c = [xs] := by
  show xs.splitOnP (· == c) = [xs]
  refine List.splitOnP_eq_single _ _ ?_
  intro x hx hc
  rw [beq_iff_eq] at hc
  subst hc
  exact h hx

theorem digitsVal_two_le {a b : Char} (ha : a.isDigit = true) (hb : b.isDigit = true) :
    digitsVal [a, b] ≤ 99 := by
  have hva := digitToNat_lt ha
  have hvb := digitToNat_lt hb
  have hv : digitsVal [a, b] = 10 * digitToNat a + digitToNat b := by simp [digitsVal]
  omega

theorem digitsVal_three_le {a b c : Char} (ha : a.isDigit = true) (hb : b.isDigit = true)
    (hc : c.isDigit = true) : digitsVal [a, b, c] ≤ 999 := by
  have hva := digitToNat_lt ha
  have hvb := digitToNat_lt hb
  have hvc := digitToNat_lt hc
  have hv : digitsVal [a, b, c] = 100 * digitToNat a + 10 * digitToNat b + digitToNat c := by
    simp [digitsVal]
    ring
  omega

theorem ratFloor_eq (q : ℚ) : q.floor = ⌊q⌋ := rfl

theorem canon_time_fields (H M Sv MS : Nat) (hm : M ≤ 59) (hs : Sv ≤ 59) (hms : MS ≤ 999) :
    ((((H:ℚ)*3600 + (M:ℚ)*60 + (Sv:ℚ) + (MS:ℚ)/1000 + 0) / 3600).floor.toNat = H) ∧
    ((qMod ((H:ℚ)*3600 + (M:ℚ)*60 + (Sv:ℚ) + (MS:ℚ)/1000 + 0) 3600 / 60).floor.toNat = M) ∧
    ((qMod ((H:ℚ)*3600 + (M:ℚ)*60 + (Sv:ℚ) + (MS:ℚ)/1000 + 0) 60).floor.toNat = Sv) ∧
    ((round ((qMod ((H:ℚ)*3600 + (M:ℚ)*60 + (Sv:ℚ) + (MS:ℚ)/1000 + 0) 60 -
      (((qMod ((H:ℚ)*3600 + (M:ℚ)*60 + (Sv:ℚ) + (MS:ℚ)/1000 + 0) 60).floor.toNat : ℕ) : ℚ))
        * 1000)).toNat = MS) := by
  have hmsq : (MS:ℚ)/1000 < 1 := by
    rw [div_lt_one (by norm_num)]
    exact_mod_cast Nat.lt_succ_of_le hms
  have hmsq0 : (0:ℚ) ≤ (MS:ℚ)/1000 := by positivity
  have hMq : (M:ℚ) ≤ 59 := by exact_mod_cast hm
  have hSq : (Sv:ℚ) ≤ 59 := by exact_mod_cast hs
  have hM0 : (0:ℚ) ≤ (M:ℚ) := by positivity
  have hS0 : (0:ℚ) ≤ (Sv:ℚ) := by positivity
  have hH0 : (0:ℚ) ≤ (H:ℚ) := by positivity
  have hfl1 : (((H:ℚ)*3600 + (M:ℚ)*60 + (Sv:ℚ) + (MS:ℚ)/1000 + 0) / 3600).floor = (H:ℤ) := by
    rw [ratFloor_eq, Int.floor_eq_iff]
    constructor
    · rw [le_div_iff (by norm_num : (0:ℚ) < 3600)]
      push_cast
      nlinarith
    · rw [div_lt_iff (by norm_num : (0:ℚ) < 3600)]
      push_cast
      nlinarith
  have hq1 : qMod ((H:ℚ)*3600 + (M:ℚ)*60 + (Sv:ℚ) + (MS:ℚ)/1000 + 0) 3600 =
      (M:ℚ)*60 + (Sv:ℚ) + (MS:ℚ)/1000 := by
    rw [qMod, hfl1]
    push_cast
    ring
  have hfl2 : (((M:ℚ)*60 + (Sv:ℚ) + (MS:ℚ)/1000) / 60).floor = (M:ℤ) := by
    rw [ratFloor_eq, Int.floor_eq_iff]
    constructor
    · rw [le_div_iff (by norm_num : (0:ℚ) < 60)]
      push_cast
      nlinarith
    · rw [div_lt_iff (by norm_num : (0:ℚ) < 60)]
      push_cast
      nlinarith
  have hfl60 : (((H:ℚ)*3600 + (M:ℚ)*60 + (Sv:ℚ) + (MS:ℚ)/1000 + 0) / 60).floor =
      ((H:ℤ)*60 + (M:ℤ)) := by
    rw [ratFloor_eq, Int.floor_eq_iff]
    constructor
    · rw [le_div_iff (by norm_num : (0:ℚ) < 60)]
      push_cast
      nlinarith
    · rw [div_lt_iff (by norm_num : (0:ℚ) < 60)]
      push_cast
      nlinarith
  have hq2 : qMod ((H:ℚ)*3600 + (M:ℚ)*60 + (Sv:ℚ) + (MS:ℚ)/1000 + 0) 60 =
      (Sv:ℚ) + (MS:ℚ)/1000 := by
    rw [qMod, hfl60]
    push_cast
    ring
  have hfl3 : (((Sv:ℚ) + (MS:ℚ)/1000)).floor = (Sv:ℤ) := by
    rw [ratFloor_eq, Int.floor_eq_iff]
    constructor
    · push_cast
      nlinarith
    · push_cast
      nlinarith
  refine ⟨by rw [hfl1, Int.toNat_natCast], by rw [hq1, hfl2, Int.toNat_natCast], ?_, ?_⟩
  · rw [hq2, hfl3, Int.toNat_natCast]
  · rw [hq2, hfl3]
    rw [show ((((Sv:ℤ)).toNat : ℕ) : ℚ) = (Sv:ℚ) by rw [Int.toNat_natCast]]
    have he : ((Sv:ℚ) + (MS:ℚ)/1000 - (Sv:ℚ)) * 1000 = (MS:ℚ) := by
      field_simp
      ring
    rw [he, round_natCast, Int.toNat_natCast]

/-- A canonical timestamp: `HH:MM:SS,mmm` with in-range minute and
second fields, exactly what both renderers of the program emit. -/
def TScanon (t : Str) : Prop :=
  isTS t = true ∧ digitsVal ((t.drop 3).take 2) ≤ 59 ∧ digitsVal ((t.drop 6).take 2) ≤ 59

theorem not_mem_digits2 {s a b : Char} (hsd : s.isDigit = false)
    (ha : a.isDigit = true) (hb : b.isDigit = true) : s ∉ ([a, b] : Str) := by
  intro hc
  simp only [List.mem_cons, List.not_mem_nil, or_false] at hc
  rcases hc with h | h
  · exact absurd h.symm (isDigit_ne ha hsd)
  · exact absurd h.symm (isDigit_ne hb hsd)

theorem not_mem_digits3 {s a b c : Char} (hsd : s.isDigit = false)
    (ha : a.isDigit = true) (hb : b.isDigit = true) (hc2 : c.isDigit = true) :
    s ∉ ([a, b, c] : Str) := by
  intro hc
  simp only [List.mem_cons, List.not_mem_nil, or_false] at hc
  rcases hc with h | h | h
  · exact absurd h.symm (isDigit_ne ha hsd)
  · exact absurd h.symm (isDigit_ne hb hsd)
  · exact absurd h.symm (isDigit_ne hc2 hsd)

theorem colon_not_mem_sms {s1 s2 d1 d2 d3 : Char} (h1 : s1.isDigit = true)
    (h2 : s2.isDigit = true) (h3 : d1.isDigit = true) (h4 : d2.isDigit = true)
    (h5 : d3.isDigit = true) : ':' ∉ ([s1, s2, ',', d1, d2, d3] : Str) := by
  intro hc
  simp only [List.mem_cons, List.not_mem_nil, or_false] at hc
  rcases hc with h | h | h | h | h | h <;>
    first
      | exact absurd h.symm (isDigit_ne (by assumption) (by decide))
      | exact absurd h (by decide)

theorem add_offset_zero_canon {t : Str} (h : TScanon t) : add_offset 0 t = t := by
  obtain ⟨hts, hm, hs⟩ := h
  obtain ⟨a, b, m1, m2, s1, s2, d1, d2, d3, hsp, ha, hb, hm1, hm2, hs1, hs2, hd1, hd2, hd3⟩ :=
    isTS_shape hts
  subst hsp
  have hmv : digitsVal [m1, m2] ≤ 59 := hm
  have hsv : digitsVal [s1, s2] ≤ 59 := hs
  have hsplit1 : ([a,b,':',m1,m2,':',s1,s2,',',d1,d2,d3] : Str).splitOn ':' =
      [[a,b],[m1,m2],[s1,s2,',',d1,d2,d3]] := by
    have e1 : ([a,b,':',m1,m2,':',s1,s2,',',d1,d2,d3] : Str) =
        [a,b] ++ ':' :: ([m1,m2] ++ ':' :: [s1,s2,',',d1,d2,d3]) := rfl
    rw [e1, splitOn_first_sep (not_mem_digits2 (by decide) ha hb),
      splitOn_first_sep (not_mem_digits2 (by decide) hm1 hm2),
      splitOn_single (colon_not_mem_sms hs1 hs2 hd1 hd2 hd3)]
  have hsplit2 : ([s1,s2,',',d1,d2,d3] : Str).splitOn ',' = [[s1,s2],[d1,d2,d3]] := by
    have e2 : ([s1,s2,',',d1,d2,d3] : Str) = [s1,s2] ++ ',' :: [d1,d2,d3] := rfl
    rw [e2, splitOn_first_sep (not_mem_digits2 (by decide) hs1 hs2),
      splitOn_single (not_mem_digits3 (by decide) hd1 hd2 hd3)]
  obtain ⟨hH, hM, hS, hMS⟩ := canon_time_fields (digitsVal [a,b]) (digitsVal [m1,m2])
    (digitsVal [s1,s2]) (digitsVal [d1,d2,d3]) hmv hsv (digitsVal_three_le hd1 hd2 hd3)
  have h999 : ¬ (1000 ≤ digitsVal [d1, d2, d3]) := by
    have := digitsVal_three_le hd1 hd2 hd3
    omega
  have hred1 : add_offset 0 ([a,b,':',m1,m2,':',s1,s2,',',d1,d2,d3] : Str) =
      (match ([s1,s2,',',d1,d2,d3] : Str).splitOn ',' with
       | [sfield, msf] =>
         if (isDigitStr [a,b] && isDigitStr [m1,m2] && isDigitStr sfield &&
             isDigitStr msf) = true then
           natPad 2 (((((digitsVal [a,b] : ℚ)) * 3600 + ((digitsVal [m1,m2] : ℚ)) * 60 + ((digitsVal sfield : ℚ)) + ((digitsVal msf : ℚ)) / 1000 + 0) / 3600).floor.toNat) ++ ':' :: natPad 2 ((qMod (((digitsVal [a,b] : ℚ)) * 3600 + ((digitsVal [m1,m2] : ℚ)) * 60 + ((digitsVal sfield : ℚ)) + ((digitsVal msf : ℚ)) / 1000 + 0) 3600 / 60).floor.toNat) ++ ':' :: natPad 2 (if 1000 ≤ (round ((qMod (((digitsVal [a,b] : ℚ)) * 3600 + ((digitsVal [m1,m2] : ℚ)) * 60 + ((digitsVal sfield : ℚ)) + ((digitsVal msf : ℚ)) / 1000 + 0) 60 - (((qMod (((digitsVal [a,b] : ℚ)) * 3600 + ((digitsVal [m1,m2] : ℚ)) * 60 + ((digitsVal sfield : ℚ)) + ((digitsVal msf : ℚ)) / 1000 + 0) 60).floor.toNat : ℕ) : ℚ)) * 1000)).toNat then (qMod (((digitsVal [a,b] : ℚ)) * 3600 + ((digitsVal [m1,m2] : ℚ)) * 60 + ((digitsVal sfield : ℚ)) + ((digitsVal msf : ℚ)) / 1000 + 0) 60).floor.toNat + 1 else (qMod (((digitsVal [a,b] : ℚ)) * 3600 + ((digitsVal [m1,m2] : ℚ)) * 60 + ((digitsVal sfield : ℚ)) + ((digitsVal msf : ℚ)) / 1000 + 0) 60).floor.toNat) ++ ',' :: natPad 3 (if 1000 ≤ (round ((qMod (((digitsVal [a,b] : ℚ)) * 3600 + ((digitsVal [m1,m2] : ℚ)) * 60 + ((digitsVal sfield : ℚ)) + ((digitsVal msf : ℚ)) / 1000 + 0) 60 - (((qMod (((digitsVal [a,b] : ℚ)) * 3600 + ((digitsVal [m1,m2] : ℚ)) * 60 + ((digitsVal sfield : ℚ)) + ((digitsVal msf : ℚ)) / 1000 + 0) 60).floor.toNat : ℕ) : ℚ)) * 1000)).toNat then 0 else (round ((qMod (((digitsVal [a,b] : ℚ)) * 3600 + ((digitsVal [m1,m2] : ℚ)) * 60 + ((digitsVal sfield : ℚ)) + ((digitsVal msf : ℚ)) / 1000 + 0) 60 - (((qMod (((digitsVal [a,b] : ℚ)) * 3600 + ((digitsVal [m1,m2] : ℚ)) * 60 + ((digitsVal sfield : ℚ)) + ((digitsVal msf : ℚ)) / 1000 + 0) 60).floor.toNat : ℕ) : ℚ)) * 1000)).toNat)
         else ([a,b,':',m1,m2,':',s1,s2,',',d1,d2,d3] : Str)
       | _ => ([a,b,':',m1,m2,':',s1,s2,',',d1,d2,d3] : Str)) := by
    unfold add_offset
    rw [hsplit1]
  rw [hsplit2] at hred1
  replace hred1 : add_offset 0 ([a,b,':',m1,m2,':',s1,s2,',',d1,d2,d3] : Str) =
      (if (isDigitStr [a,b] && isDigitStr [m1,m2] && isDigitStr [s1,s2] &&
          isDigitStr [d1,d2,d3]) = true then
        natPad 2 (((((digitsVal [a,b] : ℚ)) * 3600 + ((digitsVal [m1,m2] : ℚ)) * 60 + ((digitsVal [s1,s2] : ℚ)) + ((digitsVal [d1,d2,d3] : ℚ)) / 1000 + 0) / 3600).floor.toNat) ++ ':' :: natPad 2 ((qMod (((digitsVal [a,b] : ℚ)) * 3600 + ((digitsVal [m1,m2] : ℚ)) * 60 + ((digitsVal [s1,s2] : ℚ)) + ((digitsVal [d1,d2,d3] : ℚ)) / 1000 + 0) 3600 / 60).floor.toNat) ++ ':' :: natPad 2 (if 1000 ≤ (round ((qMod (((digitsVal [a,b] : ℚ)) * 3600 + ((digitsVal [m1,m2] : ℚ)) * 60 + ((digitsVal [s1,s2] : ℚ)) + ((digitsVal [d1,d2,d3] : ℚ)) / 1000 + 0) 60 - (((qMod (((digitsVal [a,b] : ℚ)) * 3600 + ((digitsVal [m1,m2] : ℚ)) * 60 + ((digitsVal [s1,s2] : ℚ)) + ((digitsVal [d1,d2,d3] : ℚ)) / 1000 + 0) 60).floor.toNat : ℕ) : ℚ)) * 1000)).toNat then (qMod (((digitsVal [a,b] : ℚ)) * 3600 + ((digitsVal [m1,m2] : ℚ)) * 60 + ((digitsVal [s1,s2] : ℚ)) + ((digitsVal [d1,d2,d3] : ℚ)) / 1000 + 0) 60).floor.toNat + 1 else (qMod (((digitsVal [a,b] : ℚ)) * 3600 + ((digitsVal [m1,m2] : ℚ)) * 60 + ((digitsVal [s1,s2] : ℚ)) + ((digitsVal [d1,d2,d3] : ℚ)) / 1000 + 0) 60).floor.toNat) ++ ',' :: natPad 3 (if 1000 ≤ (round ((qMod (((digitsVal [a,b] : ℚ)) * 3600 + ((digitsVal [m1,m2] : ℚ)) * 60 + ((digitsVal [s1,s2] : ℚ)) + ((digitsVal [d1,d2,d3] : ℚ)) / 1000 + 0) 60 - (((qMod (((digitsVal [a,b] : ℚ)) * 3600 + ((digitsVal [m1,m2] : ℚ)) * 60 + ((digitsVal [s1,s2] : ℚ)) + ((digitsVal [d1,d2,d3] : ℚ)) / 1000 + 0) 60).floor.toNat : ℕ) : ℚ)) * 1000)).toNat then 0 else (round ((qMod (((digitsVal [a,b] : ℚ)) * 3600 + ((digitsVal [m1,m2] : ℚ)) * 60 + ((digitsVal [s1,s2] : ℚ)) + ((digitsVal [d1,d2,d3] : ℚ)) / 1000 + 0) 60 - (((qMod (((digitsVal [a,b] : ℚ)) * 3600 + ((digitsVal [m1,m2] : ℚ)) * 60 + ((digitsVal [s1,s2] : ℚ)) + ((digitsVal [d1,d2,d3] : ℚ)) / 1000 + 0) 60).floor.toNat : ℕ) : ℚ)) * 1000)).toNat)
      else ([a,b,':',m1,m2,':',s1,s2,',',d1,d2,d3] : Str)) := hred1
  rw [hred1, if_pos (by simp [isDigitStr, ha, hb, hm1, hm2, hs1, hs2, hd1, hd2, hd3])]
  rw [hMS]
  rw [if_neg h999, if_neg h999, hH, hM, hS]
  rw [natPad2_eq ha hb, natPad2_eq hm1 hm2, natPad2_eq hs1 hs2, natPad3_eq hd1 hd2 hd3]
  rfl

theorem splitSub_sep_single {sep x : Str} {c0 : Char} {t0 : Str} (hsep : sep = c0 :: t0)
    (hx : c0 ∉ x) : splitSub sep x = [x] := by
  induction x with
  | nil => rfl
  | cons c rest ih =>
    have hc : c0 ≠ c := fun hcon => hx (hcon ▸ List.mem_cons_self c rest)
    rw [splitSub_cons, if_neg (by
      intro hcon
      rw [hsep] at hcon
      simp [List.isPrefixOf] at hcon
      exact hc hcon.1)]
    rw [ih (fun hm => hx (List.mem_cons_of_mem c hm))]

theorem splitSub_sep_append {sep x : Str} {c0 : Char} {t0 : Str} (r : Str)
    (hsep : sep = c0 :: t0) (hx : c0 ∉ x) :
    splitSub sep (x ++ sep ++ r) = x :: splitSub sep r := by
  induction x with
  | nil =>
    rw [List.nil_append]
    subst hsep
    have hshape : (c0 :: t0) ++ r = c0 :: (t0 ++ r) := rfl
    rw [hshape, splitSub_cons, if_pos ⟨by simp, by
      rw [List.isPrefixOf_iff_prefix, ← hshape]
      exact ⟨r, rfl⟩⟩]
    have hdrop : (c0 :: (t0 ++ r)).drop (c0 :: t0).length = r := by
      rw [← hshape, List.drop_left]
    rw [hdrop]
  | cons c x2 ih =>
    have hc : c0 ≠ c := fun hcon => hx (hcon ▸ List.mem_cons_self c x2)
    have hshape : (c :: x2) ++ sep ++ r = c :: (x2 ++ sep ++ r) := by simp
    rw [hshape, splitSub_cons, if_neg (by
      intro hcon
      rw [hsep] at hcon
      simp [List.isPrefixOf] at hcon
      exact hc hcon.1)]
    rw [ih (fun hm => hx (List.mem_cons_of_mem c hm))]

theorem containsSub_append_right {sep : Str} : ∀ (x : Str) {y : Str},
    containsSub sep y = true → containsSub sep (x ++ y) = true := by
  intro x
  induction x with
  | nil => intro y h; exact h
  | cons c rest ih =>
    intro y h
    rw [List.cons_append, containsSub, Bool.or_eq_true]
    exact Or.inr (ih h)

theorem containsSub_arrow (en : Str) : containsSub (S "-->") (arrow ++ en) = true := by
  have harr : arrow ++ en = ' ' :: '-' :: '-' :: '>' :: ' ' :: en := rfl
  rw [harr, containsSub, Bool.or_eq_true]
  refine Or.inr ?_
  rw [containsSub, Bool.or_eq_true]
  refine Or.inl ?_
  simp [S, List.isPrefixOf]

theorem lineAdjust_empty (q : ℚ) (z : ℤ) : lineAdjust q z [] = [] := rfl

theorem lineAdjust_intToStr {n : ℤ} (hn : 0 ≤ n) (q : ℚ) (z : ℤ) :
    lineAdjust q z (intToStr n) = intToStr (n + z) := by
  have hpos : intToStr n = natToDigits n.toNat := by
    rw [intToStr, if_neg (by omega)]
    have : n.natAbs = n.toNat := by omega
    rw [this]
  rw [hpos]
  unfold lineAdjust
  rw [pyStrip_natToDigits]
  rw [if_pos (by
    simp [isDigitStr, natToDigits_ne_nil, List.all_eq_true]
    exact natToDigits_digits _)]
  rw [digitsVal_natToDigits]
  congr 1
  omega

theorem lineAdjust_timing {st en : Str} (hst : TScanon st) (hen : TScanon en)
    (z : ℤ) : lineAdjust 0 z (st ++ arrow ++ en) = st ++ arrow ++ en := by
  obtain ⟨a, b, m1, m2, s1, s2, d1, d2, d3, hsp, ha, hb, hm1, hm2, hs1, hs2, hd1, hd2, hd3⟩ :=
    isTS_shape hst.1
  obtain ⟨a2, b2, m12, m22, s12, s22, d12, d22, d32, hsp2, ha2, hb2, hm12, hm22, hs12, hs22,
    hd12, hd22, hd32⟩ := isTS_shape hen.1
  have hhead : (st ++ arrow ++ en).head? = some a := by
    rw [hsp]
    rfl
  have hlast : (st ++ arrow ++ en).getLast? = some d32 := by
    rw [List.getLast?_append_of_ne_nil _ (by rw [hsp2]; simp), hsp2]
    rfl
  have hstrip : pyStrip (st ++ arrow ++ en) = st ++ arrow ++ en :=
    pyStrip_eq_self_of_ends hhead (isDigit_not_space ha) hlast (isDigit_not_space hd32)
  have hdig : isDigitStr (pyStrip (st ++ arrow ++ en)) = false := by
    rw [hstrip]
    rw [isDigitStr]
    have hmem : ':' ∈ st ++ arrow ++ en := by
      rw [hsp]
      simp
    simp only [Bool.and_eq_false_iff]
    right
    rw [← Bool.not_eq_true, List.all_eq_true]
    intro hall
    exact absurd (hall ':' hmem) (by decide)
  have hcont : containsSub (S "-->") (st ++ arrow ++ en) = true := by
    rw [List.append_assoc]
    exact containsSub_append_right st (containsSub_arrow en)
  have hnosp1 : ' ' ∉ st := by
    rw [hsp]
    intro hm
    simp only [List.mem_cons, List.not_mem_nil, or_false] at hm
    rcases hm with h | h | h | h | h | h | h | h | h | h | h | h <;>
      first
        | exact absurd h.symm (isDigit_ne (by assumption) (by decide))
        | exact absurd h (by decide)
  have hnosp2 : ' ' ∉ en := by
    rw [hsp2]
    intro hm
    simp only [List.mem_cons, List.not_mem_nil, or_false] at hm
    rcases hm with h | h | h | h | h | h | h | h | h | h | h | h <;>
      first
        | exact absurd h.symm (isDigit_ne (by assumption) (by decide))
        | exact absurd h (by decide)
  have hsplit : splitSub arrow (st ++ arrow ++ en) = [st, en] := by
    rw [@splitSub_sep_append arrow st ' ' ['-','-','>',' '] en rfl hnosp1,
      @splitSub_sep_single arrow en ' ' ['-','-','>',' '] rfl hnosp2]
  simp only [lineAdjust]
  rw [hdig, if_neg (by simp), hcont, if_pos rfl, hsplit]
  show add_offset 0 (pyStrip st) ++ arrow ++ add_offset 0 (pyStrip en) = st ++ arrow ++ en
  have hsthead : st.head? = some a := by rw [hsp]; rfl
  have hstlast : st.getLast? = some d3 := by rw [hsp]; rfl
  have henhead : en.head? = some a2 := by rw [hsp2]; rfl
  have henlast : en.getLast? = some d32 := by rw [hsp2]; rfl
  have hst2 : pyStrip st = st :=
    pyStrip_eq_self_of_ends hsthead (isDigit_not_space ha) hstlast (isDigit_not_space hd3)
  have hen2 : pyStrip en = en :=
    pyStrip_eq_self_of_ends henhead (isDigit_not_space ha2) henlast (isDigit_not_space hd32)
  rw [hst2, hen2, add_offset_zero_canon hst, add_offset_zero_canon hen]

theorem lineAdjust_plain {l : Str} (h1 : isDigitStr (pyStrip l) = false)
    (h2 : containsSub (S "-->") l = false) (q : ℚ) (z : ℤ) : lineAdjust q z l = l := by
  simp only [lineAdjust]
  rw [h1, if_neg (by simp), h2, if_neg (by simp)]

/-- Per-entry hypotheses under which the merge's index renumbering acts
cleanly: a parsed caption with a nonnegative integer id, canonical
timestamps, and prose text lines (no stray `-->` and not digit-only). -/
def WFEntry (e : SubtitleEntry) : Prop :=
  GoodEntry e ∧ (∃ n : ℤ, e.index = .intIdx n ∧ 0 ≤ n) ∧
    TScanon e.start_time ∧ TScanon e.end_time ∧
    ∀ l ∈ e.text.splitOn '\n',
      containsSub (S "-->") l = false ∧ isDigitStr (pyStrip l) = false

/-- The net per-caption effect of `adjust_srt_timings _ 0 z` on a
well-formed caption: add `z` to the integer id. -/
def shiftIdx (z : ℤ) (e : SubtitleEntry) : SubtitleEntry :=
  { e with index := match e.index with
      | .intIdx n => .intIdx (n + z)
      | .strIdx s2 => .strIdx s2 }

theorem shiftIdx_zero {e : SubtitleEntry} : shiftIdx 0 e = e := by
  rw [shiftIdx]
  cases he : e.index with
  | intIdx n => simp [← he]
  | strIdx s2 => simp [← he]

theorem shiftIdx_index {e : SubtitleEntry} {n : ℤ} (he : e.index = .intIdx n) (z : ℤ) :
    (shiftIdx z e).index = .intIdx (n + z) := by
  rw [shiftIdx, he]

theorem wf_goodEntry_shiftIdx {e : SubtitleEntry} (he : WFEntry e) (z : ℤ) :
    GoodEntry (shiftIdx z e) := by
  obtain ⟨n, hn, hn0⟩ := he.2.1
  exact ⟨⟨n + z, shiftIdx_index hn z⟩, he.1.2.1, he.1.2.2.1, he.1.2.2.2.1, he.1.2.2.2.2⟩

theorem wfEntry_shiftIdx {e : SubtitleEntry} (he : WFEntry e) {z : ℤ} (hz : 0 ≤ z) :
    WFEntry (shiftIdx z e) := by
  obtain ⟨n, hn, hn0⟩ := he.2.1
  exact ⟨wf_goodEntry_shiftIdx he z, ⟨n + z, shiftIdx_index hn z, by omega⟩,
    he.2.2.1, he.2.2.2.1, he.2.2.2.2⟩

theorem splitOnP_sep_append (p : Char → Bool) {c : Char} (hc : p c = true) :
    ∀ (x y : Str), (x ++ c :: y).splitOnP p = x.splitOnP p ++ y.splitOnP p := by
  intro x
  induction x with
  | nil =>
    intro y
    rw [List.nil_append, List.splitOnP_cons, if_pos hc, List.splitOnP_nil]
    rfl
  | cons a t ih =>
    intro y
    rw [List.cons_append, List.splitOnP_cons, List.splitOnP_cons]
    by_cases hpa : p a
    · rw [if_pos hpa, if_pos hpa, ih]
      rfl
    · rw [if_neg hpa, if_neg hpa, ih]
      cases hsp : t.splitOnP p with
      | nil => exact absurd hsp (List.splitOnP_ne_nil p t)
      | cons h0 t0 => rfl

theorem splitOn_nl_append (x y : Str) :
    (x ++ '\n' :: y).splitOn '\n' = x.splitOn '\n' ++ y.splitOn '\n' :=
  splitOnP_sep_append _ (by simp) x y

theorem interc_append {sep : Str} : ∀ (A B : List Str), A ≠ [] → B ≠ [] →
    List.intercalate sep (A ++ B) =
      List.intercalate sep A ++ sep ++ List.intercalate sep B := by
  intro A
  induction A with
  | nil => intro B h; exact absurd rfl h
  | cons a A2 ih =>
    intro B hA hB
    cases A2 with
    | nil =>
      cases B with
      | nil => exact absurd rfl hB
      | cons b B2 =>
        rw [List.singleton_append, interc_cons2, interc_single]
    | cons a2 A3 =>
      have h1 : (a :: a2 :: A3) ++ B = a :: a2 :: (A3 ++ B) := rfl
      rw [h1, interc_cons2, interc_cons2]
      have h2 : List.intercalate sep (a2 :: (A3 ++ B)) =
          List.intercalate sep (a2 :: A3) ++ sep ++ List.intercalate sep B := by
        have h3 : a2 :: (A3 ++ B) = (a2 :: A3) ++ B := rfl
        rw [h3, ih B (by simp) hB]
      rw [h2]
      simp [List.append_assoc]

theorem splitOn_renderSRT_cons2 (e e2 : SubtitleEntry) (rest : List SubtitleEntry) :
    (renderSRT (e :: e2 :: rest)).splitOn '\n' =
      (blockStr e).splitOn '\n' ++ [] :: (renderSRT (e2 :: rest)).splitOn '\n' := by
  rw [renderSRT_cons2]
  have hshape : blockStr e ++ nn ++ renderSRT (e2 :: rest) =
      blockStr e ++ '\n' :: ('\n' :: renderSRT (e2 :: rest)) := by
    simp [nn]
  rw [hshape, splitOn_nl_append]
  congr 1

theorem map_lineAdjust_blockLines {e : SubtitleEntry} (he : WFEntry e) (z : ℤ) :
    ((blockStr e).splitOn '\n').map (lineAdjust 0 z) = (blockStr (shiftIdx z e)).splitOn '\n' := by
  obtain ⟨n, hn, hn0⟩ := he.2.1
  rw [blockStr_splitOn he.1, blockStr_splitOn (wf_goodEntry_shiftIdx he z)]
  rw [List.map_cons, List.map_cons]
  have hidx : lineAdjust 0 z (idxStr e.index) = idxStr (shiftIdx z e).index := by
    rw [hn, shiftIdx_index hn]
    show lineAdjust 0 z (intToStr n) = intToStr (n + z)
    exact lineAdjust_intToStr hn0 0 z
  have htiming : lineAdjust 0 z (e.start_time ++ arrow ++ e.end_time) =
      e.start_time ++ arrow ++ e.end_time :=
    lineAdjust_timing he.2.2.1 he.2.2.2.1 z
  have htext : (e.text.splitOn '\n').map (lineAdjust 0 z) = e.text.splitOn '\n' := by
    rw [List.map_congr_left (fun l hl => by
      obtain ⟨hl1, hl2⟩ := he.2.2.2.2 l hl
      exact lineAdjust_plain hl2 hl1 0 z)]
    exact List.map_id _
  rw [hidx, htiming, htext]
  rfl

theorem adjust_renderSRT : ∀ (es : List SubtitleEntry), es ≠ [] → (∀ e ∈ es, WFEntry e) →
    ∀ z : ℤ, adjust_srt_timings (renderSRT es) 0 z = renderSRT (es.map (shiftIdx z)) := by
  intro es
  induction es with
  | nil => intro h; exact absurd rfl h
  | cons e rest ih =>
    intro _ hwf z
    cases rest with
    | nil =>
      rw [adjust_srt_timings, renderSRT_single, map_lineAdjust_blockLines (hwf e (by simp)) z]
      rw [List.map_cons, List.map_nil, renderSRT_single]
      exact List.intercalate_splitOn _ '\n'
    | cons e2 rest2 =>
      rw [adjust_srt_timings, splitOn_renderSRT_cons2, List.map_append, List.map_cons]
      rw [map_lineAdjust_blockLines (hwf e (by simp)) z, lineAdjust_empty]
      have hrec : List.intercalate ['\n']
          (((renderSRT (e2 :: rest2)).splitOn '\n').map (lineAdjust 0 z)) =
          renderSRT ((e2 :: rest2).map (shiftIdx z)) :=
        ih (by simp) (fun x hx => hwf x (List.mem_cons_of_mem e hx)) z
      obtain ⟨L0, Ls, hL⟩ : ∃ L0 Ls,
          ((renderSRT (e2 :: rest2)).splitOn '\n').map (lineAdjust 0 z) = L0 :: Ls := by
        cases hc : ((renderSRT (e2 :: rest2)).splitOn '\n').map (lineAdjust 0 z) with
        | nil =>
          rw [List.map_eq_nil_iff] at hc
          exact absurd hc (List.splitOnP_ne_nil _ _)
        | cons a bl => exact ⟨a, bl, rfl⟩
      rw [hL]
      rw [interc_append ((blockStr (shiftIdx z e)).splitOn '\n') ([] :: L0 :: Ls)
        (List.splitOnP_ne_nil _ _) (by simp)]
      rw [List.intercalate_splitOn]
      rw [interc_cons2, ← hL, hrec]
      rw [List.map_cons] at hrec
      have hmc2 : List.map (shiftIdx z) (e :: e2 :: rest2) =
          shiftIdx z e :: shiftIdx z e2 :: List.map (shiftIdx z) rest2 := rfl
      rw [hmc2, renderSRT_cons2]
      simp [nn, List.append_assoc]

theorem countSub_nn_zero {x : Str} (hx : containsSub nn x = false) : countSub nn x = 0 := by
  induction x with
  | nil => rfl
  | cons c rest ih =>
    obtain ⟨hpre, hx2⟩ := containsSub_cons_false hx
    rw [countSub_cons, if_neg (fun hcon => by rw [hpre] at hcon; exact absurd hcon.2 (by simp))]
    exact ih hx2

theorem countSub_nn_append : ∀ {x : Str} (r : Str), containsSub nn x = false →
    x.getLast? ≠ some '\n' → countSub nn (x ++ nn ++ r) = countSub nn r + 1 := by
  intro x
  induction x with
  | nil =>
    intro r _ _
    rw [List.nil_append]
    have hnn : nn ++ r = '\n' :: '\n' :: r := rfl
    rw [hnn, countSub_cons, if_pos ⟨nn_ne_nil, by simp [nn, List.isPrefixOf]⟩]
    rfl
  | cons c x2 ih =>
    intro r hx hlast
    obtain ⟨hpre, hx2⟩ := containsSub_cons_false hx
    have hshape : (c :: x2) ++ nn ++ r = c :: (x2 ++ nn ++ r) := by simp
    rw [hshape, countSub_cons]
    have hpre2 : nn.isPrefixOf (c :: (x2 ++ nn ++ r)) = false := by
      cases hc : decide (c = '\n') with
      | false =>
        have hc2 : ('\n' == c) = false := by
          simp at hc
          simp
          intro hcon
          exact hc hcon.symm
        simp [nn, List.isPrefixOf, hc2]
      | true =>
        have hc2 : c = '\n' := of_decide_eq_true hc
        subst hc2
        cases x2 with
        | nil => exact absurd rfl hlast
        | cons d x3 =>
          have hd : ('\n' == d) = false := by
            by_contra hcon
            rw [Bool.not_eq_false, beq_iff_eq] at hcon
            subst hcon
            simp [nn, List.isPrefixOf] at hpre
          simp [nn, List.isPrefixOf, hd]
    rw [if_neg (fun hcon => by rw [hpre2] at hcon; exact absurd hcon.2 (by simp))]
    have hlast2 : x2.getLast? ≠ some '\n' := by
      cases x2 with
      | nil => simp
      | cons d x3 =>
        rw [List.getLast?_cons_cons] at hlast
        exact hlast
    exact ih r hx2 hlast2

theorem pyStrip_renderSRT {es : List SubtitleEntry} (hne : es ≠ [])
    (hg : ∀ e ∈ es, GoodEntry e) : pyStrip (renderSRT es) = renderSRT es := by
  cases es with
  | nil => exact absurd rfl hne
  | cons e rest =>
    obtain ⟨c, hc, hcw⟩ := renderSRT_head rest (hg e (by simp))
    obtain ⟨d, hd, hdw⟩ := renderSRT_last (e :: rest) hg (by simp)
    exact pyStrip_eq_self_of_ends hc hcw hd hdw

theorem renderSRT_getLast_not_nl {es : List SubtitleEntry} (hg : ∀ e ∈ es, GoodEntry e)
    (hne : es ≠ []) : (renderSRT es).getLast? ≠ some '\n' := by
  obtain ⟨d, hd, hdw⟩ := renderSRT_last es hg hne
  rw [hd]
  intro hcon
  rw [Option.some_inj] at hcon
  subst hcon
  exact absurd hdw (by simp [pyIsSpace])

theorem renderSRT_no_nn : ∀ (es : List SubtitleEntry), (∀ e ∈ es, GoodEntry e) →
    countSub nn (renderSRT es) = es.length - 1 := by
  intro es
  induction es with
  | nil => intro _; rfl
  | cons e rest ih =>
    intro hg
    cases rest with
    | nil =>
      rw [renderSRT_single]
      rw [countSub_nn_zero (blockStr_no_nn (hg e (by simp)))]
      rfl
    | cons e2 rest2 =>
      rw [renderSRT_cons2]
      rw [countSub_nn_append _ (blockStr_no_nn (hg e (by simp)))
        (blockStr_last_not_nl (hg e (by simp)))]
      rw [ih (fun x hx => hg x (List.mem_cons_of_mem e hx))]
      simp

theorem subtitleCount_renderSRT {es : List SubtitleEntry} (hne : es ≠ [])
    (hg : ∀ e ∈ es, GoodEntry e) : subtitleCount (renderSRT es) = es.length := by
  rw [subtitleCount, pyStrip_renderSRT hne hg]
  rw [if_neg (renderSRT_ne_nil hg hne)]
  rw [renderSRT_no_nn es hg]
  cases es with
  | nil => exact absurd rfl hne
  | cons e rest => simp

theorem sortByFst_numberFrom : ∀ (ts : List Str) (n : Nat),
    sortByFst (numberFrom n ts) = numberFrom n ts := by
  intro ts
  induction ts with
  | nil => intro n; rfl
  | cons t rest ih =>
    intro n
    rw [numberFrom, sortByFst, ih (n + 1)]
    cases rest with
    | nil => rfl
    | cons t2 rest2 =>
      rw [numberFrom, insertByFst, if_neg (by omega)]

theorem parse_renderSRT {es : List SubtitleEntry} (hne : es ≠ [])
    (hg : ∀ e ∈ es, GoodEntry e) : parse_srt (renderSRT es) = es := by
  rw [parse_srt, pyStrip_renderSRT hne hg, splitSub_renderSRT es hne hg,
    filterMap_parseBlock_map es hg]

/-- A successfully transcribed chunk: a nonempty well-formed caption
list whose ids are the contiguous run `1..n` (what Whisper SRT output
looks like after the time shift). -/
def ChunkOK (es : List SubtitleEntry) : Prop :=
  es ≠ [] ∧ (∀ e ∈ es, WFEntry e) ∧
    es.map (fun e => e.index) =
      (List.range es.length).map (fun i => SubIdx.intIdx (Int.ofNat i + 1))

/-- The cumulative renumbering the merge loop performs, chunk by chunk. -/
def mergeChunks : List (List SubtitleEntry) → ℤ → List (List SubtitleEntry)
  | [], _ => []
  | es :: rest, off => es.map (shiftIdx off) :: mergeChunks rest (off + es.length)

theorem map_shiftIdx_zero (es : List SubtitleEntry) : es.map (shiftIdx 0) = es := by
  rw [List.map_congr_left (fun e _ => shiftIdx_zero)]
  exact List.map_id es

theorem combineLoop_spec : ∀ (ess : List (List SubtitleEntry)) (n off : Nat),
    2 ≤ n → (∀ es ∈ ess, ChunkOK es) →
    combineLoop (numberFrom n (ess.map renderSRT)) off =
      ((mergeChunks ess (off : ℤ)).map renderSRT, off + (ess.map List.length).sum) := by
  intro ess
  induction ess with
  | nil =>
    intro n off _ _
    simp [numberFrom, combineLoop, mergeChunks]
  | cons es rest ih =>
    intro n off hn hok
    obtain ⟨hne, hwf, hids⟩ := hok es (by simp)
    have hg : ∀ e ∈ es, GoodEntry e := fun e he => (hwf e he).1
    rw [List.map_cons, numberFrom, combineLoop]
    have hcnt : subtitleCount (renderSRT es) = es.length := subtitleCount_renderSRT hne hg
    have hadj : (if 1 < n ∧ 0 < off then adjust_srt_timings (renderSRT es) 0 (off : ℤ)
        else renderSRT es) = renderSRT (es.map (shiftIdx (off : ℤ))) := by
      by_cases hoff : 0 < off
      · rw [if_pos ⟨by omega, hoff⟩, adjust_renderSRT es hne hwf]
      · rw [if_neg (fun hcon => hoff hcon.2)]
        have hoff0 : off = 0 := by omega
        subst hoff0
        rw [show ((0 : ℕ) : ℤ) = 0 from rfl, map_shiftIdx_zero]
    rw [ih (n + 1) (off + subtitleCount (renderSRT es)) (by omega)
      (fun x hx => hok x (List.mem_cons_of_mem es hx))]
    rw [hcnt, hadj]
    rw [mergeChunks, List.map_cons]
    have hoffs : ((off + es.length : ℕ) : ℤ) = (off : ℤ) + es.length := by push_cast; ring
    rw [hoffs]
    rw [List.map_cons, List.sum_cons]
    have harith : off + es.length + (rest.map List.length).sum =
        off + (es.length + (rest.map List.length).sum) := by omega
    rw [harith]

theorem combineLoop_top (ess : List (List SubtitleEntry)) (h : ∀ es ∈ ess, ChunkOK es) :
    combineLoop (numberFrom 1 (ess.map renderSRT)) 0 =
      ((mergeChunks ess 0).map renderSRT, (ess.map List.length).sum) := by
  cases ess with
  | nil => simp [numberFrom, combineLoop, mergeChunks]
  | cons es rest =>
    obtain ⟨hne, hwf, hids⟩ := h es (by simp)
    have hg : ∀ e ∈ es, GoodEntry e := fun e he => (hwf e he).1
    rw [List.map_cons, numberFrom, combineLoop]
    rw [if_neg (by omega)]
    rw [combineLoop_spec rest 2 (0 + subtitleCount (renderSRT es)) (by omega)
      (fun x hx => h x (List.mem_cons_of_mem es hx))]
    rw [subtitleCount_renderSRT hne hg]
    rw [mergeChunks, List.map_cons, map_shiftIdx_zero]
    have hoffs : ((0 + es.length : ℕ) : ℤ) = (0 : ℤ) + es.length := by push_cast; ring
    rw [hoffs]
    rw [List.map_cons, List.sum_cons]
    have harith : 0 + es.length + (rest.map List.length).sum =
        es.length + (rest.map List.length).sum := by omega
    rw [harith]

theorem renderSRT_append {A B : List SubtitleEntry} (hA : A ≠ []) (hB : B ≠ []) :
    renderSRT (A ++ B) = renderSRT A ++ nn ++ renderSRT B := by
  rw [renderSRT, List.map_append, interc_append _ _ (by simpa using hA) (by simpa using hB)]
  rfl

theorem renderSRT_flatten : ∀ (css : List (List SubtitleEntry)), (∀ cs ∈ css, cs ≠ []) →
    List.intercalate nn (css.map renderSRT) = renderSRT css.flatten := by
  intro css
  induction css with
  | nil => intro _; rfl
  | cons cs rest ih =>
    intro hne
    cases rest with
    | nil =>
      rw [List.map_cons, List.map_nil, interc_single, List.flatten_cons, List.flatten_nil,
        List.append_nil]
    | cons cs2 rest2 =>
      have hstep : List.intercalate nn (List.map renderSRT (cs :: cs2 :: rest2)) =
          renderSRT cs ++ nn ++ List.intercalate nn (List.map renderSRT (cs2 :: rest2)) := by
        rw [List.map_cons, List.map_cons, interc_cons2]
      have hne2 : (cs2 :: rest2).flatten ≠ [] := by
        rw [List.flatten_cons]
        intro hcon
        rw [List.append_eq_nil] at hcon
        exact hne cs2 (by simp) hcon.1
      rw [hstep, ih (fun x hx => hne x (List.mem_cons_of_mem cs hx))]
      rw [show (cs :: cs2 :: rest2).flatten = cs ++ (cs2 :: rest2).flatten from rfl]
      rw [renderSRT_append (hne cs (by simp)) hne2]

theorem mergeChunks_chunk_ne : ∀ (ess : List (List SubtitleEntry)) (z : ℤ),
    (∀ es ∈ ess, es ≠ []) → ∀ cs ∈ mergeChunks ess z, cs ≠ [] := by
  intro ess
  induction ess with
  | nil => intro z _ cs hcs; simp [mergeChunks] at hcs
  | cons es rest ih =>
    intro z hne cs hcs
    rw [mergeChunks] at hcs
    rcases List.mem_cons.mp hcs with h | h
    · subst h
      intro hcon
      rw [List.map_eq_nil_iff] at hcon
      exact hne es (by simp) hcon
    · exact ih _ (fun x hx => hne x (List.mem_cons_of_mem es hx)) cs h

theorem mergeChunks_good : ∀ (ess : List (List SubtitleEntry)) (z : ℤ), 0 ≤ z →
    (∀ es ∈ ess, ∀ e ∈ es, WFEntry e) →
    ∀ e ∈ (mergeChunks ess z).flatten, GoodEntry e := by
  intro ess
  induction ess with
  | nil => intro z _ _ e he; simp [mergeChunks] at he
  | cons es rest ih =>
    intro z hz hwf e he
    rw [mergeChunks, List.flatten_cons] at he
    rcases List.mem_append.mp he with h | h
    · rw [List.mem_map] at h
      obtain ⟨x, hx, hxe⟩ := h
      rw [← hxe]
      exact wf_goodEntry_shiftIdx (hwf es (by simp) x hx) z
    · refine ih (z + es.length) (by positivity) (fun cs hcs => hwf cs (List.mem_cons_of_mem es hcs)) e h

theorem shiftIdx_map_ids {es : List SubtitleEntry} {z : ℤ}
    (hids : es.map (fun e => e.index) =
      (List.range es.length).map (fun i => SubIdx.intIdx (Int.ofNat i + 1))) :
    (es.map (shiftIdx z)).map (fun e => e.index) =
      (List.range es.length).map (fun i => SubIdx.intIdx (Int.ofNat i + 1 + z)) := by
  apply List.ext_getElem?
  intro k
  rw [List.getElem?_map, List.getElem?_map, List.getElem?_map]
  have h1 := congrArg (fun l => l[k]?) hids
  simp only [List.getElem?_map] at h1
  cases hk : es[k]? with
  | none =>
    have hlen : es.length ≤ k := by
      rw [← List.getElem?_eq_none_iff]
      exact hk
    rw [List.getElem?_eq_none_iff.mpr (by rw [List.length_range]; exact hlen)]
    rfl
  | some x =>
    rw [hk] at h1
    have hlt : k < es.length := (List.getElem?_eq_some_iff.mp hk).1
    rw [List.getElem?_range hlt] at h1 ⊢
    simp only [Option.map_some'] at h1 ⊢
    rw [Option.some_inj] at h1
    rw [shiftIdx, h1]

theorem mergeChunks_ids : ∀ (ess : List (List SubtitleEntry)) (off : ℕ),
    (∀ es ∈ ess, ChunkOK es) →
    ((mergeChunks ess (off : ℤ)).flatten).map (fun e => e.index) =
      (List.range (ess.map List.length).sum).map
        (fun i => SubIdx.intIdx (Int.ofNat i + 1 + (off : ℤ))) := by
  intro ess
  induction ess with
  | nil => intro off _; rfl
  | cons es rest ih =>
    intro off hok
    obtain ⟨hne, hwf, hids⟩ := hok es (by simp)
    rw [mergeChunks, List.flatten_cons, List.map_append]
    rw [shiftIdx_map_ids hids]
    have hoffs : ((off : ℤ)) + (es.length : ℤ) = ((off + es.length : ℕ) : ℤ) := by
      push_cast
      ring
    rw [hoffs, ih (off + es.length) (fun x hx => hok x (List.mem_cons_of_mem es hx))]
    rw [List.map_cons, List.sum_cons, List.range_add, List.map_append, List.map_map]
    congr 1
    apply List.map_congr_left
    intro i _
    simp only [Function.comp_apply]
    congr 1
    simp only [Int.ofNat_eq_natCast]
    push_cast
    ring

/-- Claim C1: when every chunk transcribes successfully, the merged
transcript assembled by `transcribe_audio_async` (chunks sorted by
ordinal, each renumbered by the running caption count of the earlier
chunks, joined with blank lines) parses back to caption ids forming the
contiguous sequence `1..N` with no gaps or duplicates, where `N` is the
sum of the per-chunk caption counts computed by the merge loop. -/
theorem claim_C1_merged_ids (ess : List (List SubtitleEntry))
    (h : ∀ es ∈ ess, ChunkOK es) :
    (parse_srt (combineTranscripts (numberFrom 1 (ess.map renderSRT)))).map
        (fun e => e.index) =
      (List.range ((ess.map (fun es => subtitleCount (renderSRT es))).sum)).map
        (fun i => SubIdx.intIdx (Int.ofNat i + 1)) := by
  have hsub : ess.map (fun es => subtitleCount (renderSRT es)) = ess.map List.length :=
    List.map_congr_left (fun es hes => subtitleCount_renderSRT (h es hes).1
      (fun e he => ((h es hes).2.1 e he).1))
  rw [hsub]
  cases ess with
  | nil => rfl
  | cons es0 rest =>
    rw [combineTranscripts, sortByFst_numberFrom]
    rw [combineLoop_top (es0 :: rest) h]
    show (parse_srt (List.intercalate nn
      ((mergeChunks (es0 :: rest) 0).map renderSRT))).map (fun e => e.index) = _
    rw [renderSRT_flatten _ (mergeChunks_chunk_ne _ _ (fun es hes => (h es hes).1))]
    have hflat_ne : (mergeChunks (es0 :: rest) 0).flatten ≠ [] := by
      rw [mergeChunks, List.flatten_cons]
      intro hcon
      rw [List.append_eq_nil, List.map_eq_nil_iff] at hcon
      exact (h es0 (by simp)).1 hcon.1
    rw [parse_renderSRT hflat_ne
      (mergeChunks_good (es0 :: rest) 0 le_rfl (fun es hes e he => (h es hes).2.1 e he))]
    have hids := mergeChunks_ids (es0 :: rest) 0 h
    simp only [Nat.cast_zero, add_zero] at hids
    exact hids

/-- Witness chunk 1: one caption. -/
def wE1 : SubtitleEntry := ⟨.intIdx 1, S "00:00:00,000", S "00:00:01,000", S "Hello"⟩

/-- Witness chunk 2: one caption. -/
def wE2 : SubtitleEntry := ⟨.intIdx 1, S "00:00:01,000", S "00:00:02,000", S "World"⟩

/-- The witness chunk list. -/
def wEss : List (List SubtitleEntry) := [[wE1], [wE2]]

theorem wWF1 : WFEntry wE1 :=
  ⟨⟨⟨1, rfl⟩, by decide, by decide, by decide, by decide⟩, ⟨1, rfl, by decide⟩,
    ⟨by decide, by decide, by decide⟩, ⟨by decide, by decide, by decide⟩, by decide⟩

theorem wWF2 : WFEntry wE2 :=
  ⟨⟨⟨1, rfl⟩, by decide, by decide, by decide, by decide⟩, ⟨1, rfl, by decide⟩,
    ⟨by decide, by decide, by decide⟩, ⟨by decide, by decide, by decide⟩, by decide⟩

theorem wChunkOK : ∀ es ∈ wEss, ChunkOK es := by
  intro es hes
  rw [wEss] at hes
  simp only [List.mem_cons, List.not_mem_nil, or_false] at hes
  rcases hes with h | h
  · subst h
    exact ⟨by decide, fun e he => by
      simp only [List.mem_singleton] at he
      subst he
      exact wWF1, by decide⟩
  · subst h
    exact ⟨by decide, fun e he => by
      simp only [List.mem_singleton] at he
      subst he
      exact wWF2, by decide⟩

/-- Witness for C1: two one-caption chunks merge to the id sequence 1, 2. -/
theorem claim_C1_witness :
    (∀ es ∈ wEss, ChunkOK es) ∧
    (parse_srt (combineTranscripts (numberFrom 1 (wEss.map renderSRT)))).map
        (fun e => e.index) =
      (List.range ((wEss.map (fun es => subtitleCount (renderSRT es))).sum)).map
        (fun i => SubIdx.intIdx (Int.ofNat i + 1)) :=
  ⟨wChunkOK, claim_C1_merged_ids wEss wChunkOK⟩

end SubtitleImprover
